import Mathlib

/-!
FinalTake: filter codec, mood scoring, username suggestions, URL effect, sign-up.

A shallow embedding of

* `frontend/src/utils/movieApi.js`: `calculateMoodScore` (lines 134-149) with the
  `MOOD_TAGS` table (lines 10-17); `encodeFiltersToURL` (lines 152-162) and
  `decodeFiltersFromURL` (lines 165-173), together with the parts of the platform
  they call: `URLSearchParams` (`set`, `get`, `toString`, construction from a
  string), `Array.prototype.join`, `String.prototype.split`, `parseInt` and the
  `||` operator;
* `frontend/src/utils/usernameGenerator.js`: the two word tables,
  `generateMovieUsernames` on a supplied sequence of `Math.random` draws, and
  `explainUsername` with its pattern of three greedy groups;
* `frontend/src/App.js`, lines 66-71: the effect that mirrors the filters into the
  query string;
* `frontend/src/context/AuthContext.js`, lines 55-90: `signup`, with the two
  storage items and the `user` state as an explicit state.

JavaScript strings are modelled as Lean strings, that is as sequences of Unicode
scalar values (no lone surrogates). Numbers are modelled as integers (`JSVal.num`)
plus `NaN` (`JSVal.nan`): the integer-valued doubles. `parseInt` rounds the value
it reads to the nearest double and `Number::toString` writes the shortest digits
that identify a double; the overflow of `parseInt` to `Infinity` is not modelled.
Every general statement about the reading or writing of a number is made for the
safe integers, those of absolute value below `2 ^ 53`, on which no rounding
happens; this covers genre identifiers and years.

Exceptions are modelled with `Except`: a function that can raise returns
`Except JSError _`.
-/

namespace FinalTake

/-! ## JavaScript values -/

/-- The exceptions the embedded code can raise. -/
inductive JSError where
  | typeError (msg : String)
  deriving DecidableEq, Repr

/-- Equality of results is decidable when it is for errors and values. -/
instance instDecidableEqExcept {ε α : Type} [DecidableEq ε] [DecidableEq α] :
    DecidableEq (Except ε α)
  | .ok a, .ok b => if h : a = b then isTrue (by rw [h]) else isFalse (fun e => h (by cases e; rfl))
  | .error a, .error b =>
    if h : a = b then isTrue (by rw [h]) else isFalse (fun e => h (by cases e; rfl))
  | .ok _, .error _ => isFalse (fun e => by cases e)
  | .error _, .ok _ => isFalse (fun e => by cases e)

/-- The primitive values that occur in a filter selection and in the codec:
`undefined`, `null`, `NaN`, an integer-valued number, a string. -/
inductive JSVal where
  | undefined
  | null
  | nan
  | num (n : Int)
  | str (s : String)
  deriving DecidableEq, Repr

/-- The character of a decimal digit. -/
def digitChar (d : Nat) : Char := Char.ofNat (48 + d)

/-- Decimal digits of a natural number, most significant first, in front of `acc`;
`fuel` bounds the number of digits. -/
def decimalDigits : Nat → Nat → List Char → List Char
  | 0, _, acc => acc
  | fuel + 1, n, acc =>
    if n < 10 then digitChar n :: acc
    else decimalDigits fuel (n / 10) (digitChar (n % 10) :: acc)

/-- The decimal rendering of an integer: a minus sign for a negative one, then the
decimal digits. -/
def decimalString (n : Int) : String :=
  if n < 0 then ⟨'-' :: decimalDigits (n.natAbs + 1) n.natAbs []⟩
  else ⟨decimalDigits (n.natAbs + 1) n.natAbs []⟩

/-- The number of binary digits of a natural number; `fuel` bounds it. -/
def bitLength : Nat → Nat → Nat
  | 0, _ => 0
  | fuel + 1, p => if p = 0 then 0 else bitLength fuel (p / 2) + 1

/-- Rounding a natural number to 53 significant binary digits, to the nearest such
number and on a tie to the one with the even significand: the double nearest to
`p`, for `p` that rounds below `2 ^ 1024`. -/
def roundSignificand (p : Nat) : Nat :=
  let s := bitLength p p - 53
  let q := p / 2 ^ s
  let r := p % 2 ^ s
  if 2 ^ s < 2 * r ∨ (2 * r = 2 ^ s ∧ q % 2 = 1) then (q + 1) * 2 ^ s else q * 2 ^ s

/-- The two numbers with `k` significant decimal digits around `v`, a number of
`len` decimal digits: `v` cut after its first `k` digits, and the next number of
that form. -/
def digitCandidates (v len k : Nat) : List Nat :=
  [v / 10 ^ (len - k) * 10 ^ (len - k), v / 10 ^ (len - k) * 10 ^ (len - k) + 10 ^ (len - k)]

/-- Those of the candidates with `k` significant digits that the double `v` is the
nearest double of. -/
def validCandidates (v len k : Nat) : List Nat :=
  (digitCandidates v len k).filter (fun c => roundSignificand c = v)

/-- The candidate nearest to `v`; of two equally near ones the one whose last
significant digit is even. -/
def nearestCandidate (v unit : Nat) : List Nat → Nat
  | [c] => c
  | [lo, hi] =>
    if v - lo < hi - v then lo
    else if hi - v < v - lo then hi
    else if lo / unit % 2 = 0 then lo
    else hi
  | _ => v

/-- The search for the fewest significant digits, from `k` digits on, in at most
`fuel` steps. -/
def shortestFrom (v len : Nat) : Nat → Nat → Nat
  | 0, _ => v
  | fuel + 1, k =>
    if (validCandidates v len k).isEmpty then shortestFrom v len fuel (k + 1)
    else nearestCandidate v (10 ^ (len - k)) (validCandidates v len k)

/-- The number whose digits `Number::toString` writes for the integer-valued
double `v`: with as few significant decimal digits as possible, a number that `v`
is the nearest double of, and the nearest to `v` of these. -/
def shortestDecimal (v : Nat) : Nat :=
  shortestFrom v (decimalDigits (v + 1) v []).length (decimalDigits (v + 1) v []).length 1

/-- A run of digits without its trailing zeros. -/
def stripTrailingZeros (ds : List Char) : List Char :=
  (ds.reverse.dropWhile (fun c => c == '0')).reverse

/-- The mantissa of the exponent notation: the first digit, and a point and the
other digits when there are any. -/
def mantissa (ds : List Char) : List Char :=
  match ds with
  | [] => []
  | [d] => [d]
  | d :: rest => d :: '.' :: rest

/-- The exponent notation of an integer: the mantissa of its digits up to the last
one that is not zero, then `e+` and the decimal exponent. -/
def exponentString (n : Int) : String :=
  let ds := decimalDigits (n.natAbs + 1) n.natAbs []
  let body := mantissa (stripTrailingZeros ds) ++
    'e' :: '+' :: decimalDigits ds.length (ds.length - 1) []
  if n < 0 then ⟨'-' :: body⟩ else ⟨body⟩

/-- The `Number::toString` conversion (radix 10) of an integer-valued double: the
shortest digits that identify the double, written as a decimal rendering below
`10 ^ 21` and in exponent notation from there on. For a safe integer these are
the digits of the integer itself. -/
def numberToString (n : Int) : String :=
  let shortest : Nat := shortestDecimal n.natAbs
  let signed : Int := if n < 0 then -(shortest : Int) else shortest
  if shortest < 10 ^ 21 then decimalString signed else exponentString signed

/-- The abstract operation `ToString`. -/
def JSVal.toStr : JSVal → String
  | .undefined => "undefined"
  | .null => "null"
  | .nan => "NaN"
  | .num n => numberToString n
  | .str s => s

/-- The abstract operation `ToBoolean`: `undefined`, `null`, `NaN`, `0` and `""`
are falsy, everything else is truthy. -/
def JSVal.truthy : JSVal → Bool
  | .undefined => false
  | .null => false
  | .nan => false
  | .num n => n != 0
  | .str s => s != ""

/-- The operator `a || b`. -/
def jsOr (a b : JSVal) : JSVal := if a.truthy then a else b

/-- The string an element contributes to `Array.prototype.join`: the empty string
for `undefined` and `null`, `ToString` of the element otherwise. -/
def joinElement : JSVal → String
  | .undefined => ""
  | .null => ""
  | v => v.toStr

/-- The method `Array.prototype.join(sep)`. -/
def arrayJoin (xs : List JSVal) (sep : String) : String :=
  sep.intercalate (xs.map joinElement)

/-- Splitting a sequence at every occurrence of `sep`; the empty sequence
gives one empty segment. -/
def splitAt {α : Type} [DecidableEq α] (sep : α) : List α → List (List α)
  | [] => [[]]
  | x :: xs =>
    if x = sep then [] :: splitAt sep xs
    else
      match splitAt sep xs with
      | [] => [[x]]
      | seg :: segs => (x :: seg) :: segs

/-- The method `String.prototype.split(sep)` for a one-character separator. -/
def stringSplit (s : String) (sep : Char) : List String :=
  (splitAt sep s.data).map String.mk

/-- The method `String.prototype.includes(needle)`: `needle` occurs in `hay` as a
contiguous run. -/
def includes (hay needle : String) : Bool :=
  hay.data.tails.any (fun t => needle.data.isPrefixOf t)

/-- The method `String.prototype.toLowerCase` on the Basic Latin letters; the
scorer takes the lower-casing function as a parameter and this is the instance
used to evaluate it on ASCII names. -/
def toLowerCaseASCII (s : String) : String := ⟨s.data.map Char.toLower⟩

/-! ## Mood scoring -/

/-- A genre object of the metadata service; `name` may be missing. -/
structure Genre where
  name : Option String
  deriving DecidableEq, Repr

/-- The own properties of the `MOOD_TAGS` object literal, in source order. -/
def MOOD_TAGS : List (String × List String) :=
  [ ("Feel-Good", ["comedy", "family", "romance", "music"]),
    ("Mind-Bending", ["thriller", "science fiction", "mystery"]),
    ("Dark", ["horror", "crime", "war"]),
    ("Action-Packed", ["action", "adventure"]),
    ("Emotional", ["drama", "romance"]),
    ("Epic", ["fantasy", "adventure", "history"]) ]

/-- The property names every object literal inherits from `Object.prototype`;
each of them holds a function or an object, so each is truthy and none has a
`filter` method. -/
def objectPrototypeKeys : List String :=
  [ "constructor", "hasOwnProperty", "isPrototypeOf", "propertyIsEnumerable",
    "toLocaleString", "toString", "valueOf", "__proto__",
    "__defineGetter__", "__defineSetter__", "__lookupGetter__", "__lookupSetter__" ]

/-- What the property read `MOOD_TAGS[mood]` yields. -/
inductive MoodLookup where
  | keywords (ks : List String)
  | inherited
  | undefined
  deriving DecidableEq, Repr

/-- The property read `MOOD_TAGS[mood]`: an own property first, then the prototype
chain, then `undefined`. -/
def moodTagsGet (mood : String) : MoodLookup :=
  match MOOD_TAGS.lookup mood with
  | some ks => .keywords ks
  | none => if objectPrototypeKeys.contains mood then .inherited else .undefined

/-- The callback `movieGenre => movieGenre.includes(genre)`; `movieGenre` is
`undefined` when the genre object had no name. -/
def genreIncludes (genre : String) (movieGenre : Option String) : Except JSError Bool :=
  match movieGenre with
  | none => throw (.typeError "Cannot read properties of undefined (reading 'includes')")
  | some n => pure (includes n genre)

/-- The body of the `forEach` callback `mood => { ... }`: the score after `mood`
has been counted, given the score before; `genreNames` are the lower-cased names,
`none` for a genre without a name. -/
def scoreMood (genreNames : List (Option String)) (score : Nat) (mood : String) :
    Except JSError Nat := do
  let moodGenres ← match moodTagsGet mood with
    | .keywords ks => pure ks
    | .inherited => throw (.typeError "moodGenres.filter is not a function")
    | .undefined => pure []
  let hits ← moodGenres.filterM (fun genre => genreNames.anyM (genreIncludes genre))
  pure (score + hits.length * 20)

/-- The scorer `calculateMoodScore(movieGenres, selectedMoods)`; `lower` stands for
`String.prototype.toLowerCase`, `none` for a missing argument. -/
def calculateMoodScore (lower : String → String) (movieGenres : Option (List Genre))
    (selectedMoods : Option (List String)) : Except JSError Nat :=
  match selectedMoods with
  | none => pure 0
  | some [] => pure 0
  | some moods => do
    let genres ← match movieGenres with
      | none => throw (.typeError "Cannot read properties of undefined (reading 'map')")
      | some gs => pure gs
    let genreNames := genres.map (fun g => g.name.map lower)
    let score ← moods.foldlM (scoreMood genreNames) 0
    pure (min score 100)

/-! ## Query strings: UTF-8, percent-encoding, `URLSearchParams` -/

/-- The UTF-8 bytes of a code point. -/
def utf8EncodeCodePoint (c : Nat) : List Nat :=
  if c < 0x80 then [c]
  else if c < 0x800 then [0xC0 + c / 64, 0x80 + c % 64]
  else if c < 0x10000 then [0xE0 + c / 4096, 0x80 + c / 64 % 64, 0x80 + c % 64]
  else [0xF0 + c / 262144, 0x80 + c / 4096 % 64, 0x80 + c / 64 % 64, 0x80 + c % 64]

/-- The operation UTF-8 encode on a scalar value string. -/
def utf8Encode (s : List Char) : List Nat :=
  s.flatMap (fun c => utf8EncodeCodePoint c.toNat)

/-- The state of the UTF-8 decoder between two bytes. -/
structure Utf8State where
  codePoint : Nat
  bytesSeen : Nat
  bytesNeeded : Nat
  lower : Nat
  upper : Nat
  deriving DecidableEq, Repr

/-- The decoder state before the first byte and after every emitted code point. -/
def Utf8State.init : Utf8State := ⟨0, 0, 0, 0x80, 0xBF⟩

/-- What the decoder does with a byte when no bytes are pending. -/
inductive Utf8Lead where
  | emit (c : Nat)
  | start (st : Utf8State)
  | invalid
  deriving DecidableEq, Repr

/-- The decoder on a byte with `bytesNeeded = 0`: an ASCII byte is emitted, a lead
byte opens a sequence (with the narrowed boundaries after E0, ED, F0, F4), any
other byte is an error. -/
def utf8Lead (b : Nat) : Utf8Lead :=
  if b ≤ 0x7F then .emit b
  else if 0xC2 ≤ b ∧ b ≤ 0xDF then .start ⟨b % 32, 0, 1, 0x80, 0xBF⟩
  else if 0xE0 ≤ b ∧ b ≤ 0xEF then
    .start ⟨b % 16, 0, 2, if b = 0xE0 then 0xA0 else 0x80, if b = 0xED then 0x9F else 0xBF⟩
  else if 0xF0 ≤ b ∧ b ≤ 0xF4 then
    .start ⟨b % 8, 0, 3, if b = 0xF0 then 0x90 else 0x80, if b = 0xF4 then 0x8F else 0xBF⟩
  else .invalid

/-- The operation UTF-8 decode without BOM, errors replaced by U+FFFD: a byte
outside the expected boundaries ends the pending sequence with U+FFFD and is
then read again as a first byte; pending bytes at the end give U+FFFD. -/
def utf8DecodeFrom : Utf8State → List Nat → List Char
  | st, [] => if st.bytesNeeded = 0 then [] else [Char.ofNat 0xFFFD]
  | st, b :: bs =>
    if st.bytesNeeded = 0 then
      match utf8Lead b with
      | .emit c => Char.ofNat c :: utf8DecodeFrom Utf8State.init bs
      | .start st1 => utf8DecodeFrom st1 bs
      | .invalid => Char.ofNat 0xFFFD :: utf8DecodeFrom Utf8State.init bs
    else if b < st.lower ∨ st.upper < b then
      Char.ofNat 0xFFFD ::
        (match utf8Lead b with
        | .emit c => Char.ofNat c :: utf8DecodeFrom Utf8State.init bs
        | .start st1 => utf8DecodeFrom st1 bs
        | .invalid => Char.ofNat 0xFFFD :: utf8DecodeFrom Utf8State.init bs)
    else if st.bytesSeen + 1 = st.bytesNeeded then
      Char.ofNat (st.codePoint * 64 + b % 64) :: utf8DecodeFrom Utf8State.init bs
    else
      utf8DecodeFrom ⟨st.codePoint * 64 + b % 64, st.bytesSeen + 1, st.bytesNeeded, 0x80, 0xBF⟩ bs

/-- The operation UTF-8 decode without BOM on a whole byte sequence. -/
def utf8Decode (bs : List Nat) : List Char := utf8DecodeFrom Utf8State.init bs

/-- The upper-case hexadecimal digit (as a byte) of a value below 16. -/
def hexDigit (n : Nat) : Nat := if n < 10 then 48 + n else 55 + n

/-- The value of an ASCII hex digit byte, if it is one. -/
def hexValue (b : Nat) : Option Nat :=
  if 48 ≤ b ∧ b ≤ 57 then some (b - 48)
  else if 65 ≤ b ∧ b ≤ 70 then some (b - 55)
  else if 97 ≤ b ∧ b ≤ 102 then some (b - 87)
  else none

/-- The bytes the form-urlencoded serializer leaves as they are: ASCII
alphanumerics and `*`, `-`, `.`, `_`. -/
def urlencodedSafe (b : Nat) : Bool :=
  (48 ≤ b && b ≤ 57) || (65 ≤ b && b ≤ 90) || (97 ≤ b && b ≤ 122) ||
    b == 42 || b == 45 || b == 46 || b == 95

/-- The form-urlencoded encoding of a byte: space becomes `+`, a safe byte stays,
every other byte becomes `%XX`. -/
def urlencodeByte (b : Nat) : List Nat :=
  if b = 0x20 then [0x2B]
  else if urlencodedSafe b then [b]
  else [0x25, hexDigit (b / 16), hexDigit (b % 16)]

/-- The form-urlencoded encoding of a string, as ASCII bytes. -/
def urlencode (s : String) : List Nat :=
  (utf8Encode s.data).flatMap urlencodeByte

/-- The byte two hex digits at the head of a sequence stand for, if the sequence
starts with two hex digits. -/
def hexPair (bs : List Nat) : Option Nat :=
  match bs with
  | h :: l :: _ =>
    match hexValue h, hexValue l with
    | some x, some y => some (16 * x + y)
    | _, _ => none
  | _ => none

/-- Percent-decoding with `skip` bytes still to pass over: a `%` followed by two
hex digits gives the byte they stand for and passes over the two digits, any
other byte is kept. -/
def percentDecodeSkip : Nat → List Nat → List Nat
  | _, [] => []
  | skip + 1, _ :: rest => percentDecodeSkip skip rest
  | 0, b :: rest =>
    if b = 0x25 then
      match hexPair rest with
      | some v => v :: percentDecodeSkip 2 rest
      | none => b :: percentDecodeSkip 0 rest
    else b :: percentDecodeSkip 0 rest

/-- The operation percent-decode on a byte sequence. -/
def percentDecode (bs : List Nat) : List Nat := percentDecodeSkip 0 bs

/-- The replacement of `+` by a space the parser applies before percent-decoding. -/
def plusToSpace (b : Nat) : Nat := if b = 0x2B then 0x20 else b

/-- The decoding the form-urlencoded parser applies to a name or a value: `+`
becomes a space, then percent-decode, then UTF-8 decode without BOM. -/
def urldecode (bs : List Nat) : String :=
  ⟨utf8Decode (percentDecode (bs.map plusToSpace))⟩

/-- A `URLSearchParams` object: its list of name-value pairs. -/
abbrev URLSearchParams := List (String × String)

/-- The method `URLSearchParams.prototype.get(name)`: the value of the first pair
with that name, `null` when there is none. -/
def URLSearchParams.get (params : URLSearchParams) (name : String) : JSVal :=
  match params.find? (fun p => p.1 == name) with
  | some p => .str p.2
  | none => .null

/-- The method `URLSearchParams.prototype.set(name, value)`: the first pair with
that name takes the value and the other pairs with that name are removed; with no
such pair, the pair is appended. -/
def URLSearchParams.set (params : URLSearchParams) (name value : String) : URLSearchParams :=
  match params.span (fun p => p.1 != name) with
  | (before, _ :: after) => before ++ (name, value) :: after.filter (fun p => p.1 != name)
  | (before, []) => before ++ [(name, value)]

/-- The form-urlencoded serializer, as ASCII bytes: `name=value` pairs joined
by `&`. -/
def urlencodedSerialize (params : URLSearchParams) : List Nat :=
  [0x26].intercalate (params.map (fun p => urlencode p.1 ++ 0x3D :: urlencode p.2))

/-- The method `URLSearchParams.prototype.toString()`. -/
def URLSearchParams.toString (params : URLSearchParams) : String :=
  ⟨(urlencodedSerialize params).map Char.ofNat⟩

/-- The name and value of one `&`-separated segment: split at the first `=`, the
whole segment being the name when there is none. -/
def parsePair (seg : List Nat) : String × String :=
  match seg.span (fun b => b != 0x3D) with
  | (name, _ :: value) => (urldecode name, urldecode value)
  | (name, []) => (urldecode name, urldecode [])

/-- The form-urlencoded parser on bytes: split at `&`, skip empty segments. -/
def urlencodedParse (input : List Nat) : URLSearchParams :=
  ((splitAt 0x26 input).filter (fun seg => !seg.isEmpty)).map parsePair

/-- The constructor `new URLSearchParams(init)` on a string: a leading `?` is
removed and the rest is UTF-8 encoded and parsed. -/
def URLSearchParams.ofString (init : String) : URLSearchParams :=
  match init.data with
  | c :: cs => if c = '?' then urlencodedParse (utf8Encode cs) else urlencodedParse (utf8Encode (c :: cs))
  | [] => urlencodedParse []

/-! ## `parseInt` -/

/-- The characters `parseInt` skips in front of the number: white space and line
terminators. -/
def isStrWhiteSpaceChar (c : Char) : Bool :=
  let n := c.toNat
  (9 ≤ n && n ≤ 13) || n == 0x20 || n == 0xA0 || n == 0x1680 || (0x2000 ≤ n && n ≤ 0x200A) ||
    n == 0x2028 || n == 0x2029 || n == 0x202F || n == 0x205F || n == 0x3000 || n == 0xFEFF

/-- The value of a digit character in radix `r`, if it is one. -/
def radixDigit (r : Nat) (c : Char) : Option Nat :=
  let n := c.toNat
  let v := if 48 ≤ n ∧ n ≤ 57 then some (n - 48)
    else if 97 ≤ n ∧ n ≤ 122 then some (n - 87)
    else if 65 ≤ n ∧ n ≤ 90 then some (n - 55)
    else none
  v.filter (fun d => d < r)

/-- The longest prefix of radix-`r` digits, as digit values. -/
def takeDigits (r : Nat) : List Char → List Nat
  | [] => []
  | c :: cs =>
    match radixDigit r c with
    | some d => d :: takeDigits r cs
    | none => []

/-- The mathematical value of a digit sequence in radix `r`. -/
def digitsValue (r : Nat) (ds : List Nat) : Nat :=
  ds.foldl (fun acc d => acc * r + d) 0

/-- The sign `parseInt` reads, and the rest of the input. -/
def parseSign (s : List Char) : Int × List Char :=
  match s with
  | c :: cs => if c = '-' then (-1, cs) else if c = '+' then (1, cs) else (1, s)
  | [] => (1, s)

/-- The radix `parseInt` uses when none is given, and the rest of the input: 16
after `0x` or `0X`, 10 otherwise. -/
def parseRadix (s : List Char) : Nat × List Char :=
  match s with
  | c :: d :: cs => if c = '0' ∧ (d = 'x' ∨ d = 'X') then (16, cs) else (10, s)
  | _ => (10, s)

/-- The function `parseInt(string)` with no radix argument: leading white space,
an optional sign, an optional `0x`, then the longest run of digits; `NaN` when
that run is empty. The result is the double nearest to the value of the run; the
overflow to `Infinity` of a value that rounds to `2 ^ 1024` or more is not
modelled. -/
def parseInt (input : JSVal) : JSVal :=
  let trimmed := input.toStr.data.dropWhile isStrWhiteSpaceChar
  let (sign, unsigned) := parseSign trimmed
  let (radix, body) := parseRadix unsigned
  let digits := takeDigits radix body
  if digits.isEmpty then .nan
  else .num (sign * (roundSignificand (digitsValue radix digits) : Int))

/-! ## The filter codec -/

/-- A filter selection object; a list field may be missing, a year field holds any
primitive value. -/
structure Filters where
  genres : Option (List JSVal)
  moods : Option (List JSVal)
  rating : Option (List JSVal)
  year_from : JSVal
  year_to : JSVal
  deriving DecidableEq, Repr

/-- The test `filters.field?.length`: the field is present and not empty. -/
def hasLength (field : Option (List JSVal)) : Bool :=
  match field with
  | some (_ :: _) => true
  | _ => false

/-- The members of a list field, none when the field is missing. -/
def members (field : Option (List JSVal)) : List JSVal := field.getD []

/-- The `URLSearchParams` object `encodeFiltersToURL` builds before it is
serialized. -/
def encodeParams (filters : Filters) : URLSearchParams :=
  let params : URLSearchParams := []
  let params := if hasLength filters.genres then
    params.set "genres" (arrayJoin (members filters.genres) ",") else params
  let params := if hasLength filters.moods then
    params.set "moods" (arrayJoin (members filters.moods) ",") else params
  let params := if hasLength filters.rating then
    params.set "rating" (arrayJoin (members filters.rating) ",") else params
  let params := if filters.year_from.truthy then
    params.set "year_from" filters.year_from.toStr else params
  let params := if filters.year_to.truthy then
    params.set "year_to" filters.year_to.toStr else params
  params

/-- The function `encodeFiltersToURL(filters)`. -/
def encodeFiltersToURL (filters : Filters) : String :=
  (encodeParams filters).toString

/-- The expression `searchParams.get(key)?.split(',').filter(Boolean) || []`. -/
def decodeList (searchParams : URLSearchParams) (key : String) : List JSVal :=
  match searchParams.get key with
  | .str v => ((stringSplit v ',').map JSVal.str).filter JSVal.truthy
  | _ => []

/-- The function `decodeFiltersFromURL(searchParams)`. -/
def decodeFiltersFromURL (searchParams : URLSearchParams) : Filters :=
  { genres := some (decodeList searchParams "genres")
    moods := some (decodeList searchParams "moods")
    rating := some (decodeList searchParams "rating")
    year_from := jsOr (parseInt (searchParams.get "year_from")) (.num 1990)
    year_to := jsOr (parseInt (searchParams.get "year_to")) (.num 2024) }

/-! ## The username generator (`frontend/src/utils/usernameGenerator.js`) -/

/-- The array `moviePrefixes`, in source order. -/
def moviePrefixes : List String :=
  [ "Kubrick", "Tarantino", "Hitchcock", "Scorsese", "Nolan", "Spielberg", "Coppola", "Lynch",
    "Fincher", "Anderson", "Cameron", "Burton", "Ridley", "Lucas", "Eastwood", "Allen",
    "Brooks", "Zemeckis", "Jackson", "Raimi", "Matrix", "Blade", "Neo", "Trinity", "Morpheus",
    "Vader", "Solo", "Leia", "Skywalker", "Obi", "Joker", "Batman", "Bond", "Ethan", "Rocky",
    "Luke", "Hans", "Sarah", "Ellen", "Rick", "Gandalf", "Frodo", "Aragorn", "Legolas", "Gimli",
    "Boromir", "Galadriel", "Elrond", "Saruman", "Sauron", "Casablanca", "Citizen", "Vertigo",
    "Psycho", "Sunset", "Singin", "Gone", "Lawrence", "Godfather", "Goodfellas", "Pulp",
    "Shawshank", "Schindler", "Forrest", "Titanic", "Avatar", "Inception", "Interstellar",
    "Gladiator", "Braveheart", "Noir", "Western", "Thriller", "Comedy", "Drama", "Action",
    "Sci", "Horror", "Romance", "Mystery", "Epic", "Classic", "Modern", "Vintage", "Silver",
    "Golden", "Midnight", "Crimson", "Neon", "Chrome", "Metro", "Warner", "Universal",
    "Paramount", "Disney", "Sony", "Fox", "Columbia", "Miramax", "Studio", "Cinema", "Film",
    "Movie", "Picture", "Motion", "Screen", "Reel", "Frame", "Scene", "Shot" ]

/-- The array `movieSuffixes`, in source order. -/
def movieSuffixes : List String :=
  [ "Frame", "Scene", "Take", "Cut", "Shot", "Reel", "Edit", "Vault", "Studio", "Lens", "Focus",
    "Zoom", "Pan", "Tilt", "Dolly", "Crane", "Boom", "Grip", "Gaffer", "Key", "Producer",
    "Director", "Writer", "Editor", "Composer", "Designer", "Critic", "Fan", "Buff", "Lover",
    "Watcher", "Viewer", "Observer", "Seeker", "Hunter", "Finder", "Collector", "Curator",
    "Guide", "Expert", "Angle", "Close", "Wide", "Medium", "Master", "Insert", "Cutaway",
    "Montage", "Sequence", "Transition", "Fade", "Dissolve", "Wipe", "Cross", "Match", "Jump",
    "Flash", "Freeze", "Slow", "Fast", "Vision", "Style", "Mood", "Tone", "Theme", "Motif",
    "Symbol", "Arc", "Beat", "Moment", "Peak", "Climax", "Twist", "Turn", "Reveal", "Surprise",
    "Shock", "Thrill", "Rush", "High" ]

/-- A value `Math.random()` can return: a double that is at least 0 and below 1,
written `m / 2 ^ e` with a significand `m` of at most 53 binary digits and an
exponent `e` of at most 1074. -/
structure Draw where
  m : Nat
  e : Nat
  significand : m < 2 ^ 53
  exponent : e ≤ 1074
  lt : m < 2 ^ e

/-- The draw `m / 2 ^ e`, and the draw 0 when that is not a double below 1. -/
def draw (m e : Nat) : Draw :=
  if h : m < 2 ^ 53 ∧ e ≤ 1074 ∧ m < 2 ^ e then ⟨m, e, h.1, h.2.1, h.2.2⟩
  else ⟨0, 0, by decide, by decide, by decide⟩

/-- The expression `Math.floor(Math.random() * n)` on a draw and an integer `n`:
the exact product `m * n / 2 ^ e` is rounded to a double (its numerator to 53
significant binary digits), which is then floored. -/
def floorTimes (d : Draw) (n : Nat) : Nat := roundSignificand (d.m * n) / 2 ^ d.e

/-- An array read `xs[i]` inside a template literal: the element, or the text
`undefined` when the index is out of range. -/
def templateAt (xs : List String) (i : Nat) : String := xs.getD i "undefined"

/-- One pass of the loop body: the username built from three draws. -/
def makeUsername (d1 d2 d3 : Draw) : String :=
  let pre := templateAt moviePrefixes (floorTimes d1 moviePrefixes.length)
  let suf := templateAt movieSuffixes (floorTimes d2 movieSuffixes.length)
  let number : Int := (floorTimes d3 90 + 10 : Nat)
  pre ++ suf ++ numberToString number

/-- The method `Set.prototype.add` on a set kept in insertion order. -/
def setAdd (s : List String) (x : String) : List String :=
  if s.contains x then s else s ++ [x]

/-- The loop `while (usernames.size < 4) { ... }` on the draws still to come;
`none` when the draws run out before the set has four members. -/
def usernameLoop : List Draw → List String → Option (List String)
  | d1 :: d2 :: d3 :: rest, usernames =>
    if usernames.length < 4 then usernameLoop rest (setAdd usernames (makeUsername d1 d2 d3))
    else some usernames
  | _, usernames => if usernames.length < 4 then none else some usernames

/-- The function `generateMovieUsernames()` on a sequence of draws of
`Math.random()`. -/
def generateMovieUsernames (draws : List Draw) : Option (List String) :=
  usernameLoop draws []

/-- The class `[A-Za-z]`. -/
def isAsciiLetter (c : Char) : Bool :=
  (65 ≤ c.toNat && c.toNat ≤ 90) || (97 ≤ c.toNat && c.toNat ≤ 122)

/-- The class `\d`. -/
def isAsciiDigit (c : Char) : Bool := 48 ≤ c.toNat && c.toNat ≤ 57

/-- Backtracking of one greedy group `(C+)`: the longest length first, down to one
character, the first length for which the rest of the pattern `k` matches. -/
def tryLengths (k : List Char → Option (List (List Char))) (s : List Char) :
    Nat → Option (List (List Char))
  | 0 => none
  | n + 1 =>
    match k (s.drop (n + 1)) with
    | some groups => some (s.take (n + 1) :: groups)
    | none => tryLengths k s n

/-- Matching a pattern `^(C1+)(C2+)...(Cn+)$` of greedy groups against a whole
string: the captured groups, or `none` when there is no match. -/
def matchGroups : List (Char → Bool) → List Char → Option (List (List Char))
  | [], s => if s.isEmpty then some [] else none
  | c :: cs, s => tryLengths (matchGroups cs) s (s.takeWhile c).length

/-- The function `explainUsername(username)`, with the pattern
`/^([A-Za-z]+)([A-Za-z]+)(\d+)$/`. -/
def explainUsername (username : String) : String :=
  match matchGroups [isAsciiLetter, isAsciiLetter, isAsciiDigit] username.data with
  | some (pre :: suf :: _) =>
    if moviePrefixes.contains ⟨pre⟩ then
      if ["Frame", "Scene", "Take", "Cut", "Shot"].contains ⟨suf⟩ then
        "Film reference + Production term"
      else if ["Critic", "Fan", "Buff", "Lover"].contains ⟨suf⟩ then
        "Movie reference + Cinema enthusiast"
      else "Cinema-inspired + Film industry term"
    else "Movie-themed username"
  | _ => "Movie-inspired username"

/-! ## The URL effect of `MovieApp` (`frontend/src/App.js`, lines 66-71) -/

/-- The hook value `searchParams` of `useSearchParams()`: the `URLSearchParams`
object the router constructs from the query text of the address bar. -/
def useSearchParams (query : String) : URLSearchParams := URLSearchParams.ofString query

/-- The call `setSearchParams(init)` of the router with a string: it navigates to
`"?" + new URLSearchParams(init)`, so the next query text is the serialization of
the object constructed from the string. -/
def setSearchParams (init : String) : String := (URLSearchParams.ofString init).toString

/-- What the effect leaves behind: whether it called `setSearchParams`, and the
query text of the address bar afterwards. -/
structure URLUpdate where
  replaced : Bool
  query : String
  deriving DecidableEq, Repr

/-- The effect `const encoded = encodeFiltersToURL(filters); if (encoded !==
searchParams.toString()) setSearchParams(encoded)` on the query text of the address
bar. -/
def updateURL (filters : Filters) (query : String) : URLUpdate :=
  let searchParams := useSearchParams query
  let encoded := encodeFiltersToURL filters
  if encoded ≠ searchParams.toString then ⟨true, setSearchParams encoded⟩
  else ⟨false, query⟩

/-! ## Sign-up (`frontend/src/context/AuthContext.js`, lines 55-90) -/

/-- An entry of the stored users object. -/
structure StoredUser where
  password : String
  createdAt : String
  likedMovies : List Int
  watchLater : List Int
  deriving DecidableEq, Repr

/-- The session object kept as current user and under `finaltake_user`. -/
structure UserData where
  username : String
  loginTime : String
  likedMovies : List Int
  watchLater : List Int
  deriving DecidableEq, Repr

/-- The content of the storage item `finaltake_users`: absent, the JSON text of an
object, given by the own entries of the parsed object in property order, or a text
on which `JSON.parse` or the property read raises. -/
inductive UsersItem where
  | absent
  | object (entries : List (String × StoredUser))
  | corrupt
  deriving DecidableEq, Repr

/-- The state `signup` reads and writes: the two storage items and the `user`
state of the provider. -/
structure AuthState where
  users : UsersItem
  session : Option UserData
  user : Option UserData
  deriving DecidableEq, Repr

/-- The object `signup` resolves to. -/
structure AuthResult where
  success : Bool
  error : Option String
  deriving DecidableEq, Repr

/-- The test `savedUsers[username]` on the parsed object: truthy for an own entry
(entries are objects) and for a property inherited from `Object.prototype`. -/
def usersHas (entries : List (String × StoredUser)) (username : String) : Bool :=
  (entries.lookup username).isSome || objectPrototypeKeys.contains username

/-- The array index a property key stands for: the value of a canonical decimal
string below `2 ^ 32 - 1`; none for any other key. -/
def arrayIndex (key : String) : Option Nat :=
  let ds := takeDigits 10 key.data
  if key.data ≠ [] ∧ ds.length = key.data.length ∧ (key = "0" ∨ key.data.head? ≠ some '0') ∧
      digitsValue 10 ds < 2 ^ 32 - 1 then
    some (digitsValue 10 ds)
  else none

/-- The assignment `savedUsers[username] = newUser`: an own entry is replaced in
place; a new one that is an array index goes in front of the first entry that is
no array index or is a larger one, any other new one goes to the end. -/
def usersSet (entries : List (String × StoredUser)) (username : String) (u : StoredUser) :
    List (String × StoredUser) :=
  if (entries.lookup username).isSome then
    entries.map (fun e => if e.1 == username then (username, u) else e)
  else
    match arrayIndex username with
    | none => entries ++ [(username, u)]
    | some i =>
      let smaller := fun (e : String × StoredUser) =>
        match arrayIndex e.1 with
        | some j => decide (j < i)
        | none => false
      entries.takeWhile smaller ++ (username, u) :: entries.dropWhile smaller

/-- The function `signup(username, password)`; `createdAt` and `loginTime` are the
two readings of the clock. -/
def signup (st : AuthState) (username password createdAt loginTime : String) :
    AuthResult × AuthState :=
  let parsed : Option (List (String × StoredUser)) :=
    match st.users with
    | .absent => some []
    | .object entries => some entries
    | .corrupt => none
  match parsed with
  | none => (⟨false, some "Signup failed. Please try again."⟩, st)
  | some savedUsers =>
    if usersHas savedUsers username then (⟨false, some "Username already exists"⟩, st)
    else
      let newUser : StoredUser := ⟨password, createdAt, [], []⟩
      let userData : UserData := ⟨username, loginTime, [], []⟩
      (⟨true, none⟩,
        { users := .object (usersSet savedUsers username newUser)
          session := some userData
          user := some userData })

/-! ## The spec's vocabulary -/

/-- The spec's reading of a list parameter: the value split on `,` with the empty
segments dropped, each remaining segment a string. -/
def commaSegments (v : String) : List JSVal :=
  ((v.data.splitOn ',').filter (fun seg => seg ≠ [])).map (fun seg => .str ⟨seg⟩)

/-- Whether a selection holds something to encode under a query key: a list
field that is present and not empty, a year field that is not falsy. -/
def fieldSet (f : Filters) (key : String) : Bool :=
  if key = "genres" then decide (members f.genres ≠ [])
  else if key = "moods" then decide (members f.moods ≠ [])
  else if key = "rating" then decide (members f.rating ≠ [])
  else if key = "year_from" then f.year_from.truthy
  else if key = "year_to" then f.year_to.truthy
  else false

/-- The spec's keyword list of a mood: its `MOOD_TAGS` entry, no keyword for a
mood that is not in the table. -/
def moodKeywords (mood : String) : List String := (MOOD_TAGS.lookup mood).getD []

/-- The spec's match count of a mood: the number of its keywords that occur as a
substring of at least one lower-cased genre name. -/
def matchCount (lower : String → String) (names : List String) (mood : String) : Nat :=
  (moodKeywords mood).countP (fun kw => names.any (fun n => includes (lower n) kw))

/-- The spec's scoring formula: 20 points per keyword match, summed over the
moods, capped at 100. -/
def moodScoreFormula (lower : String → String) (names : List String) (moods : List String) :
    Nat :=
  min 100 (20 * (moods.map (matchCount lower names)).sum)

/-- The genre objects with the given names. -/
def namedGenres (names : List String) : List Genre := names.map (fun n => ⟨some n⟩)

/-- Two characters are the same, or are the upper-case and the lower-case form of
one Basic Latin letter. -/
def sameLetter (c d : Char) : Bool :=
  c == d || (65 ≤ c.toNat && c.toNat ≤ 90 && d.toNat == c.toNat + 32) ||
    (65 ≤ d.toNat && d.toNat ≤ 90 && c.toNat == d.toNat + 32)

/-- Two character sequences differ only in the case of letters. -/
def caseVariantChars : List Char → List Char → Bool
  | [], [] => true
  | c :: cs, d :: ds => sameLetter c d && caseVariantChars cs ds
  | _, _ => false

/-- Two genre names differ only in the case of letters; a missing name only
matches a missing name. -/
def caseVariantName : Option String → Option String → Bool
  | some a, some b => caseVariantChars a.data b.data
  | none, none => true
  | _, _ => false

/-- Two genre lists differ only in the letter case of their names. -/
def caseVariantGenres : List Genre → List Genre → Bool
  | [], [] => true
  | g :: gs, h :: hs => caseVariantName g.name h.name && caseVariantGenres gs hs
  | _, _ => false

/-- What a mood adds to the score on its own, 0 when counting it raises. -/
def contribution (genreNames : List (Option String)) (mood : String) : Nat :=
  match scoreMood genreNames 0 mood with
  | .ok c => c
  | .error _ => 0

/-- The spec's normal form of a selection before it is compared with a decoded
one: a missing list field reads as the empty list, a falsy year as its default. -/
def canonical (f : Filters) : Filters :=
  { genres := some (members f.genres)
    moods := some (members f.moods)
    rating := some (members f.rating)
    year_from := jsOr f.year_from (.num 1990)
    year_to := jsOr f.year_to (.num 2024) }

/-- A selection with every list member replaced by the string `join` writes
for it. -/
def stringified (f : Filters) : Filters :=
  { f with
    genres := f.genres.map (fun l => l.map (fun x => .str (joinElement x)))
    moods := f.moods.map (fun l => l.map (fun x => .str (joinElement x)))
    rating := f.rating.map (fun l => l.map (fun x => .str (joinElement x))) }

/-- The value is not a number beyond the safe integers, those of absolute value
below `2 ^ 53`. -/
def safeNumber : JSVal → Bool
  | .num n => decide (n.natAbs < 2 ^ 53)
  | _ => true

/-- A list member survives the comma-separated encoding: it is no number beyond
the safe integers, and the string written for it is not empty and contains no
comma. -/
def memberOk (x : JSVal) : Prop :=
  safeNumber x = true ∧ joinElement x ≠ "" ∧ ',' ∉ (joinElement x).data

/-- The value is a string. -/
def JSVal.isStr : JSVal → Bool
  | .str _ => true
  | _ => false

/-- A year field is falsy, or is a safe integer: an integer of absolute value
below `2 ^ 53`. -/
def yearOk (v : JSVal) : Prop :=
  v.truthy = false ∨ ∃ n : Int, v = .num n ∧ n.natAbs < 2 ^ 53

/-- Modelled from the spec: how a decoded year follows from its query parameter.
The parameter may start with white space; when the decimal string of a non-zero
safe integer follows (with a minus sign for a negative one, or a plus sign in
front of a positive one), and then nothing or a character that is no digit, the
year is that integer; when the parameter is absent, when no digit follows the
white space and an optional sign, or when the parameter is `0`, the year is the
default. -/
def yearReading (param : JSVal) (default : Int) (year : JSVal) : Prop :=
  (∀ (ws rest : List Char) (n : Int), n ≠ 0 → n.natAbs < 2 ^ 53 →
    (∀ c ∈ ws, isStrWhiteSpaceChar c = true) →
    (∀ c, rest.head? = some c → isAsciiDigit c = false) →
    param = .str ⟨ws ++ (decimalString n).data ++ rest⟩ → year = .num n) ∧
  (∀ (ws rest : List Char) (n : Int), 0 < n → n.natAbs < 2 ^ 53 →
    (∀ c ∈ ws, isStrWhiteSpaceChar c = true) →
    (∀ c, rest.head? = some c → isAsciiDigit c = false) →
    param = .str ⟨ws ++ '+' :: (decimalString n).data ++ rest⟩ → year = .num n) ∧
  (param = .null → year = .num default) ∧
  (∀ (ws rest : List Char), (∀ c ∈ ws, isStrWhiteSpaceChar c = true) →
    (∀ c, rest.head? = some c →
      isStrWhiteSpaceChar c = false ∧ c ≠ '+' ∧ c ≠ '-' ∧ isAsciiDigit c = false) →
    param = .str ⟨ws ++ rest⟩ → year = .num default) ∧
  (∀ (ws rest : List Char) (sign : Char), (∀ c ∈ ws, isStrWhiteSpaceChar c = true) →
    sign = '+' ∨ sign = '-' →
    (∀ c, rest.head? = some c → isAsciiDigit c = false) →
    param = .str ⟨ws ++ sign :: rest⟩ → year = .num default) ∧
  (param = .str "0" → year = .num default)

/-! # Theorems -/

/-! ## Characters and code points -/

theorem toNat_ofNat_of_valid (n : Nat) (h : n.isValidChar) : (Char.ofNat n).toNat = n := by
  unfold Char.ofNat
  rw [dif_pos h]
  simp [Char.ofNatAux, Char.toNat, UInt32.toNat]

theorem toNat_ofNat_of_lt (n : Nat) (h : n < 0xD800) : (Char.ofNat n).toNat = n :=
  toNat_ofNat_of_valid n (Or.inl h)

theorem char_toNat_valid (c : Char) :
    c.toNat < 0xD800 ∨ (0xDFFF < c.toNat ∧ c.toNat < 0x110000) := by
  have := c.valid
  simp [UInt32.isValidChar, Nat.isValidChar] at this
  exact this

/-! ## UTF-8 -/

theorem utf8DecodeFrom_start (b : Nat) (bs : List Nat) (st : Utf8State)
    (h : utf8Lead b = .start st) :
    utf8DecodeFrom Utf8State.init (b :: bs) = utf8DecodeFrom st bs := by
  simp [utf8DecodeFrom, Utf8State.init, h]

theorem utf8DecodeFrom_emit (b : Nat) (bs : List Nat) (c : Nat) (h : utf8Lead b = .emit c) :
    utf8DecodeFrom Utf8State.init (b :: bs) = Char.ofNat c :: utf8DecodeFrom Utf8State.init bs := by
  simp [utf8DecodeFrom, Utf8State.init, h]

theorem utf8DecodeFrom_more (cp seen needed lo hi b : Nat) (bs : List Nat)
    (hneed : needed ≠ 0) (hlo : lo ≤ b) (hhi : b ≤ hi) (hseen : seen + 1 ≠ needed) :
    utf8DecodeFrom ⟨cp, seen, needed, lo, hi⟩ (b :: bs) =
      utf8DecodeFrom ⟨cp * 64 + b % 64, seen + 1, needed, 0x80, 0xBF⟩ bs := by
  rw [utf8DecodeFrom]
  rw [if_neg hneed, if_neg (by simp only [not_or, not_lt]; exact ⟨hlo, hhi⟩), if_neg hseen]

theorem utf8DecodeFrom_last (cp seen needed lo hi b : Nat) (bs : List Nat)
    (hneed : needed ≠ 0) (hlo : lo ≤ b) (hhi : b ≤ hi) (hseen : seen + 1 = needed) :
    utf8DecodeFrom ⟨cp, seen, needed, lo, hi⟩ (b :: bs) =
      Char.ofNat (cp * 64 + b % 64) :: utf8DecodeFrom Utf8State.init bs := by
  rw [utf8DecodeFrom]
  rw [if_neg hneed, if_neg (by simp only [not_or, not_lt]; exact ⟨hlo, hhi⟩), if_pos hseen]

theorem utf8DecodeFrom_encodeCodePoint (n : Nat)
    (hn : n < 0xD800 ∨ (0xDFFF < n ∧ n < 0x110000)) (rest : List Nat) :
    utf8DecodeFrom Utf8State.init (utf8EncodeCodePoint n ++ rest) =
      Char.ofNat n :: utf8DecodeFrom Utf8State.init rest := by
  unfold utf8EncodeCodePoint
  by_cases h1 : n < 0x80
  · rw [if_pos h1]
    exact utf8DecodeFrom_emit n rest n (by unfold utf8Lead; rw [if_pos (by omega)])
  rw [if_neg h1]
  by_cases h2 : n < 0x800
  · rw [if_pos h2, List.cons_append, List.cons_append, List.nil_append]
    rw [utf8DecodeFrom_start (0xC0 + n / 64) _ ⟨(0xC0 + n / 64) % 32, 0, 1, 0x80, 0xBF⟩
      (by unfold utf8Lead; rw [if_neg (by omega), if_pos (by omega)])]
    rw [utf8DecodeFrom_last _ _ _ _ _ _ _ (by omega) (by omega) (by omega) (by omega)]
    congr 2; omega
  rw [if_neg h2]
  by_cases h3 : n < 0x10000
  · rw [if_pos h3]
    simp only [List.cons_append, List.nil_append]
    rw [utf8DecodeFrom_start (0xE0 + n / 4096) _
      ⟨(0xE0 + n / 4096) % 16, 0, 2, if 0xE0 + n / 4096 = 0xE0 then 0xA0 else 0x80,
        if 0xE0 + n / 4096 = 0xED then 0x9F else 0xBF⟩
      (by unfold utf8Lead; rw [if_neg (by omega), if_neg (by omega), if_pos (by omega)])]
    rw [utf8DecodeFrom_more _ _ _ _ _ _ _ (by omega) (by split <;> omega) (by split <;> omega)
      (by omega)]
    rw [utf8DecodeFrom_last _ _ _ _ _ _ _ (by omega) (by omega) (by omega) (by omega)]
    congr 2; omega
  · rw [if_neg h3]
    simp only [List.cons_append, List.nil_append]
    rw [utf8DecodeFrom_start (0xF0 + n / 262144) _
      ⟨(0xF0 + n / 262144) % 8, 0, 3, if 0xF0 + n / 262144 = 0xF0 then 0x90 else 0x80,
        if 0xF0 + n / 262144 = 0xF4 then 0x8F else 0xBF⟩
      (by unfold utf8Lead
          rw [if_neg (by omega), if_neg (by omega), if_neg (by omega), if_pos (by omega)])]
    rw [utf8DecodeFrom_more _ _ _ _ _ _ _ (by omega) (by split <;> omega) (by split <;> omega)
      (by omega)]
    rw [utf8DecodeFrom_more _ _ _ _ _ _ _ (by omega) (by omega) (by omega) (by omega)]
    rw [utf8DecodeFrom_last _ _ _ _ _ _ _ (by omega) (by omega) (by omega) (by omega)]
    congr 2; omega

theorem utf8Decode_utf8Encode (s : List Char) : utf8Decode (utf8Encode s) = s := by
  unfold utf8Decode utf8Encode
  induction s with
  | nil => rfl
  | cons c cs ih =>
    rw [List.flatMap_cons, utf8DecodeFrom_encodeCodePoint _ (char_toNat_valid c), ih,
      Char.ofNat_toNat]

/-! ## Percent-encoding -/

theorem utf8EncodeCodePoint_lt (n : Nat) (hn : n < 0x110000) :
    ∀ b ∈ utf8EncodeCodePoint n, b < 256 := by
  intro b hb
  unfold utf8EncodeCodePoint at hb
  split at hb
  · simp at hb; omega
  split at hb
  · simp at hb; omega
  split at hb
  · simp at hb; omega
  · simp at hb; omega

theorem utf8Encode_lt (s : List Char) : ∀ b ∈ utf8Encode s, b < 256 := by
  intro b hb
  unfold utf8Encode at hb
  rw [List.mem_flatMap] at hb
  obtain ⟨c, _, hc⟩ := hb
  have hv := char_toNat_valid c
  exact utf8EncodeCodePoint_lt c.toNat (by omega) b hc

theorem hexValue_hexDigit (k : Nat) (hk : k < 16) : hexValue (hexDigit k) = some k := by
  unfold hexValue hexDigit
  by_cases h : k < 10
  · rw [if_pos h, if_pos (by omega)]; congr 1; omega
  · rw [if_neg h, if_neg (by omega), if_pos (by omega)]; congr 1; omega

theorem hexDigit_plusToSpace (k : Nat) (hk : k < 16) : plusToSpace (hexDigit k) = hexDigit k := by
  unfold plusToSpace hexDigit
  split <;> rw [if_neg (by omega)]

theorem urlencodedSafe_bounds (b : Nat) (h : urlencodedSafe b = true) :
    b < 128 ∧ b ≠ 0x20 ∧ b ≠ 0x25 ∧ b ≠ 0x26 ∧ b ≠ 0x2B ∧ b ≠ 0x3D ∧ b ≠ 0x3F := by
  simp [urlencodedSafe] at h
  omega

theorem percentDecodeSkip_urlencodeByte (b : Nat) (hb : b < 256) (rest : List Nat) :
    percentDecodeSkip 0 ((urlencodeByte b ++ rest).map plusToSpace) =
      b :: percentDecodeSkip 0 (rest.map plusToSpace) := by
  unfold urlencodeByte
  by_cases h1 : b = 0x20
  · subst h1
    simp [plusToSpace, percentDecodeSkip]
  rw [if_neg h1]
  by_cases h2 : urlencodedSafe b = true
  · have hs := urlencodedSafe_bounds b h2
    rw [if_pos h2]
    have e : plusToSpace b = b := by unfold plusToSpace; rw [if_neg (by omega)]
    simp only [List.cons_append, List.nil_append, List.map_cons, e, percentDecodeSkip]
    rw [if_neg (by omega)]
    rfl
  · rw [if_neg h2]
    have e : plusToSpace 0x25 = 0x25 := by decide
    simp only [List.cons_append, List.nil_append, List.map_cons, e,
      hexDigit_plusToSpace _ (show b / 16 < 16 by omega),
      hexDigit_plusToSpace _ (show b % 16 < 16 by omega)]
    have hp : hexPair (hexDigit (b / 16) :: hexDigit (b % 16) :: rest.map plusToSpace) =
        some b := by
      simp only [hexPair, hexValue_hexDigit _ (show b / 16 < 16 by omega),
        hexValue_hexDigit _ (show b % 16 < 16 by omega)]
      congr 1; omega
    rw [percentDecodeSkip, if_pos rfl, hp]
    simp only [percentDecodeSkip]

theorem percentDecode_urlencode (bs : List Nat) (hbs : ∀ b ∈ bs, b < 256) :
    percentDecode ((bs.flatMap urlencodeByte).map plusToSpace) = bs := by
  unfold percentDecode
  induction bs with
  | nil => rfl
  | cons b bs ih =>
    rw [List.flatMap_cons, percentDecodeSkip_urlencodeByte b (hbs b (List.mem_cons_self _ _)),
      ih (fun x hx => hbs x (List.mem_cons_of_mem _ hx))]

theorem urldecode_urlencode (s : String) : urldecode (urlencode s) = s := by
  unfold urldecode urlencode
  rw [percentDecode_urlencode (utf8Encode s.data) (utf8Encode_lt s.data), utf8Decode_utf8Encode]

/-- The bytes the serializer writes for a name or a value are ASCII and are none
of `&`, `=`, `?`. -/
theorem urlencodeByte_ascii (b : Nat) (hb : b < 256) :
    ∀ x ∈ urlencodeByte b, x < 128 ∧ x ≠ 0x26 ∧ x ≠ 0x3D ∧ x ≠ 0x3F := by
  intro x hx
  unfold urlencodeByte at hx
  split at hx
  · simp at hx; omega
  split at hx
  · rename_i hs
    have := urlencodedSafe_bounds b hs
    simp at hx; omega
  · simp [hexDigit] at hx
    rcases hx with rfl | rfl | rfl
    · omega
    · split <;> omega
    · split <;> omega

theorem urlencode_ascii (s : String) :
    ∀ x ∈ urlencode s, x < 128 ∧ x ≠ 0x26 ∧ x ≠ 0x3D ∧ x ≠ 0x3F := by
  intro x hx
  unfold urlencode at hx
  rw [List.mem_flatMap] at hx
  obtain ⟨b, hb, hx⟩ := hx
  exact urlencodeByte_ascii b (utf8Encode_lt _ b hb) x hx

/-! ## Splitting -/

theorem splitAt_ne_nil {α : Type} [DecidableEq α] (sep : α) (l : List α) : splitAt sep l ≠ [] := by
  cases l with
  | nil => simp [splitAt]
  | cons x xs =>
    rw [splitAt]
    split
    · simp
    · split <;> simp

theorem splitAt_cons_of_ne {α : Type} [DecidableEq α] (sep x : α) (xs : List α) (h : x ≠ sep) :
    ∃ seg segs, splitAt sep xs = seg :: segs ∧ splitAt sep (x :: xs) = (x :: seg) :: segs := by
  cases hs : splitAt sep xs with
  | nil => exact absurd hs (splitAt_ne_nil sep xs)
  | cons seg segs =>
    refine ⟨seg, segs, rfl, ?_⟩
    rw [splitAt, if_neg h, hs]

theorem splitAt_of_not_mem {α : Type} [DecidableEq α] (sep : α) (seg : List α)
    (h : sep ∉ seg) : splitAt sep seg = [seg] := by
  induction seg with
  | nil => rfl
  | cons x xs ih =>
    have hx : x ≠ sep := fun e => h (by rw [e]; exact List.mem_cons_self _ _)
    obtain ⟨s, ss, h1, h2⟩ := splitAt_cons_of_ne sep x xs hx
    rw [ih (fun m => h (List.mem_cons_of_mem _ m))] at h1
    rw [h2]
    cases h1
    rfl

theorem splitAt_append_sep {α : Type} [DecidableEq α] (sep : α) (seg rest : List α)
    (h : sep ∉ seg) : splitAt sep (seg ++ sep :: rest) = seg :: splitAt sep rest := by
  induction seg with
  | nil => simp [splitAt]
  | cons x xs ih =>
    have hx : x ≠ sep := fun e => h (by rw [e]; exact List.mem_cons_self _ _)
    obtain ⟨s, ss, h1, h2⟩ := splitAt_cons_of_ne sep x (xs ++ sep :: rest) hx
    rw [ih (fun m => h (List.mem_cons_of_mem _ m))] at h1
    rw [List.cons_append, h2]
    cases h1
    rfl

theorem intercalate_cons_cons {α : Type} (sep a b : List α) (t : List (List α)) :
    sep.intercalate (a :: b :: t) = a ++ sep ++ sep.intercalate (b :: t) := by
  simp [List.intercalate]

theorem splitAt_intercalate {α : Type} [DecidableEq α] (sep : α) (segs : List (List α))
    (h : ∀ seg ∈ segs, sep ∉ seg) (hne : segs ≠ []) :
    splitAt sep ([sep].intercalate segs) = segs := by
  induction segs with
  | nil => exact absurd rfl hne
  | cons a t ih =>
    cases t with
    | nil =>
      have : [sep].intercalate [a] = a := by simp [List.intercalate]
      rw [this, splitAt_of_not_mem sep a (h a (List.mem_cons_self _ _))]
    | cons b t =>
      rw [intercalate_cons_cons, List.append_assoc, List.singleton_append,
        splitAt_append_sep sep a _ (h a (List.mem_cons_self _ _)),
        ih (fun s hs => h s (List.mem_cons_of_mem _ hs)) (by simp)]

theorem span_append_of_stop {α : Type} (p : α → Bool) (l r : List α) (y : α)
    (hl : ∀ x ∈ l, p x = true) (hy : p y = false) : (l ++ y :: r).span p = (l, y :: r) := by
  rw [List.span_eq_take_drop]
  induction l with
  | nil => simp [List.takeWhile, List.dropWhile, hy]
  | cons x xs ih =>
    have hx := hl x (List.mem_cons_self _ _)
    have := ih (fun z hz => hl z (List.mem_cons_of_mem _ hz))
    simp only [List.cons_append, List.takeWhile, List.dropWhile, hx]
    simp only [Prod.mk.injEq] at this ⊢
    exact ⟨congrArg (x :: ·) this.1, this.2⟩

theorem span_of_all {α : Type} (p : α → Bool) (l : List α)
    (hl : ∀ x ∈ l, p x = true) : l.span p = (l, []) := by
  rw [List.span_eq_take_drop]
  induction l with
  | nil => rfl
  | cons x xs ih =>
    have hx := hl x (List.mem_cons_self _ _)
    have := ih (fun z hz => hl z (List.mem_cons_of_mem _ hz))
    simp only [List.takeWhile, List.dropWhile, hx]
    simp only [Prod.mk.injEq] at this ⊢
    exact ⟨congrArg (x :: ·) this.1, this.2⟩

/-! ## Parsing what the serializer wrote -/

theorem parsePair_urlencode (name value : String) :
    parsePair (urlencode name ++ 0x3D :: urlencode value) = (name, value) := by
  unfold parsePair
  rw [span_append_of_stop _ _ _ _ (fun x hx => by
    have := (urlencode_ascii name x hx).2.2.1
    simpa using this) (by decide)]
  simp only [urldecode_urlencode]

theorem urlencodedParse_urlencodedSerialize (params : URLSearchParams) :
    urlencodedParse (urlencodedSerialize params) = params := by
  unfold urlencodedParse urlencodedSerialize
  cases hp : params with
  | nil => rfl
  | cons p ps =>
    rw [← hp]
    have hsep : ∀ seg ∈ params.map (fun p => urlencode p.1 ++ 0x3D :: urlencode p.2),
        (0x26 : Nat) ∉ seg := by
      intro seg hseg
      rw [List.mem_map] at hseg
      obtain ⟨q, _, rfl⟩ := hseg
      intro hm
      rw [List.mem_append, List.mem_cons] at hm
      rcases hm with hm | hm | hm
      · exact (urlencode_ascii q.1 _ hm).2.1 rfl
      · omega
      · exact (urlencode_ascii q.2 _ hm).2.1 rfl
    rw [splitAt_intercalate 0x26 _ hsep (by rw [hp]; simp)]
    rw [List.filter_map, List.map_map]
    have hall : params.filter ((fun seg : List Nat => !seg.isEmpty) ∘
        (fun p => urlencode p.1 ++ 0x3D :: urlencode p.2)) = params := by
      rw [List.filter_eq_self]
      intro q _
      simp
    rw [hall]
    conv => rhs; rw [← List.map_id params]
    apply List.map_congr_left
    intro q _
    simp only [Function.comp, parsePair_urlencode, id]

theorem utf8Encode_ascii (bs : List Nat) (h : ∀ b ∈ bs, b < 128) :
    utf8Encode (bs.map Char.ofNat) = bs := by
  unfold utf8Encode
  induction bs with
  | nil => rfl
  | cons b bs ih =>
    have hb := h b (List.mem_cons_self _ _)
    rw [List.map_cons, List.flatMap_cons, ih (fun x hx => h x (List.mem_cons_of_mem _ hx)),
      toNat_ofNat_of_lt b (by omega)]
    unfold utf8EncodeCodePoint
    rw [if_pos hb]
    rfl

theorem forall_mem_intercalate {α : Type} (P : α → Prop) (sep : α) (segs : List (List α))
    (hsegs : ∀ seg ∈ segs, ∀ x ∈ seg, P x) (hsep : P sep) :
    ∀ x ∈ [sep].intercalate segs, P x := by
  induction segs with
  | nil => intro x hx; simp [List.intercalate] at hx
  | cons a t ih =>
    cases t with
    | nil =>
      intro x hx
      have e : [sep].intercalate [a] = a := by simp [List.intercalate]
      rw [e] at hx
      exact hsegs a (List.mem_cons_self _ _) x hx
    | cons b t =>
      intro x hx
      rw [intercalate_cons_cons, List.mem_append, List.mem_append, List.mem_singleton] at hx
      rcases hx with (hx | hx) | hx
      · exact hsegs a (List.mem_cons_self _ _) x hx
      · rw [hx]; exact hsep
      · exact ih (fun s hs => hsegs s (List.mem_cons_of_mem _ hs)) x hx

theorem urlencodedSerialize_ascii (params : URLSearchParams) :
    ∀ x ∈ urlencodedSerialize params, x < 128 ∧ x ≠ 0x3F := by
  unfold urlencodedSerialize
  apply forall_mem_intercalate
  · intro seg hseg x hx
    rw [List.mem_map] at hseg
    obtain ⟨q, _, rfl⟩ := hseg
    rw [List.mem_append, List.mem_cons] at hx
    rcases hx with hx | hx | hx
    · exact ⟨(urlencode_ascii q.1 x hx).1, (urlencode_ascii q.1 x hx).2.2.2⟩
    · omega
    · exact ⟨(urlencode_ascii q.2 x hx).1, (urlencode_ascii q.2 x hx).2.2.2⟩
  · omega

/-- Round trip of the platform codec: constructing a `URLSearchParams` from the
string another one serializes to gives the same list of pairs. -/
theorem ofString_toString (params : URLSearchParams) :
    URLSearchParams.ofString params.toString = params := by
  unfold URLSearchParams.ofString URLSearchParams.toString
  have hascii := urlencodedSerialize_ascii params
  cases hb : urlencodedSerialize params with
  | nil =>
    have := urlencodedParse_urlencodedSerialize params
    rw [hb] at this
    exact this
  | cons b bs =>
    rw [hb] at hascii
    have hb0 := hascii b (List.mem_cons_self _ _)
    have hq : Char.ofNat b ≠ '?' := by
      intro e
      have := congrArg Char.toNat e
      rw [toNat_ofNat_of_lt b (by omega)] at this
      exact hb0.2 this
    simp only [List.map_cons]
    rw [if_neg hq, ← List.map_cons, utf8Encode_ascii _ (fun x hx => (hascii x hx).1), ← hb]
    exact urlencodedParse_urlencodedSerialize params

/-! ## Doubles -/

theorem bitLength_zero (fuel : Nat) : bitLength fuel 0 = 0 := by
  cases fuel with
  | zero => rfl
  | succ f => rw [bitLength, if_pos rfl]

/-- A number is below two to the power of its bit length, and at least half of
that power when it is not zero. -/
theorem bitLength_spec (fuel : Nat) : ∀ p, p ≤ fuel →
    p < 2 ^ bitLength fuel p ∧ (p ≠ 0 → 2 ^ (bitLength fuel p - 1) ≤ p) := by
  induction fuel with
  | zero =>
    intro p hp
    have : p = 0 := by omega
    subst this
    exact ⟨by decide, fun h => absurd rfl h⟩
  | succ fuel ih =>
    intro p hp
    by_cases h0 : p = 0
    · subst h0
      rw [bitLength_zero]
      exact ⟨by decide, fun h => absurd rfl h⟩
    · have e : bitLength (fuel + 1) p = bitLength fuel (p / 2) + 1 := by
        rw [bitLength, if_neg h0]
      rw [e]
      obtain ⟨hu, hl⟩ := ih (p / 2) (by omega)
      refine ⟨?_, fun _ => ?_⟩
      · rw [Nat.pow_succ]
        omega
      · rw [Nat.add_sub_cancel]
        by_cases h2 : p / 2 = 0
        · rw [h2, bitLength_zero]
          simp only [Nat.pow_zero]
          omega
        · have hl2 := hl h2
          have hL : bitLength fuel (p / 2) ≠ 0 := by
            intro eL
            rw [eL] at hu
            simp only [Nat.pow_zero] at hu
            omega
          obtain ⟨k, hk⟩ := Nat.exists_eq_succ_of_ne_zero hL
          rw [hk] at hl2 ⊢
          rw [Nat.succ_sub_one] at hl2
          rw [Nat.pow_succ]
          omega

/-- Rounding moves a number up by at most half a unit of the last binary digit
kept. -/
theorem roundSignificand_le (p : Nat) :
    2 * roundSignificand p ≤ 2 * p + 2 ^ (bitLength p p - 53) := by
  unfold roundSignificand
  simp only
  generalize 2 ^ (bitLength p p - 53) = X
  have hdm := Nat.div_add_mod p X
  split
  · rename_i hc
    have e : (p / X + 1) * X = X * (p / X) + X := by ring
    rw [e]
    rcases hc with hc | ⟨hc, _⟩ <;> omega
  · have e : p / X * X = X * (p / X) := Nat.mul_comm _ _
    rw [e]
    omega

theorem bitLength_le (p k : Nat) (h : p < 2 ^ k) : bitLength p p ≤ k := by
  by_cases h0 : p = 0
  · rw [h0, bitLength_zero]
    exact Nat.zero_le _
  · have hl := (bitLength_spec p p (Nat.le_refl _)).2 h0
    have : bitLength p p - 1 < k :=
      (Nat.pow_lt_pow_iff_right (by decide)).1 (Nat.lt_of_le_of_lt hl h)
    omega

/-- A number below `2 ^ 53` is a double: rounding leaves it as it is. -/
theorem roundSignificand_of_lt (p : Nat) (h : p < 2 ^ 53) : roundSignificand p = p := by
  have hs : bitLength p p - 53 = 0 := by
    have := bitLength_le p 53 h
    omega
  unfold roundSignificand
  simp only [hs, Nat.pow_zero, Nat.div_one, Nat.mod_one, Nat.mul_one, Nat.mul_zero]
  rw [if_neg]
  omega

/-- A number of `2 ^ 53` or more rounds to `2 ^ 53` or more. -/
theorem roundSignificand_ge (p : Nat) (h : 2 ^ 53 ≤ p) : 2 ^ 53 ≤ roundSignificand p := by
  have hp0 : p ≠ 0 := by
    intro e
    rw [e] at h
    exact absurd h (by decide)
  obtain ⟨hu, hl⟩ := bitLength_spec p p (Nat.le_refl _)
  have hl := hl hp0
  have hL : 53 < bitLength p p :=
    (Nat.pow_lt_pow_iff_right (by decide)).1 (Nat.lt_of_le_of_lt h hu)
  obtain ⟨s, hs⟩ : ∃ s, bitLength p p = s + 54 := ⟨bitLength p p - 54, by omega⟩
  have e1 : bitLength p p - 53 = s + 1 := by omega
  have e2 : bitLength p p - 1 = s + 53 := by omega
  rw [e2] at hl
  unfold roundSignificand
  simp only [e1]
  have hq : 2 ^ 52 ≤ p / 2 ^ (s + 1) := by
    rw [Nat.le_div_iff_mul_le (Nat.two_pow_pos _)]
    calc 2 ^ 52 * 2 ^ (s + 1) = 2 ^ (s + 53) := by
          rw [← Nat.pow_add]
          congr 1
          omega
      _ ≤ p := hl
  have hX : 2 ≤ 2 ^ (s + 1) := by
    rw [Nat.pow_succ]
    have := Nat.two_pow_pos s
    omega
  have hmul : 2 ^ 52 * 2 ≤ p / 2 ^ (s + 1) * 2 ^ (s + 1) := Nat.mul_le_mul hq hX
  have h53 : 2 ^ 53 = 2 ^ 52 * 2 := by decide
  split
  · calc 2 ^ 53 = 2 ^ 52 * 2 := h53
      _ ≤ p / 2 ^ (s + 1) * 2 ^ (s + 1) := hmul
      _ ≤ (p / 2 ^ (s + 1) + 1) * 2 ^ (s + 1) := Nat.mul_le_mul_right _ (Nat.le_succ _)
  · calc 2 ^ 53 = 2 ^ 52 * 2 := h53
      _ ≤ p / 2 ^ (s + 1) * 2 ^ (s + 1) := hmul

theorem validCandidates_eq (v len k c : Nat) (hv : v < 2 ^ 53)
    (hc : c ∈ validCandidates v len k) : c = v := by
  unfold validCandidates at hc
  rw [List.mem_filter] at hc
  have hr : roundSignificand c = v := of_decide_eq_true hc.2
  by_cases h : c < 2 ^ 53
  · rw [roundSignificand_of_lt c h] at hr
    exact hr
  · have := roundSignificand_ge c (by omega)
    omega

theorem nearestCandidate_eq (v unit : Nat) (cs : List Nat) (h : ∀ c ∈ cs, c = v) :
    nearestCandidate v unit cs = v := by
  unfold nearestCandidate
  split
  · rename_i c
    exact h c (by simp)
  · rename_i lo hi
    have h1 := h lo (by simp)
    have h2 := h hi (by simp)
    split
    · exact h1
    · split
      · exact h2
      · split
        · exact h1
        · exact h2
  · rfl

theorem shortestFrom_eq (v len : Nat) (hv : v < 2 ^ 53) :
    ∀ fuel k, shortestFrom v len fuel k = v := by
  intro fuel
  induction fuel with
  | zero => intro k; rfl
  | succ f ih =>
    intro k
    rw [shortestFrom]
    split
    · exact ih _
    · exact nearestCandidate_eq _ _ _ (fun c hc => validCandidates_eq v len k c hv hc)

/-- The shortest digits that identify a safe integer are its own digits. -/
theorem shortestDecimal_of_lt (v : Nat) (hv : v < 2 ^ 53) : shortestDecimal v = v :=
  shortestFrom_eq v _ hv _ _

/-! ## Decimal rendering and `parseInt` -/

theorem digitsValue_append (r : Nat) (vs : List Nat) (d : Nat) :
    digitsValue r (vs ++ [d]) = digitsValue r vs * r + d := by
  simp [digitsValue, List.foldl_append]

theorem decimalDigits_spec (fuel : Nat) : ∀ (n : Nat) (acc : List Char), n < fuel →
    ∃ vs : List Nat, vs ≠ [] ∧ (∀ d ∈ vs, d < 10) ∧ digitsValue 10 vs = n ∧
      decimalDigits fuel n acc = vs.map digitChar ++ acc := by
  induction fuel with
  | zero => intro n acc h; omega
  | succ fuel ih =>
    intro n acc hn
    rw [decimalDigits]
    by_cases h : n < 10
    · rw [if_pos h]
      exact ⟨[n], by simp, by simpa using h, by simp [digitsValue], by simp⟩
    · rw [if_neg h]
      obtain ⟨vs, _, hlt, hval, heq⟩ := ih (n / 10) (digitChar (n % 10) :: acc) (by omega)
      refine ⟨vs ++ [n % 10], by simp, ?_, ?_, ?_⟩
      · intro d hd
        rw [List.mem_append, List.mem_singleton] at hd
        rcases hd with hd | hd
        · exact hlt d hd
        · omega
      · rw [digitsValue_append, hval]; omega
      · rw [heq]; simp

theorem digitChar_toNat (d : Nat) (h : d < 10) : (digitChar d).toNat = 48 + d :=
  toNat_ofNat_of_lt _ (by omega)

theorem radixDigit_digitChar (d : Nat) (h : d < 10) : radixDigit 10 (digitChar d) = some d := by
  unfold radixDigit
  simp only [digitChar_toNat d h]
  rw [if_pos (by omega)]
  simp [Option.filter, h]

theorem takeDigits_digitChars (vs : List Nat) (h : ∀ d ∈ vs, d < 10) :
    takeDigits 10 (vs.map digitChar) = vs := by
  induction vs with
  | nil => rfl
  | cons d ds ih =>
    rw [List.map_cons, takeDigits, radixDigit_digitChar d (h d (List.mem_cons_self _ _))]
    simp only
    rw [ih (fun x hx => h x (List.mem_cons_of_mem _ hx))]

theorem digitChar_not_space (d : Nat) (h : d < 10) : isStrWhiteSpaceChar (digitChar d) = false := by
  unfold isStrWhiteSpaceChar
  simp only [digitChar_toNat d h]
  simp
  omega

theorem digitChar_ne (d : Nat) (h : d < 10) (c : Char) (hc : c.toNat < 48 ∨ 57 < c.toNat) :
    digitChar d ≠ c := by
  intro e
  have := digitChar_toNat d h
  rw [e] at this
  omega

theorem dropWhile_append_stop {α : Type} (p : α → Bool) (l r : List α)
    (hl : ∀ x ∈ l, p x = true) (hr : ∀ y, r.head? = some y → p y = false) :
    (l ++ r).dropWhile p = r := by
  induction l with
  | nil =>
    cases r with
    | nil => rfl
    | cons y t =>
      rw [List.nil_append, List.dropWhile_cons, hr y rfl]
      rfl
  | cons x xs ih =>
    rw [List.cons_append, List.dropWhile_cons, hl x (List.mem_cons_self _ _)]
    exact ih (fun z hz => hl z (List.mem_cons_of_mem _ hz))

theorem radixDigit_ten_none (c : Char) (h : isAsciiDigit c = false) :
    radixDigit 10 c = none := by
  have hd : ¬ (48 ≤ c.toNat ∧ c.toNat ≤ 57) := by
    rintro ⟨a, b⟩
    simp [isAsciiDigit, a, b] at h
  unfold radixDigit
  simp only
  rw [if_neg hd]
  by_cases h1 : 97 ≤ c.toNat ∧ c.toNat ≤ 122
  · rw [if_pos h1]
    simp only [Option.filter]
    rw [if_neg]
    simp only [decide_eq_true_eq]
    omega
  · rw [if_neg h1]
    by_cases h2 : 65 ≤ c.toNat ∧ c.toNat ≤ 90
    · rw [if_pos h2]
      simp only [Option.filter]
      rw [if_neg]
      simp only [decide_eq_true_eq]
      omega
    · rw [if_neg h2]
      rfl

theorem takeDigits_of_not_digit (rest : List Char)
    (hr : ∀ c, rest.head? = some c → isAsciiDigit c = false) : takeDigits 10 rest = [] := by
  cases rest with
  | nil => rfl
  | cons c cs =>
    rw [takeDigits, radixDigit_ten_none c (hr c rfl)]

theorem takeDigits_run (vs : List Nat) (rest : List Char) (h : ∀ d ∈ vs, d < 10)
    (hr : ∀ c, rest.head? = some c → isAsciiDigit c = false) :
    takeDigits 10 (vs.map digitChar ++ rest) = vs := by
  induction vs with
  | nil => exact takeDigits_of_not_digit rest hr
  | cons d ds ih =>
    rw [List.map_cons, List.cons_append, takeDigits,
      radixDigit_digitChar d (h d (List.mem_cons_self _ _))]
    simp only
    rw [ih (fun x hx => h x (List.mem_cons_of_mem _ hx))]

theorem parseRadix_of_head (s : List Char) (h : ∀ c, s.head? = some c → c ≠ '0') :
    parseRadix s = (10, s) := by
  unfold parseRadix
  split
  · rename_i c d cs
    rw [if_neg]
    rintro ⟨e, _⟩
    exact h c rfl e
  · rfl

theorem parseRadix_run (vs : List Nat) (rest : List Char) (h : ∀ d ∈ vs, d < 10)
    (hval : digitsValue 10 vs ≠ 0) :
    parseRadix (vs.map digitChar ++ rest) = (10, vs.map digitChar ++ rest) := by
  cases vs with
  | nil => exact absurd rfl hval
  | cons a t =>
    have ha : a < 10 := h a (List.mem_cons_self _ _)
    cases t with
    | nil =>
      apply parseRadix_of_head
      intro c hc e
      simp only [List.map_cons, List.map_nil, List.cons_append, List.nil_append,
        List.head?_cons, Option.some.injEq] at hc
      have h0 : a ≠ 0 := by
        intro e0
        apply hval
        rw [e0]
        rfl
      have := digitChar_toNat a ha
      rw [hc, e] at this
      have e48 : ('0' : Char).toNat = 48 := by decide
      omega
    | cons b t =>
      have hb : b < 10 := h b (by simp)
      unfold parseRadix
      simp only [List.map_cons, List.cons_append]
      rw [if_neg]
      rintro ⟨_, hx | hx⟩
      · exact digitChar_ne b hb 'x' (by decide) hx
      · exact digitChar_ne b hb 'X' (by decide) hx

theorem parseSign_of_head (s : List Char) (h : ∀ c, s.head? = some c → c ≠ '+' ∧ c ≠ '-') :
    parseSign s = (1, s) := by
  unfold parseSign
  split
  · rename_i c cs
    rw [if_neg (h c rfl).2, if_neg (h c rfl).1]
  · rfl

theorem parseInt_core (s trimmed unsigned body : List Char) (sign : Int) (radix : Nat)
    (h1 : s.dropWhile isStrWhiteSpaceChar = trimmed)
    (h2 : parseSign trimmed = (sign, unsigned)) (h3 : parseRadix unsigned = (radix, body)) :
    parseInt (.str ⟨s⟩) =
      if (takeDigits radix body).isEmpty then .nan
      else .num (sign * (roundSignificand (digitsValue radix (takeDigits radix body)) : Int)) := by
  unfold parseInt
  simp only [JSVal.toStr]
  rw [h1, h2]
  simp only [h3]

theorem head_digit_run (vs : List Nat) (rest : List Char) (hne : vs ≠ []) :
    ∃ a, a ∈ vs ∧ (vs.map digitChar ++ rest).head? = some (digitChar a) := by
  cases vs with
  | nil => exact absurd rfl hne
  | cons a t => exact ⟨a, List.mem_cons_self _ _, rfl⟩

/-- Reading a run of decimal digits with white space in front and text that starts
with no digit behind it. -/
theorem parseInt_run (ws rest : List Char) (vs : List Nat) (hne : vs ≠ [])
    (h : ∀ d ∈ vs, d < 10) (hval : digitsValue 10 vs ≠ 0) (hv : digitsValue 10 vs < 2 ^ 53)
    (hws : ∀ c ∈ ws, isStrWhiteSpaceChar c = true)
    (hr : ∀ c, rest.head? = some c → isAsciiDigit c = false) :
    parseInt (.str ⟨ws ++ vs.map digitChar ++ rest⟩) = .num (digitsValue 10 vs) ∧
    parseInt (.str ⟨ws ++ '-' :: vs.map digitChar ++ rest⟩) =
      .num (-(digitsValue 10 vs : Int)) ∧
    parseInt (.str ⟨ws ++ '+' :: vs.map digitChar ++ rest⟩) = .num (digitsValue 10 vs) := by
  obtain ⟨a, ha, hhead⟩ := head_digit_run vs rest hne
  have ha10 := h a ha
  have hrad := parseRadix_run vs rest h hval
  have htake := takeDigits_run vs rest h hr
  have hempty : vs.isEmpty = false := by
    cases vs with
    | nil => exact absurd rfl hne
    | cons _ _ => rfl
  refine ⟨?_, ?_, ?_⟩
  · rw [List.append_assoc, parseInt_core _ (vs.map digitChar ++ rest) (vs.map digitChar ++ rest)
      (vs.map digitChar ++ rest) 1 10
      (dropWhile_append_stop _ _ _ hws (by
        intro y hy
        rw [hhead] at hy
        cases hy
        exact digitChar_not_space a ha10))
      (parseSign_of_head _ (by
        intro c hc
        rw [hhead] at hc
        cases hc
        exact ⟨digitChar_ne a ha10 '+' (by decide), digitChar_ne a ha10 '-' (by decide)⟩))
      hrad, htake, hempty, roundSignificand_of_lt _ hv]
    simp
  · have hsp : isStrWhiteSpaceChar '-' = false := by decide
    rw [List.append_assoc, parseInt_core _ ('-' :: vs.map digitChar ++ rest)
      (vs.map digitChar ++ rest) (vs.map digitChar ++ rest) (-1) 10
      (dropWhile_append_stop _ _ _ hws (by
        intro y hy
        cases hy
        exact hsp))
      (by simp [parseSign]) hrad, htake, hempty, roundSignificand_of_lt _ hv]
    simp
  · have hsp : isStrWhiteSpaceChar '+' = false := by decide
    rw [List.append_assoc, parseInt_core _ ('+' :: vs.map digitChar ++ rest)
      (vs.map digitChar ++ rest) (vs.map digitChar ++ rest) 1 10
      (dropWhile_append_stop _ _ _ hws (by
        intro y hy
        cases hy
        exact hsp))
      (by simp [parseSign]) hrad, htake, hempty, roundSignificand_of_lt _ hv]
    simp

/-- Reading the decimal string of a non-zero integer with white space in front
and text that starts with no digit behind it. -/
theorem parseInt_decimalString_run (ws rest : List Char) (n : Int) (hn : n ≠ 0)
    (hsafe : n.natAbs < 2 ^ 53) (hws : ∀ c ∈ ws, isStrWhiteSpaceChar c = true)
    (hr : ∀ c, rest.head? = some c → isAsciiDigit c = false) :
    parseInt (.str ⟨ws ++ (decimalString n).data ++ rest⟩) = .num n ∧
    (0 < n → parseInt (.str ⟨ws ++ '+' :: (decimalString n).data ++ rest⟩) = .num n) := by
  obtain ⟨vs, hne, hlt, hval, heq⟩ := decimalDigits_spec (n.natAbs + 1) n.natAbs [] (by omega)
  rw [List.append_nil] at heq
  have hv0 : digitsValue 10 vs ≠ 0 := by
    rw [hval]
    omega
  have := parseInt_run ws rest vs hne hlt hv0 (by rw [hval]; exact hsafe) hws hr
  rw [hval] at this
  unfold decimalString
  by_cases hneg : n < 0
  · rw [if_pos hneg]
    simp only [heq]
    refine ⟨?_, fun hp => absurd hp (by omega)⟩
    have e := this.2.1
    simp only [List.cons_append] at e ⊢
    rw [e]
    congr 1
    omega
  · rw [if_neg hneg]
    simp only [heq]
    refine ⟨?_, fun _ => ?_⟩
    · rw [this.1]
      congr 1
      omega
    · have e := this.2.2
      simp only [List.cons_append] at e ⊢
      rw [e]
      congr 1
      omega

/-- No digit after the white space and an optional sign: `parseInt` gives `NaN`. -/
theorem parseInt_no_digit (ws rest : List Char)
    (hws : ∀ c ∈ ws, isStrWhiteSpaceChar c = true) :
    ((∀ c, rest.head? = some c →
        isStrWhiteSpaceChar c = false ∧ c ≠ '+' ∧ c ≠ '-' ∧ isAsciiDigit c = false) →
      parseInt (.str ⟨ws ++ rest⟩) = .nan) ∧
    (∀ sign : Char, sign = '+' ∨ sign = '-' →
      (∀ c, rest.head? = some c → isAsciiDigit c = false) →
      parseInt (.str ⟨ws ++ sign :: rest⟩) = .nan) := by
  have hzero : isAsciiDigit '0' = true := by decide
  have hrad : (∀ c, rest.head? = some c → isAsciiDigit c = false) →
      parseRadix rest = (10, rest) := by
    intro hr
    apply parseRadix_of_head
    intro c hc e
    have := hr c hc
    rw [e, hzero] at this
    cases this
  constructor
  · intro hr
    rw [parseInt_core _ rest rest rest 1 10
      (dropWhile_append_stop _ _ _ hws (fun y hy => (hr y hy).1))
      (parseSign_of_head _ (fun c hc => ⟨(hr c hc).2.1, (hr c hc).2.2.1⟩))
      (hrad (fun c hc => (hr c hc).2.2.2)),
      takeDigits_of_not_digit rest (fun c hc => (hr c hc).2.2.2)]
    rfl
  · intro sign hs hr
    have hsp : isStrWhiteSpaceChar sign = false := by
      rcases hs with rfl | rfl <;> decide
    have hsign : ∃ v : Int, parseSign (sign :: rest) = (v, rest) := by
      rcases hs with rfl | rfl
      · exact ⟨1, by simp [parseSign]⟩
      · exact ⟨-1, by simp [parseSign]⟩
    obtain ⟨v, hv⟩ := hsign
    rw [parseInt_core _ (sign :: rest) rest rest v 10
      (dropWhile_append_stop _ _ _ hws (by
        intro y hy
        cases hy
        exact hsp))
      hv (hrad hr), takeDigits_of_not_digit rest hr]
    rfl

/-- The platform round trip on safe integers: `parseInt` reads back the decimal
rendering of the integer. -/
theorem parseInt_decimalString (n : Int) (h : n.natAbs < 2 ^ 53) :
    parseInt (.str (decimalString n)) = .num n := by
  by_cases hn : n = 0
  · subst hn
    decide
  · have := (parseInt_decimalString_run [] [] n hn h (by simp) (by simp)).1
    simpa using this

/-- The string of a safe integer is its decimal rendering. -/
theorem numberToString_of_lt (n : Int) (h : n.natAbs < 2 ^ 53) :
    numberToString n = decimalString n := by
  unfold numberToString
  simp only
  rw [shortestDecimal_of_lt _ h, if_pos (Nat.lt_trans h (by decide))]
  have e : (if n < 0 then -((n.natAbs : Nat) : Int) else ((n.natAbs : Nat) : Int)) = n := by
    split <;> omega
  rw [e]

theorem joinElement_num (n : Int) (h : n.natAbs < 2 ^ 53) :
    joinElement (.num n) = decimalString n :=
  numberToString_of_lt n h

/-- On the safe integers `parseInt` reads back what `Number::toString` wrote. -/
theorem parseInt_numberToString (n : Int) (h : n.natAbs < 2 ^ 53) :
    parseInt (.str (numberToString n)) = .num n := by
  rw [numberToString_of_lt n h, parseInt_decimalString n h]

/-! ## Joining and splitting strings -/

theorem intercalate_go_data (acc sep : String) (ss : List String) :
    (String.intercalate.go acc sep ss).data =
      acc.data ++ (ss.map (fun s => sep.data ++ s.data)).flatten := by
  induction ss generalizing acc with
  | nil => simp [String.intercalate.go]
  | cons s ss ih =>
    rw [String.intercalate.go, ih]
    simp [String.data_append, List.append_assoc]

theorem intercalate_data (sep : String) (ss : List String) :
    (sep.intercalate ss).data = sep.data.intercalate (ss.map String.data) := by
  cases ss with
  | nil => rfl
  | cons s ss =>
    rw [String.intercalate, intercalate_go_data]
    induction ss generalizing s with
    | nil => simp [List.intercalate]
    | cons t ts ih =>
      have e : sep.data.intercalate (List.map String.data (s :: t :: ts)) =
          s.data ++ sep.data ++ sep.data.intercalate (List.map String.data (t :: ts)) :=
        intercalate_cons_cons _ _ _ _
      rw [e, ← ih t]
      simp [List.append_assoc]

theorem stringSplit_intercalate (ss : List String) (hne : ss ≠ [])
    (h : ∀ s ∈ ss, ',' ∉ s.data) : stringSplit (",".intercalate ss) ',' = ss := by
  unfold stringSplit
  rw [intercalate_data]
  have e : (",".data : List Char) = [','] := rfl
  rw [e, splitAt_intercalate ',' _ (by
    intro seg hseg
    rw [List.mem_map] at hseg
    obtain ⟨s, hs, rfl⟩ := hseg
    exact h s hs) (by simpa using hne)]
  rw [List.map_map]
  conv => rhs; rw [← List.map_id ss]
  apply List.map_congr_left
  intro s _
  rfl

theorem decodeList_arrayJoin (params : URLSearchParams) (key : String) (xs : List JSVal)
    (hget : params.get key = .str (arrayJoin xs ",")) (hne : xs ≠ [])
    (h : ∀ x ∈ xs, joinElement x ≠ "" ∧ ',' ∉ (joinElement x).data) :
    decodeList params key = xs.map (fun x => JSVal.str (joinElement x)) := by
  unfold decodeList
  rw [hget]
  simp only [arrayJoin]
  rw [stringSplit_intercalate _ (by simpa using hne) (by
    intro s hs
    rw [List.mem_map] at hs
    obtain ⟨x, hx, rfl⟩ := hs
    exact (h x hx).2)]
  rw [List.map_map]
  have e : (JSVal.str ∘ joinElement) = (fun x => JSVal.str (joinElement x)) := rfl
  rw [e, List.filter_eq_self]
  intro v hv
  rw [List.mem_map] at hv
  obtain ⟨x, hx, rfl⟩ := hv
  simp [JSVal.truthy, (h x hx).1]

/-! ## What `encodeFiltersToURL` builds -/

theorem encodeParams_eq (f : Filters) :
    encodeParams f =
      (if hasLength f.genres then [("genres", arrayJoin (members f.genres) ",")] else []) ++
      (if hasLength f.moods then [("moods", arrayJoin (members f.moods) ",")] else []) ++
      (if hasLength f.rating then [("rating", arrayJoin (members f.rating) ",")] else []) ++
      (if f.year_from.truthy then [("year_from", f.year_from.toStr)] else []) ++
      (if f.year_to.truthy then [("year_to", f.year_to.toStr)] else []) := by
  unfold encodeParams
  cases hasLength f.genres <;> cases hasLength f.moods <;> cases hasLength f.rating <;>
    cases f.year_from.truthy <;> cases f.year_to.truthy <;> rfl

theorem get_encodeParams (f : Filters) :
    (encodeParams f).get "genres" =
      (if hasLength f.genres then .str (arrayJoin (members f.genres) ",") else .null) ∧
    (encodeParams f).get "moods" =
      (if hasLength f.moods then .str (arrayJoin (members f.moods) ",") else .null) ∧
    (encodeParams f).get "rating" =
      (if hasLength f.rating then .str (arrayJoin (members f.rating) ",") else .null) ∧
    (encodeParams f).get "year_from" =
      (if f.year_from.truthy then .str f.year_from.toStr else .null) ∧
    (encodeParams f).get "year_to" =
      (if f.year_to.truthy then .str f.year_to.toStr else .null) := by
  rw [encodeParams_eq]
  cases hasLength f.genres <;> cases hasLength f.moods <;> cases hasLength f.rating <;>
    cases f.year_from.truthy <;> cases f.year_to.truthy <;>
    exact ⟨rfl, rfl, rfl, rfl, rfl⟩

theorem hasLength_iff (field : Option (List JSVal)) :
    hasLength field = true ↔ members field ≠ [] := by
  cases field with
  | none => simp [hasLength, members]
  | some l => cases l <;> simp [hasLength, members]

theorem splitAt_eq_splitOn {α : Type} [DecidableEq α] (sep : α) (l : List α) :
    splitAt sep l = l.splitOn sep := by
  induction l with
  | nil => simp [splitAt]
  | cons x xs ih =>
    have e : (x :: xs).splitOn sep =
        if (x == sep) = true then [] :: xs.splitOn sep
        else (xs.splitOn sep).modifyHead (List.cons x) := List.splitOnP_cons _ x xs
    rw [splitAt, ih, e]
    by_cases h : x = sep
    · simp [h]
    · rw [if_neg h, if_neg (by simpa using h)]
      cases hs : xs.splitOn sep with
      | nil => exact absurd hs (List.splitOnP_ne_nil _ _)
      | cons a t => rfl

theorem parseInt_null : parseInt .null = .nan := by decide

/-! ## The codec: decoding -/

/-- C4 (default decode): decoding a query with no parameters, whether the empty
`URLSearchParams` object or the one constructed from the empty string or from a
lone `?`, gives exactly `{genres: [], moods: [], rating: [], year_from: 1990,
year_to: 2024}`. -/
theorem decode_default :
    decodeFiltersFromURL [] = ⟨some [], some [], some [], .num 1990, .num 2024⟩ ∧
    decodeFiltersFromURL (URLSearchParams.ofString "") =
      ⟨some [], some [], some [], .num 1990, .num 2024⟩ ∧
    decodeFiltersFromURL (URLSearchParams.ofString "?") =
      ⟨some [], some [], some [], .num 1990, .num 2024⟩ := by
  decide

theorem jsOr_parseInt (v d : JSVal) :
    (∀ n, parseInt v = .num n → n ≠ 0 → jsOr (parseInt v) d = .num n) ∧
    (parseInt v = .num 0 → jsOr (parseInt v) d = d) ∧
    (parseInt v = .nan → jsOr (parseInt v) d = d) := by
  refine ⟨?_, ?_, ?_⟩
  · intro n h hn
    rw [h]
    simp [jsOr, JSVal.truthy, hn]
  · intro h
    rw [h]
    rfl
  · intro h
    rw [h]
    rfl

theorem parseInt_cases (v : JSVal) : parseInt v = .nan ∨ ∃ n, parseInt v = .num n := by
  unfold parseInt
  simp only
  split
  · exact Or.inl rfl
  · exact Or.inr ⟨_, rfl⟩

/-- C5, the counterexample: the parameter `year_from=0` is present and numeric,
`parseInt` reads the integer 0 from it, and the decoded `year_from` is 1990, not
0; likewise `year_to=0` decodes to 2024. -/
theorem decode_year_zero_is_default :
    parseInt (.str "0") = .num 0 ∧
    (decodeFiltersFromURL [("year_from", "0"), ("year_to", "0")]).year_from = .num 1990 ∧
    (decodeFiltersFromURL [("year_from", "0"), ("year_to", "0")]).year_to = .num 2024 ∧
    (decodeFiltersFromURL (URLSearchParams.ofString "year_from=0")).year_from ≠ .num 0 := by
  decide

theorem yearReading_jsOr (param : JSVal) (default : Int) :
    yearReading param default (jsOr (parseInt param) (.num default)) := by
  have hor := jsOr_parseInt param (.num default)
  refine ⟨?_, ?_, ?_, ?_, ?_, ?_⟩
  · intro ws rest n hn hs hws hr e
    exact hor.1 n (by rw [e]; exact (parseInt_decimalString_run ws rest n hn hs hws hr).1) hn
  · intro ws rest n hn hs hws hr e
    exact hor.1 n (by
      rw [e]
      exact (parseInt_decimalString_run ws rest n (by omega) hs hws hr).2 hn) (by omega)
  · intro e
    exact hor.2.2 (by rw [e]; exact parseInt_null)
  · intro ws rest hws hr e
    exact hor.2.2 (by rw [e]; exact (parseInt_no_digit ws rest hws).1 hr)
  · intro ws rest sign hws hs hr e
    exact hor.2.2 (by rw [e]; exact (parseInt_no_digit ws rest hws).2 sign hs hr)
  · intro e
    exact hor.2.1 (by rw [e]; rfl)

/-- C5, as amended: for every query the decoded `year_from` is the integer `n`
when the `year_from` parameter is, after optional white space, the decimal string
of a non-zero safe integer `n` (below `2 ^ 53` in absolute value; a plus sign may
stand in front of a positive one), followed by nothing or by a character that is
no digit; it is 1990 when the parameter is absent, when no digit follows the white
space and an optional sign, or when the parameter is `0`; likewise `year_to` with
2024. A run of hex digits after `0x` is read in base 16: `0x7D0` gives 2000. -/
theorem decode_year (q : URLSearchParams) :
    yearReading (q.get "year_from") 1990 (decodeFiltersFromURL q).year_from ∧
    yearReading (q.get "year_to") 2024 (decodeFiltersFromURL q).year_to ∧
    (q.get "year_from" = .str "0x7D0" → (decodeFiltersFromURL q).year_from = .num 2000) ∧
    (q.get "year_to" = .str "0x7D0" → (decodeFiltersFromURL q).year_to = .num 2000) := by
  refine ⟨yearReading_jsOr _ 1990, yearReading_jsOr _ 2024, ?_, ?_⟩
  · intro e
    show jsOr (parseInt (q.get "year_from")) (.num 1990) = .num 2000
    rw [e]
    rfl
  · intro e
    show jsOr (parseInt (q.get "year_to")) (.num 2024) = .num 2000
    rw [e]
    rfl

/-- C5, witness: the query `year_from=%202000px&year_to=-7&genres=28` decodes to the
years 2000 and -7, and the query `year_from=abc` to the year 1990. -/
theorem decode_year_witness :
    (decodeFiltersFromURL
      [("year_from", " 2000px"), ("year_to", "-7"), ("genres", "28")]).year_from = .num 2000 ∧
    (decodeFiltersFromURL
      [("year_from", " 2000px"), ("year_to", "-7"), ("genres", "28")]).year_to = .num (-7) ∧
    (decodeFiltersFromURL [("year_from", "abc")]).year_from = .num 1990 :=
  ⟨(decode_year [("year_from", " 2000px"), ("year_to", "-7"), ("genres", "28")]).1.1
      [' '] ['p', 'x'] 2000 (by decide) (by decide) (by decide) (by decide) (by decide),
    (decode_year [("year_from", " 2000px"), ("year_to", "-7"), ("genres", "28")]).2.1.1
      [] [] (-7) (by decide) (by decide) (by decide) (by decide) (by decide),
    (decode_year [("year_from", "abc")]).1.2.2.2.1
      [] ['a', 'b', 'c'] (by decide) (by decide) (by decide)⟩

theorem splitAt_no_sep {α : Type} [DecidableEq α] (sep : α) (l seg : List α)
    (h : seg ∈ splitAt sep l) : sep ∉ seg := by
  induction l generalizing seg with
  | nil =>
    simp [splitAt] at h
    rw [h]
    simp
  | cons x xs ih =>
    by_cases hx : x = sep
    · rw [splitAt, if_pos hx, List.mem_cons] at h
      rcases h with h | h
      · rw [h]; simp
      · exact ih seg h
    · obtain ⟨s, ss, h1, h2⟩ := splitAt_cons_of_ne sep x xs hx
      rw [h2, List.mem_cons] at h
      rcases h with h | h
      · rw [h, List.mem_cons, not_or]
        exact ⟨fun e => hx e.symm, ih s (by rw [h1]; exact List.mem_cons_self _ _)⟩
      · exact ih seg (by rw [h1]; exact List.mem_cons_of_mem _ h)

theorem decodeList_spec (q : URLSearchParams) (key : String) :
    (∀ v : String, q.get key = .str v →
      decodeList q key =
        ((v.data.splitOn ',').filter (fun seg => seg ≠ [])).map (fun seg => .str ⟨seg⟩)) ∧
    (q.get key = .null → decodeList q key = []) ∧
    (∀ x ∈ decodeList q key, ∃ s : String, x = .str s ∧ s ≠ "" ∧ ',' ∉ s.data) := by
  have hsplit : ∀ v : String, q.get key = .str v →
      decodeList q key =
        ((v.data.splitOn ',').filter (fun seg => seg ≠ [])).map (fun seg => .str ⟨seg⟩) := by
    intro v hv
    unfold decodeList stringSplit
    rw [hv]
    simp only [splitAt_eq_splitOn]
    rw [List.map_map, List.filter_map]
    congr 1
    apply List.filter_congr
    intro seg _
    cases seg with
    | nil => simp [JSVal.truthy, Function.comp]
    | cons c cs =>
      have : (⟨c :: cs⟩ : String) ≠ "" := fun e => List.cons_ne_nil c cs (congrArg String.data e)
      simp [JSVal.truthy, Function.comp, this]
  refine ⟨hsplit, ?_, ?_⟩
  · intro h
    unfold decodeList
    rw [h]
  · intro x hx
    have hget : q.get key = .null ∨ ∃ v, q.get key = .str v := by
      unfold URLSearchParams.get
      split
      · exact Or.inr ⟨_, rfl⟩
      · exact Or.inl rfl
    rcases hget with h | ⟨v, h⟩
    · unfold decodeList at hx
      rw [h] at hx
      simp at hx
    · rw [hsplit v h, List.mem_map] at hx
      obtain ⟨seg, hseg, rfl⟩ := hx
      rw [List.mem_filter] at hseg
      refine ⟨⟨seg⟩, rfl, ?_, ?_⟩
      · intro e
        have : seg = [] := congrArg String.data e
        simp [this] at hseg
      · intro hc
        have hm := hseg.1
        rw [← splitAt_eq_splitOn] at hm
        exact splitAt_no_sep ',' v.data seg hm hc

/-- C6 (list decoding): for every query and each of the keys `genres`, `moods`,
`rating`, the decoded list is the parameter's value split on `,` with every empty
segment removed, in the original order, and is the empty list when the key is
absent; no decoded list contains the empty string. -/
theorem decode_lists (q : URLSearchParams) :
    ((∀ v : String, q.get "genres" = .str v →
        (decodeFiltersFromURL q).genres = some (commaSegments v)) ∧
      (q.get "genres" = .null → (decodeFiltersFromURL q).genres = some []) ∧
      JSVal.str "" ∉ members (decodeFiltersFromURL q).genres) ∧
    ((∀ v : String, q.get "moods" = .str v →
        (decodeFiltersFromURL q).moods = some (commaSegments v)) ∧
      (q.get "moods" = .null → (decodeFiltersFromURL q).moods = some []) ∧
      JSVal.str "" ∉ members (decodeFiltersFromURL q).moods) ∧
    ((∀ v : String, q.get "rating" = .str v →
        (decodeFiltersFromURL q).rating = some (commaSegments v)) ∧
      (q.get "rating" = .null → (decodeFiltersFromURL q).rating = some []) ∧
      JSVal.str "" ∉ members (decodeFiltersFromURL q).rating) := by
  have key : ∀ k : String,
      (∀ v : String, q.get k = .str v → some (decodeList q k) = some (commaSegments v)) ∧
      (q.get k = .null → some (decodeList q k) = some []) ∧
      JSVal.str "" ∉ members (some (decodeList q k)) := by
    intro k
    have h := decodeList_spec q k
    refine ⟨fun v hv => congrArg some (h.1 v hv), fun hn => congrArg some (h.2.1 hn), ?_⟩
    intro hm
    obtain ⟨s, hs, hne, _⟩ := h.2.2 _ hm
    cases hs
    exact hne rfl
  exact ⟨key "genres", key "moods", key "rating"⟩

/-- C6, witness: `genres=,28,,12,` decodes to the two segments `28` and `12`, and
a query without `moods` decodes to no moods. -/
theorem decode_lists_witness :
    (decodeFiltersFromURL [("genres", ",28,,12,")]).genres = some [.str "28", .str "12"] ∧
    (decodeFiltersFromURL [("genres", ",28,,12,")]).moods = some [] :=
  ⟨((decode_lists [("genres", ",28,,12,")]).1.1 ",28,,12," (by decide)).trans (by decide),
    (decode_lists [("genres", ",28,,12,")]).2.1.2.1 (by decide)⟩

theorem decodeFiltersFromURL_shape (q : URLSearchParams) :
    ∃ a b : Int, decodeFiltersFromURL q =
      ⟨some (decodeList q "genres"), some (decodeList q "moods"), some (decodeList q "rating"),
        .num a, .num b⟩ := by
  have hy : ∀ (v : JSVal) (d : Int), ∃ a : Int, jsOr (parseInt v) (.num d) = .num a := by
    intro v d
    rcases parseInt_cases v with h | ⟨n, h⟩
    · exact ⟨d, (jsOr_parseInt v (.num d)).2.2 h⟩
    · by_cases hn : n = 0
      · exact ⟨d, (jsOr_parseInt v (.num d)).2.1 (by rw [h, hn])⟩
      · exact ⟨n, (jsOr_parseInt v (.num d)).1 n h hn⟩
  obtain ⟨a, ha⟩ := hy (q.get "year_from") 1990
  obtain ⟨b, hb⟩ := hy (q.get "year_to") 2024
  refine ⟨a, b, ?_⟩
  unfold decodeFiltersFromURL
  rw [ha, hb]

/-- C10 (decode is total): for every `URLSearchParams` object, and so for the one
constructed from any query string, `decodeFiltersFromURL` returns a selection
whose three list fields are lists and whose two year fields are numbers. -/
theorem decode_total :
    (∀ q : URLSearchParams, ∃ (g m r : List JSVal) (a b : Int),
      decodeFiltersFromURL q = ⟨some g, some m, some r, .num a, .num b⟩) ∧
    (∀ s : String, ∃ (g m r : List JSVal) (a b : Int),
      decodeFiltersFromURL (URLSearchParams.ofString s) =
        ⟨some g, some m, some r, .num a, .num b⟩) := by
  have h : ∀ q : URLSearchParams, ∃ (g m r : List JSVal) (a b : Int),
      decodeFiltersFromURL q = ⟨some g, some m, some r, .num a, .num b⟩ := by
    intro q
    obtain ⟨a, b, e⟩ := decodeFiltersFromURL_shape q
    exact ⟨_, _, _, a, b, e⟩
  exact ⟨h, fun s => h _⟩

/-! ## The codec: encoding -/

theorem decide_members_ne_nil (field : Option (List JSVal)) :
    decide (members field ≠ []) = hasLength field := by
  cases field with
  | none => rfl
  | some l => cases l <;> rfl

/-- C7 (encoded keys): for every selection the keys of the encoded query string
are exactly those of `genres`, `moods`, `rating`, `year_from`, `year_to` whose
field is non-empty (lists) or not falsy (years), each once and in that order, and
the selection `{genres:[28,12], moods:["Epic"], rating:[], year_from:2000,
year_to:2020}` encodes to `genres=28%2C12&moods=Epic&year_from=2000&year_to=2020`. -/
theorem encode_keys :
    (∀ f : Filters,
      (URLSearchParams.ofString (encodeFiltersToURL f)).map Prod.fst =
        ["genres", "moods", "rating", "year_from", "year_to"].filter (fieldSet f)) ∧
    encodeFiltersToURL
        ⟨some [.num 28, .num 12], some [.str "Epic"], some [], .num 2000, .num 2020⟩ =
      "genres=28%2C12&moods=Epic&year_from=2000&year_to=2020" := by
  refine ⟨?_, by decide⟩
  intro f
  unfold encodeFiltersToURL
  rw [ofString_toString, encodeParams_eq]
  have e : ["genres", "moods", "rating", "year_from", "year_to"].filter (fieldSet f) =
      (if hasLength f.genres then ["genres"] else []) ++
      (if hasLength f.moods then ["moods"] else []) ++
      (if hasLength f.rating then ["rating"] else []) ++
      (if f.year_from.truthy then ["year_from"] else []) ++
      (if f.year_to.truthy then ["year_to"] else []) := by
    have h1 : fieldSet f "genres" = hasLength f.genres := decide_members_ne_nil _
    have h2 : fieldSet f "moods" = hasLength f.moods := decide_members_ne_nil _
    have h3 : fieldSet f "rating" = hasLength f.rating := decide_members_ne_nil _
    have h4 : fieldSet f "year_from" = f.year_from.truthy := rfl
    have h5 : fieldSet f "year_to" = f.year_to.truthy := rfl
    simp only [List.filter, h1, h2, h3, h4, h5]
    cases hasLength f.genres <;> cases hasLength f.moods <;> cases hasLength f.rating <;>
      cases f.year_from.truthy <;> cases f.year_to.truthy <;> rfl
  rw [e]
  cases hasLength f.genres <;> cases hasLength f.moods <;> cases hasLength f.rating <;>
    cases f.year_from.truthy <;> cases f.year_to.truthy <;> rfl

/-- C8, the counterexample: the year `10 ^ 21` is present, and the value written
for it is `1e+21` (`year_from=1e%2B21` in the query string), which is not its
decimal string `1000000000000000000000`. -/
theorem encode_values_fails :
    encodeFiltersToURL ⟨none, none, none, .num (10 ^ 21), .null⟩ = "year_from=1e%2B21" ∧
    (URLSearchParams.ofString (encodeFiltersToURL
      ⟨none, none, none, .num (10 ^ 21), .null⟩)).get "year_from" = .str "1e+21" ∧
    decimalString (10 ^ 21) = "1000000000000000000000" ∧
    (URLSearchParams.ofString (encodeFiltersToURL
      ⟨none, none, none, .num (10 ^ 21), .null⟩)).get "year_from" ≠
      .str (decimalString (10 ^ 21)) := by
  decide

/-- C8, as amended (encoded values): for every selection, the value the encoded
query string holds for a non-empty list field with no number beyond the safe
integers is, after unescaping, the members joined by `,` in the order given, and
the value it holds for a year that is a non-zero safe integer (below `2 ^ 53` in
absolute value) is that year's decimal string. -/
theorem encode_values (f : Filters) :
    (members f.genres ≠ [] → (∀ x ∈ members f.genres, safeNumber x = true) →
      (URLSearchParams.ofString (encodeFiltersToURL f)).get "genres" =
        .str (",".intercalate ((members f.genres).map joinElement))) ∧
    (members f.moods ≠ [] → (∀ x ∈ members f.moods, safeNumber x = true) →
      (URLSearchParams.ofString (encodeFiltersToURL f)).get "moods" =
        .str (",".intercalate ((members f.moods).map joinElement))) ∧
    (members f.rating ≠ [] → (∀ x ∈ members f.rating, safeNumber x = true) →
      (URLSearchParams.ofString (encodeFiltersToURL f)).get "rating" =
        .str (",".intercalate ((members f.rating).map joinElement))) ∧
    (∀ n : Int, f.year_from = .num n → n ≠ 0 → n.natAbs < 2 ^ 53 →
      (URLSearchParams.ofString (encodeFiltersToURL f)).get "year_from" =
        .str (decimalString n)) ∧
    (∀ n : Int, f.year_to = .num n → n ≠ 0 → n.natAbs < 2 ^ 53 →
      (URLSearchParams.ofString (encodeFiltersToURL f)).get "year_to" =
        .str (decimalString n)) := by
  unfold encodeFiltersToURL
  rw [ofString_toString]
  obtain ⟨hg, hm, hr, hf, ht⟩ := get_encodeParams f
  refine ⟨?_, ?_, ?_, ?_, ?_⟩
  · intro h _
    rw [hg, if_pos ((hasLength_iff _).2 h)]
    rfl
  · intro h _
    rw [hm, if_pos ((hasLength_iff _).2 h)]
    rfl
  · intro h _
    rw [hr, if_pos ((hasLength_iff _).2 h)]
    rfl
  · intro n h hn hs
    rw [hf, h, if_pos (by simp [JSVal.truthy, hn])]
    exact congrArg JSVal.str (joinElement_num n hs)
  · intro n h hn hs
    rw [ht, h, if_pos (by simp [JSVal.truthy, hn])]
    exact congrArg JSVal.str (joinElement_num n hs)

/-- C8, witness: for genres `[12, 28, 12]` (unsorted, with a repeat) the encoded
value is `12,28,12`, and the year 2000 is written as `2000`. -/
theorem encode_values_witness :
    (URLSearchParams.ofString (encodeFiltersToURL
      ⟨some [.num 12, .num 28, .num 12], none, none, .num 2000, .null⟩)).get "genres" =
        .str "12,28,12" ∧
    (URLSearchParams.ofString (encodeFiltersToURL
      ⟨some [.num 12, .num 28, .num 12], none, none, .num 2000, .null⟩)).get "year_from" =
        .str "2000" :=
  ⟨((encode_values ⟨some [.num 12, .num 28, .num 12], none, none, .num 2000, .null⟩).1
      (by decide) (by decide)).trans (by decide),
    ((encode_values ⟨some [.num 12, .num 28, .num 12], none, none, .num 2000, .null⟩).2.2.2.1
      2000 rfl (by decide) (by decide)).trans (by decide)⟩

/-! ## The codec: round trip -/

theorem decodeList_encodeParams (f : Filters) (key : String) (field : Option (List JSVal))
    (hget : (encodeParams f).get key =
      if hasLength field then .str (arrayJoin (members field) ",") else .null)
    (hok : ∀ x ∈ members field, memberOk x) :
    decodeList (encodeParams f) key = (members field).map (fun x => .str (joinElement x)) := by
  by_cases h : hasLength field = true
  · rw [if_pos h] at hget
    exact decodeList_arrayJoin _ _ _ hget ((hasLength_iff _).1 h) (fun x hx => (hok x hx).2)
  · rw [if_neg h] at hget
    have hnil : members field = [] := by
      by_contra hne
      exact h ((hasLength_iff _).2 hne)
    unfold decodeList
    rw [hget, hnil]
    rfl

theorem year_encodeParams (v d : JSVal) (got : JSVal)
    (hget : got = if v.truthy then .str v.toStr else .null) (hv : yearOk v) :
    jsOr (parseInt got) d = jsOr v d := by
  rcases hv with hv | ⟨n, rfl, hlt⟩
  · rw [hv] at hget
    have hnull : got = .null := hget
    rw [hnull, parseInt_null]
    unfold jsOr
    rw [hv]
    rfl
  · by_cases hn : n = 0
    · subst hn
      have : (JSVal.num 0).truthy = false := rfl
      rw [this] at hget
      have hnull : got = .null := hget
      rw [hnull, parseInt_null]
      rfl
    · have ht : (JSVal.num n).truthy = true := by simp [JSVal.truthy, hn]
      rw [ht] at hget
      have hstr : got = .str (numberToString n) := hget
      rw [hstr, parseInt_numberToString n hlt]

theorem decimalDigits_digits (n : Nat) :
    decimalDigits (n + 1) n [] ≠ [] ∧
      ∀ c ∈ decimalDigits (n + 1) n [], 48 ≤ c.toNat ∧ c.toNat ≤ 57 := by
  obtain ⟨vs, hne, hlt, _, heq⟩ := decimalDigits_spec (n + 1) n [] (by omega)
  rw [List.append_nil] at heq
  rw [heq]
  refine ⟨by simpa using hne, ?_⟩
  intro c hc
  rw [List.mem_map] at hc
  obtain ⟨d, hd, rfl⟩ := hc
  rw [digitChar_toNat d (hlt d hd)]
  have := hlt d hd
  omega

theorem decimalString_ok (n : Int) :
    decimalString n ≠ "" ∧ ',' ∉ (decimalString n).data := by
  obtain ⟨hne, hdig⟩ := decimalDigits_digits n.natAbs
  have hcomma : ',' ∉ decimalDigits (n.natAbs + 1) n.natAbs [] := by
    intro hm
    have := hdig ',' hm
    have e : (',' : Char).toNat = 44 := by decide
    omega
  unfold decimalString
  by_cases h : n < 0
  · rw [if_pos h]
    refine ⟨fun e => List.cons_ne_nil _ _ (congrArg String.data e), ?_⟩
    intro hm
    rw [List.mem_cons] at hm
    rcases hm with hm | hm
    · exact absurd hm (by decide)
    · exact hcomma hm
  · rw [if_neg h]
    exact ⟨fun e => hne (congrArg String.data e), hcomma⟩

theorem memberOk_num (n : Int) (h : n.natAbs < 2 ^ 53) : memberOk (.num n) := by
  refine ⟨decide_eq_true h, ?_⟩
  rw [joinElement_num n h]
  exact decimalString_ok n

/-- The round trip on any selection whose list members survive the encoding and
whose years are falsy or safe integers. -/
theorem roundtrip_general (f : Filters)
    (hg : ∀ x ∈ members f.genres, memberOk x) (hm : ∀ x ∈ members f.moods, memberOk x)
    (hr : ∀ x ∈ members f.rating, memberOk x) (hyf : yearOk f.year_from)
    (hyt : yearOk f.year_to) :
    decodeFiltersFromURL (URLSearchParams.ofString (encodeFiltersToURL f)) =
      canonical (stringified f) := by
  unfold encodeFiltersToURL
  rw [ofString_toString]
  obtain ⟨gg, gm, gr, gf, gt⟩ := get_encodeParams f
  unfold decodeFiltersFromURL canonical stringified
  rw [decodeList_encodeParams f "genres" f.genres gg hg,
    decodeList_encodeParams f "moods" f.moods gm hm,
    decodeList_encodeParams f "rating" f.rating gr hr,
    year_encodeParams f.year_from (.num 1990) _ gf hyf,
    year_encodeParams f.year_to (.num 2024) _ gt hyt]
  have hmem : ∀ field : Option (List JSVal),
      members (field.map (fun l => l.map (fun x => JSVal.str (joinElement x)))) =
        (members field).map (fun x => JSVal.str (joinElement x)) := by
    intro field
    cases field <;> rfl
  simp only [hmem]

theorem map_str_joinElement (l : List JSVal) (h : ∀ x ∈ l, x.isStr = true) :
    l.map (fun x => JSVal.str (joinElement x)) = l := by
  conv => rhs; rw [← List.map_id l]
  apply List.map_congr_left
  intro x hx
  have := h x hx
  cases x <;> first | rfl | exact absurd this (by simp [JSVal.isStr])

theorem stringified_of_strings (f : Filters)
    (hg : ∀ x ∈ members f.genres, x.isStr = true)
    (hm : ∀ x ∈ members f.moods, x.isStr = true)
    (hr : ∀ x ∈ members f.rating, x.isStr = true) : stringified f = f := by
  have key : ∀ field : Option (List JSVal), (∀ x ∈ members field, x.isStr = true) →
      field.map (fun l => l.map (fun x => JSVal.str (joinElement x))) = field := by
    intro field h
    cases field with
    | none => rfl
    | some l => exact congrArg some (map_str_joinElement l h)
  unfold stringified
  rw [key _ hg, key _ hm, key _ hr]

/-- C1, the counterexample: the spec's own scenario selection `{genres: [28, 12],
moods: ["Epic"], rating: [], year_from: 2000, year_to: 2020}` has no comma in any
member, yet decoding its encoding gives the genres `["28", "12"]`, which is not
the selection; and the selection whose only genre is the empty string (no comma
either) comes back with no genre at all. -/
theorem roundtrip_fails :
    decodeFiltersFromURL (URLSearchParams.ofString (encodeFiltersToURL
        ⟨some [.num 28, .num 12], some [.str "Epic"], some [], .num 2000, .num 2020⟩)) =
      ⟨some [.str "28", .str "12"], some [.str "Epic"], some [], .num 2000, .num 2020⟩ ∧
    decodeFiltersFromURL (URLSearchParams.ofString (encodeFiltersToURL
        ⟨some [.num 28, .num 12], some [.str "Epic"], some [], .num 2000, .num 2020⟩)) ≠
      canonical ⟨some [.num 28, .num 12], some [.str "Epic"], some [], .num 2000, .num 2020⟩ ∧
    decodeFiltersFromURL (URLSearchParams.ofString (encodeFiltersToURL
        ⟨some [.str ""], some [], some [], .num 1990, .num 2024⟩)) =
      ⟨some [], some [], some [], .num 1990, .num 2024⟩ ∧
    decodeFiltersFromURL (URLSearchParams.ofString (encodeFiltersToURL
        ⟨some [.str ""], some [], some [], .num 1990, .num 2024⟩)) ≠
      canonical ⟨some [.str ""], some [], some [], .num 1990, .num 2024⟩ := by
  decide

/-- C1, as amended (round trip): for every selection whose list members each
have a non-empty string form without a comma, none of them a number beyond the
safe integers, and whose year fields are falsy or safe integers (below `2 ^ 53` in
absolute value), decoding the parsed encoding gives the selection with every list
member replaced by its string form, a missing list read as the empty list and a
falsy year read as its default (1990, 2024); when the list members are strings
already, that is the selection itself under the same reading. -/
theorem roundtrip (f : Filters)
    (hg : ∀ x ∈ members f.genres, memberOk x) (hm : ∀ x ∈ members f.moods, memberOk x)
    (hr : ∀ x ∈ members f.rating, memberOk x) (hyf : yearOk f.year_from)
    (hyt : yearOk f.year_to) :
    decodeFiltersFromURL (URLSearchParams.ofString (encodeFiltersToURL f)) =
      canonical (stringified f) ∧
    ((∀ x ∈ members f.genres ++ members f.moods ++ members f.rating, x.isStr = true) →
      decodeFiltersFromURL (URLSearchParams.ofString (encodeFiltersToURL f)) = canonical f) := by
  refine ⟨roundtrip_general f hg hm hr hyf hyt, ?_⟩
  intro hs
  rw [roundtrip_general f hg hm hr hyf hyt, stringified_of_strings f
    (fun x hx => hs x (by simp [hx])) (fun x hx => hs x (by simp [hx]))
    (fun x hx => hs x (by simp [hx]))]

/-- C1, witness: the selection `{genres: ["28", "12"], moods: ["Epic"], rating:
undefined, year_from: 0, year_to: 2020}` comes back as `{genres: ["28", "12"],
moods: ["Epic"], rating: [], year_from: 1990, year_to: 2020}`. -/
theorem roundtrip_witness :
    decodeFiltersFromURL (URLSearchParams.ofString (encodeFiltersToURL
        ⟨some [.str "28", .str "12"], some [.str "Epic"], none, .num 0, .num 2020⟩)) =
      ⟨some [.str "28", .str "12"], some [.str "Epic"], some [], .num 1990, .num 2020⟩ :=
  ((roundtrip ⟨some [.str "28", .str "12"], some [.str "Epic"], none, .num 0, .num 2020⟩
    (by unfold memberOk; decide) (by unfold memberOk; decide) (by unfold memberOk; decide)
    (Or.inl rfl) (Or.inr ⟨2020, rfl, by decide⟩)).2 (by decide)).trans (by decide)

set_option maxRecDepth 100000 in
/-- C9, the counterexample: the genre `10 ^ 21` is an integer, and it comes back
as the string `1e+21`, which is not its decimal string
`1000000000000000000000`. -/
theorem roundtrip_integer_genres_fails :
    (decodeFiltersFromURL (URLSearchParams.ofString (encodeFiltersToURL
      ⟨some [.num (10 ^ 21)], some [], some [], .num 2000, .num 2020⟩))).genres =
        some [.str "1e+21"] ∧
    decimalString (10 ^ 21) = "1000000000000000000000" ∧
    (decodeFiltersFromURL (URLSearchParams.ofString (encodeFiltersToURL
      ⟨some [.num (10 ^ 21)], some [], some [], .num 2000, .num 2020⟩))).genres ≠
        some [.str (decimalString (10 ^ 21))] := by
  decide

/-- C9, as amended (type narrowing): for every selection whose genres are safe
integers (below `2 ^ 53` in absolute value) and whose years are falsy or safe
integers, decoding the parsed encoding returns the genres as the decimal strings
of those integers, in the same order, and the two years as integers: the year of
the selection, or the default for a falsy one. -/
theorem roundtrip_integer_genres (f : Filters) (ns : List Int)
    (h : f.genres = some (ns.map JSVal.num)) (hs : ∀ n ∈ ns, n.natAbs < 2 ^ 53)
    (hyf : yearOk f.year_from) (hyt : yearOk f.year_to) :
    (decodeFiltersFromURL (URLSearchParams.ofString (encodeFiltersToURL f))).genres =
      some (ns.map (fun n => JSVal.str (decimalString n))) ∧
    (decodeFiltersFromURL (URLSearchParams.ofString (encodeFiltersToURL f))).year_from =
      jsOr f.year_from (.num 1990) ∧
    (decodeFiltersFromURL (URLSearchParams.ofString (encodeFiltersToURL f))).year_to =
      jsOr f.year_to (.num 2024) ∧
    ∃ a b : Int,
      (decodeFiltersFromURL (URLSearchParams.ofString (encodeFiltersToURL f))).year_from =
        .num a ∧
      (decodeFiltersFromURL (URLSearchParams.ofString (encodeFiltersToURL f))).year_to =
        .num b := by
  unfold encodeFiltersToURL
  rw [ofString_toString]
  obtain ⟨gg, _, _, gf, gt⟩ := get_encodeParams f
  have hfrom : (decodeFiltersFromURL (encodeParams f)).year_from = jsOr f.year_from (.num 1990) :=
    year_encodeParams f.year_from (.num 1990) _ gf hyf
  have hto : (decodeFiltersFromURL (encodeParams f)).year_to = jsOr f.year_to (.num 2024) :=
    year_encodeParams f.year_to (.num 2024) _ gt hyt
  obtain ⟨a, b, e⟩ := decodeFiltersFromURL_shape (encodeParams f)
  refine ⟨?_, hfrom, hto, a, b, by rw [e], by rw [e]⟩
  have hmem : members f.genres = ns.map JSVal.num := by rw [h]; rfl
  show some (decodeList (encodeParams f) "genres") = _
  rw [decodeList_encodeParams f "genres" f.genres gg (by
    intro x hx
    rw [hmem, List.mem_map] at hx
    obtain ⟨n, hn, rfl⟩ := hx
    exact memberOk_num n (hs n hn)), hmem, List.map_map]
  congr 1
  apply List.map_congr_left
  intro n hn
  exact congrArg JSVal.str (joinElement_num n (hs n hn))

/-- C9, witness: genres `[28, 12]` come back as `["28", "12"]`, the years 2000 and
2020 as the numbers 2000 and 2020. -/
theorem roundtrip_integer_genres_witness :
    (decodeFiltersFromURL (URLSearchParams.ofString (encodeFiltersToURL
      ⟨some [.num 28, .num 12], some [.str "Epic"], some [], .num 2000, .num 2020⟩))).genres =
        some [.str "28", .str "12"] ∧
    (decodeFiltersFromURL (URLSearchParams.ofString (encodeFiltersToURL
      ⟨some [.num 28, .num 12], some [.str "Epic"], some [], .num 2000, .num 2020⟩))).year_from =
        .num 2000 :=
  ⟨((roundtrip_integer_genres
      ⟨some [.num 28, .num 12], some [.str "Epic"], some [], .num 2000, .num 2020⟩ [28, 12]
      rfl (by decide) (Or.inr ⟨2000, rfl, by decide⟩) (Or.inr ⟨2020, rfl, by decide⟩)).1).trans
      (by decide),
    (roundtrip_integer_genres
      ⟨some [.num 28, .num 12], some [.str "Epic"], some [], .num 2000, .num 2020⟩ [28, 12]
      rfl (by decide) (Or.inr ⟨2000, rfl, by decide⟩) (Or.inr ⟨2020, rfl, by decide⟩)).2.1⟩

/-! ## Mood scoring -/

theorem includes_iff_infix (hay needle : String) :
    includes hay needle = true ↔ needle.data <:+: hay.data := by
  unfold includes
  rw [List.any_eq_true]
  constructor
  · rintro ⟨t, ht, hp⟩
    rw [List.mem_tails] at ht
    have hp2 : needle.data <+: t := List.isPrefixOf_iff_prefix.1 hp
    exact List.infix_iff_prefix_suffix.2 ⟨t, hp2, ht⟩
  · intro h
    obtain ⟨t, hp, ht⟩ := List.infix_iff_prefix_suffix.1 h
    exact ⟨t, (List.mem_tails _ _).2 ht, List.isPrefixOf_iff_prefix.2 hp⟩

theorem anyM_genreIncludes (kw : String) (names : List String) :
    (names.map some).anyM (genreIncludes kw) = .ok (names.any (fun n => includes n kw)) := by
  induction names with
  | nil => rfl
  | cons n ns ih =>
    rw [List.map_cons, List.anyM, List.any_cons]
    cases h : includes n kw
    · simp only [genreIncludes, h, Bool.false_or]
      exact ih
    · simp only [genreIncludes, h, Bool.true_or]
      rfl

theorem filterAuxM_ok {α : Type} (p : α → Except JSError Bool) (q : α → Bool)
    (h : ∀ x, p x = .ok (q x)) (l acc : List α) :
    List.filterAuxM p l acc = .ok ((l.filter q).reverse ++ acc) := by
  induction l generalizing acc with
  | nil => rfl
  | cons x xs ih =>
    rw [List.filterAuxM, h x]
    show List.filterAuxM p xs (cond (q x) (x :: acc) acc) = _
    rw [ih]
    cases hq : q x <;> simp [List.filter, hq]

theorem filterM_ok {α : Type} (p : α → Except JSError Bool) (q : α → Bool)
    (h : ∀ x, p x = .ok (q x)) (l : List α) : l.filterM p = .ok (l.filter q) := by
  unfold List.filterM
  rw [filterAuxM_ok p q h]
  simp [bind, Except.bind, pure, Except.pure]

theorem moodTagsGet_keywords (mood : String) (h : moodTagsGet mood ≠ .inherited) :
    moodTagsGet mood = .keywords (moodKeywords mood) ∨
      (moodTagsGet mood = .undefined ∧ moodKeywords mood = []) := by
  unfold moodTagsGet moodKeywords at *
  cases hl : MOOD_TAGS.lookup mood with
  | some ks => exact Or.inl rfl
  | none =>
    rw [hl] at h
    simp only at h ⊢
    split at h
    · exact absurd rfl h
    · rename_i hc
      rw [if_neg hc]
      exact Or.inr ⟨rfl, rfl⟩

theorem scoreMood_ok (lower : String → String) (names : List String) (score : Nat)
    (mood : String) (h : moodTagsGet mood ≠ .inherited) :
    scoreMood ((namedGenres names).map (fun g => g.name.map lower)) score mood =
      .ok (score + 20 * matchCount lower names mood) := by
  have hnames : (namedGenres names).map (fun g => g.name.map lower) =
      (names.map lower).map some := by
    simp [namedGenres, List.map_map, Function.comp]
  have hfilter : ∀ ks : List String,
      ks.filterM (fun genre => ((names.map lower).map some).anyM (genreIncludes genre)) =
        .ok (ks.filter (fun kw => names.any (fun n => includes (lower n) kw))) := by
    intro ks
    apply filterM_ok
    intro kw
    rw [anyM_genreIncludes, List.any_map]
    rfl
  unfold scoreMood matchCount
  rw [hnames]
  rcases moodTagsGet_keywords mood h with hk | ⟨hk, he⟩
  · rw [hk]
    simp only [bind, Except.bind, pure, Except.pure]
    rw [hfilter, List.countP_eq_length_filter, Nat.mul_comm]
  · rw [hk, he]
    rfl

theorem foldlM_scoreMood_ok (lower : String → String) (names : List String)
    (moods : List String) (h : ∀ mood ∈ moods, moodTagsGet mood ≠ .inherited) (score : Nat) :
    moods.foldlM (scoreMood ((namedGenres names).map (fun g => g.name.map lower))) score =
      .ok (score + 20 * (moods.map (matchCount lower names)).sum) := by
  induction moods generalizing score with
  | nil => simp [List.foldlM, pure, Except.pure]
  | cons m ms ih =>
    rw [List.foldlM_cons, scoreMood_ok lower names score m (h m (List.mem_cons_self _ _))]
    simp only [bind, Except.bind]
    rw [ih (fun x hx => h x (List.mem_cons_of_mem _ hx))]
    simp only [List.map_cons, List.sum_cons]
    congr 1
    ring

/-- The scorer computes the spec's formula whenever every genre has a name and no
mood names an inherited property of the `MOOD_TAGS` object. -/
theorem calculateMoodScore_formula (lower : String → String) (names : List String)
    (moods : List String) (h : ∀ mood ∈ moods, moodTagsGet mood ≠ .inherited) :
    calculateMoodScore lower (some (namedGenres names)) (some moods) =
      .ok (moodScoreFormula lower names moods) := by
  unfold calculateMoodScore moodScoreFormula
  cases moods with
  | nil => rfl
  | cons m ms =>
    simp only [bind, Except.bind, pure, Except.pure]
    rw [foldlM_scoreMood_ok lower names (m :: ms) h 0]
    simp only [Nat.zero_add, Nat.min_comm]

/-- A mood reaches the inherited branch exactly when it is one of the twelve
property names of `Object.prototype`. -/
theorem moodTagsGet_inherited_iff (mood : String) :
    moodTagsGet mood = .inherited ↔ mood ∈ objectPrototypeKeys := by
  unfold moodTagsGet
  constructor
  · intro h
    cases hl : MOOD_TAGS.lookup mood with
    | some ks => rw [hl] at h; cases h
    | none =>
      rw [hl] at h
      simp only at h
      split at h
      · rename_i hc
        simpa using hc
      · cases h
  · intro h
    have hc : objectPrototypeKeys.contains mood = true := by simpa using h
    have hl : MOOD_TAGS.lookup mood = none := by
      simp only [objectPrototypeKeys, List.mem_cons, List.mem_singleton, List.not_mem_nil,
        or_false] at h
      rcases h with rfl | rfl | rfl | rfl | rfl | rfl | rfl | rfl | rfl | rfl | rfl | rfl <;>
        decide
    rw [hl]
    simp only
    rw [if_pos hc]

/-- Whenever the scorer returns, it returns at most 100. -/
theorem calculateMoodScore_le (lower : String → String) (movieGenres : Option (List Genre))
    (selectedMoods : Option (List String)) (n : Nat)
    (h : calculateMoodScore lower movieGenres selectedMoods = .ok n) : n ≤ 100 := by
  unfold calculateMoodScore at h
  split at h
  · cases h; omega
  · cases h; omega
  · cases movieGenres with
    | none => cases h
    | some gs =>
      simp only [bind, Except.bind, pure, Except.pure] at h
      split at h
      · cases h
      · cases h
        exact Nat.min_le_right _ _

/-- C2, at the failing input: the scenario of the spec scores 60, but with genres
`[Action, Adventure]` and moods `[Action-Packed, constructor]`, where the formula
gives 40, the scorer raises a `TypeError`, because `MOOD_TAGS['constructor']` is
the inherited `Object` function and has no `filter` method. -/
theorem score_formula_breaks_on_inherited_mood :
    calculateMoodScore toLowerCaseASCII (some (namedGenres ["Action", "Adventure"]))
        (some ["Action-Packed", "Epic"]) = .ok 60 ∧
    moodScoreFormula toLowerCaseASCII ["Action", "Adventure"] ["Action-Packed", "constructor"] =
      40 ∧
    calculateMoodScore toLowerCaseASCII (some (namedGenres ["Action", "Adventure"]))
        (some ["Action-Packed", "constructor"]) =
      .error (.typeError "moodGenres.filter is not a function") := by
  decide

/-- C3, at the failing input: for the mood list `[constructor]` the scorer returns
no integer at all, whatever the genre list and the lower-casing; it raises a
`TypeError`. -/
theorem score_range_breaks_on_inherited_mood (lower : String → String) (genres : List Genre) :
    calculateMoodScore lower (some genres) (some ["constructor"]) =
      .error (.typeError "moodGenres.filter is not a function") := by
  rfl

/-! ## Mood scoring: the shape of a run -/

/-- With a genre sequence present, the scorer is the fold of `scoreMood` over the
moods followed by the cap, also for the empty mood list. -/
theorem calculateMoodScore_some (lower : String → String) (gs : List Genre)
    (moods : List String) :
    calculateMoodScore lower (some gs) (some moods) =
      (moods.foldlM (scoreMood (gs.map (fun g => g.name.map lower))) 0).map
        (fun score => min score 100) := by
  cases moods with
  | nil => rfl
  | cons m ms =>
    unfold calculateMoodScore
    simp only [bind, Except.bind, pure, Except.pure]
    cases List.foldlM (scoreMood (gs.map (fun g => g.name.map lower))) 0 (m :: ms) <;> rfl

theorem scoreMood_inherited (genreNames : List (Option String)) (score : Nat) (mood : String)
    (h : moodTagsGet mood = .inherited) :
    scoreMood genreNames score mood =
      .error (.typeError "moodGenres.filter is not a function") := by
  unfold scoreMood
  rw [h]
  rfl

theorem scoreMood_undefined (genreNames : List (Option String)) (score : Nat) (mood : String)
    (h : moodTagsGet mood = .undefined) : scoreMood genreNames score mood = .ok score := by
  unfold scoreMood
  rw [h]
  rfl

theorem foldlM_scoreMood_inherited (lower : String → String) (names : List String)
    (moods : List String) (h : ∃ mood ∈ moods, moodTagsGet mood = .inherited) (score : Nat) :
    moods.foldlM (scoreMood ((namedGenres names).map (fun g => g.name.map lower))) score =
      .error (.typeError "moodGenres.filter is not a function") := by
  induction moods generalizing score with
  | nil =>
    obtain ⟨mood, hm, _⟩ := h
    cases hm
  | cons m ms ih =>
    rw [List.foldlM_cons]
    by_cases hi : moodTagsGet m = .inherited
    · rw [scoreMood_inherited _ _ _ hi]
      rfl
    · rw [scoreMood_ok lower names score m hi]
      simp only [bind, Except.bind]
      apply ih
      obtain ⟨mood, hm, hmood⟩ := h
      rw [List.mem_cons] at hm
      rcases hm with rfl | hm
      · exact absurd hmood hi
      · exact ⟨mood, hm, hmood⟩

/-- With named genres, a mood list that holds an inherited property name makes the
scorer raise the `TypeError` of the missing `filter` method. -/
theorem calculateMoodScore_inherited (lower : String → String) (names : List String)
    (moods : List String) (h : ∃ mood ∈ moods, moodTagsGet mood = .inherited) :
    calculateMoodScore lower (some (namedGenres names)) (some moods) =
      .error (.typeError "moodGenres.filter is not a function") := by
  rw [calculateMoodScore_some, foldlM_scoreMood_inherited lower names moods h 0]
  rfl

theorem foldlM_append_scoreMood (genreNames : List (Option String)) (moods : List String)
    (x : String) (score : Nat) :
    (moods ++ [x]).foldlM (scoreMood genreNames) score =
      (moods.foldlM (scoreMood genreNames) score).bind (fun s => scoreMood genreNames s x) := by
  induction moods generalizing score with
  | nil =>
    simp only [List.nil_append, List.foldlM_cons, List.foldlM_nil, bind, Except.bind, pure,
      Except.pure]
    cases scoreMood genreNames score x <;> rfl
  | cons m ms ih =>
    simp only [List.cons_append, List.foldlM_cons, bind, Except.bind]
    cases scoreMood genreNames score m with
    | error e => rfl
    | ok s => exact ih s

/-- A mood that is neither a key of the table nor an inherited property name adds
nothing: appending it to any mood list leaves the outcome as it was, and alone it
scores 0, for every genre list, nameless entries included. -/
theorem calculateMoodScore_unknown_mood (lower : String → String) (gs : List Genre)
    (moods : List String) (x : String) (h : moodTagsGet x = .undefined) :
    calculateMoodScore lower (some gs) (some (moods ++ [x])) =
      calculateMoodScore lower (some gs) (some moods) ∧
    calculateMoodScore lower (some gs) (some [x]) = .ok 0 := by
  have key : ∀ ms : List String,
      calculateMoodScore lower (some gs) (some (ms ++ [x])) =
        calculateMoodScore lower (some gs) (some ms) := by
    intro ms
    rw [calculateMoodScore_some, calculateMoodScore_some, foldlM_append_scoreMood]
    cases List.foldlM (scoreMood (gs.map (fun g => g.name.map lower))) 0 ms with
    | error e => rfl
    | ok s =>
      simp only [Except.bind]
      rw [scoreMood_undefined _ _ _ h]
  exact ⟨key moods, key []⟩

theorem moodScoreFormula_append (lower : String → String) (names : List String)
    (moods : List String) (x : String) :
    moodScoreFormula lower names moods ≤ moodScoreFormula lower names (moods ++ [x]) := by
  unfold moodScoreFormula
  rw [List.map_append, List.sum_append]
  omega

/-- With named genres and no inherited property name among the moods, one more
mood never lowers the score. -/
theorem calculateMoodScore_mono (lower : String → String) (names : List String)
    (moods : List String) (x : String)
    (h : ∀ mood ∈ moods ++ [x], moodTagsGet mood ≠ .inherited) :
    ∃ a b : Nat,
      calculateMoodScore lower (some (namedGenres names)) (some moods) = .ok a ∧
      calculateMoodScore lower (some (namedGenres names)) (some (moods ++ [x])) = .ok b ∧
      a ≤ b :=
  ⟨_, _, calculateMoodScore_formula lower names moods (fun m hm => h m (by simp [hm])),
    calculateMoodScore_formula lower names (moods ++ [x]) h,
    moodScoreFormula_append lower names moods x⟩

/-- With named genres and no inherited property name among the moods, five keyword
matches or more give exactly 100. -/
theorem calculateMoodScore_saturates (lower : String → String) (names : List String)
    (moods : List String) (h : ∀ mood ∈ moods, moodTagsGet mood ≠ .inherited)
    (h5 : 5 ≤ (moods.map (matchCount lower names)).sum) :
    calculateMoodScore lower (some (namedGenres names)) (some moods) = .ok 100 := by
  rw [calculateMoodScore_formula lower names moods h]
  unfold moodScoreFormula
  congr 1
  omega

theorem matchCount_nil (lower : String → String) (mood : String) :
    matchCount lower [] mood = 0 := by
  unfold matchCount
  simp

/-- With no inherited property name among the moods, the empty genre list
scores 0. -/
theorem calculateMoodScore_no_genres (lower : String → String) (moods : List String)
    (h : ∀ mood ∈ moods, moodTagsGet mood ≠ .inherited) :
    calculateMoodScore lower (some []) (some moods) = .ok 0 := by
  have hz : ∀ ms : List String, (ms.map (matchCount lower [])).sum = 0 := by
    intro ms
    induction ms with
    | nil => rfl
    | cons m ms ih => rw [List.map_cons, List.sum_cons, matchCount_nil, ih]
  have hf : moodScoreFormula lower [] moods = 0 := by
    unfold moodScoreFormula
    rw [hz]
    rfl
  have e : calculateMoodScore lower (some (namedGenres [])) (some moods) =
      .ok (moodScoreFormula lower [] moods) := calculateMoodScore_formula lower [] moods h
  rw [hf] at e
  exact e

/-! ## Mood scoring: the claims -/

/-- C11, at the failing inputs: the scorer is not total. A missing genre sequence
makes it raise at `map` as soon as a mood is selected; a genre entry without a
name makes it raise when a keyword is looked for in the missing name; the mood
`__proto__` makes it raise on a named genre. -/
theorem score_raises :
    calculateMoodScore toLowerCaseASCII none (some ["Dark"]) =
      .error (.typeError "Cannot read properties of undefined (reading 'map')") ∧
    calculateMoodScore toLowerCaseASCII (some [⟨none⟩]) (some ["Dark"]) =
      .error (.typeError "Cannot read properties of undefined (reading 'includes')") ∧
    calculateMoodScore toLowerCaseASCII (some [⟨some "Drama"⟩]) (some ["__proto__"]) =
      .error (.typeError "moodGenres.filter is not a function") := by
  decide

/-- For every present genre sequence whose entries all have a name and every mood
sequence without a property name of `Object.prototype`, the scorer returns a score
of at most 100 and raises nothing; for an absent or empty mood selection it
returns 0 for every genre sequence, a missing one included; for a missing genre
sequence and a non-empty mood selection it raises the `TypeError` of `map`. -/
theorem calculateMoodScore_total_on_wellformed (lower : String → String) :
    (∀ (names : List String) (moods : List String),
      (∀ mood ∈ moods, mood ∉ objectPrototypeKeys) →
      ∃ n : Nat, calculateMoodScore lower (some (namedGenres names)) (some moods) = .ok n ∧
        n ≤ 100) ∧
    (∀ movieGenres : Option (List Genre),
      calculateMoodScore lower movieGenres none = .ok 0 ∧
      calculateMoodScore lower movieGenres (some []) = .ok 0) ∧
    (∀ (mood : String) (moods : List String),
      calculateMoodScore lower none (some (mood :: moods)) =
        .error (.typeError "Cannot read properties of undefined (reading 'map')")) := by
  refine ⟨?_, fun _ => ⟨rfl, rfl⟩, fun _ _ => rfl⟩
  intro names moods h
  have hn : ∀ mood ∈ moods, moodTagsGet mood ≠ .inherited :=
    fun mood hm e => h mood hm ((moodTagsGet_inherited_iff mood).1 e)
  refine ⟨moodScoreFormula lower names moods, calculateMoodScore_formula lower names moods hn, ?_⟩
  unfold moodScoreFormula
  exact Nat.min_le_left _ _

/-- C12, at the failing input: `NotARealMood` scores 0 as the spec says, but
`toString`, which is not one of the six keys either, makes the scorer raise a
`TypeError`, alone and when added to the selection `[Feel-Good]` that scores
20. -/
theorem unknown_mood_raises :
    calculateMoodScore toLowerCaseASCII (some (namedGenres ["comedy"]))
      (some ["NotARealMood"]) = .ok 0 ∧
    MOOD_TAGS.lookup "toString" = none ∧
    calculateMoodScore toLowerCaseASCII (some (namedGenres ["comedy"])) (some ["toString"]) =
      .error (.typeError "moodGenres.filter is not a function") ∧
    calculateMoodScore toLowerCaseASCII (some (namedGenres ["comedy"])) (some ["Feel-Good"]) =
      .ok 20 ∧
    calculateMoodScore toLowerCaseASCII (some (namedGenres ["comedy"]))
      (some ["Feel-Good", "toString"]) =
      .error (.typeError "moodGenres.filter is not a function") := by
  decide

/-- C13 (empty-mood scoring): for every genre sequence, present or missing, and
every lower-casing, an absent and an empty mood selection both score 0. -/
theorem score_empty_moods (lower : String → String) (movieGenres : Option (List Genre)) :
    calculateMoodScore lower movieGenres none = .ok 0 ∧
    calculateMoodScore lower movieGenres (some []) = .ok 0 :=
  ⟨rfl, rfl⟩

/-- C14, at the failing input: the genres `[Comedy, Family, Romance, Music, Drama]`
have six keyword matches with the moods `[Feel-Good, Emotional]` and score 100;
with the mood `valueOf` added the matches are still six, and the scorer raises a
`TypeError` instead of returning 100. -/
theorem saturation_raises :
    calculateMoodScore toLowerCaseASCII
      (some (namedGenres ["Comedy", "Family", "Romance", "Music", "Drama"]))
      (some ["Feel-Good", "Emotional"]) = .ok 100 ∧
    (["Feel-Good", "Emotional", "valueOf"].map
      (matchCount toLowerCaseASCII ["Comedy", "Family", "Romance", "Music", "Drama"])).sum = 6 ∧
    calculateMoodScore toLowerCaseASCII
      (some (namedGenres ["Comedy", "Family", "Romance", "Music", "Drama"]))
      (some ["Feel-Good", "Emotional", "valueOf"]) =
      .error (.typeError "moodGenres.filter is not a function") := by
  decide

/-- C17, at the failing input: the genre `Horror` scores 20 with the moods
`[Dark]`, and with the additional mood `hasOwnProperty` the scorer raises a
`TypeError`, so the score is not kept, let alone raised. -/
theorem added_mood_raises :
    calculateMoodScore toLowerCaseASCII (some (namedGenres ["Horror"])) (some ["Dark"]) =
      .ok 20 ∧
    calculateMoodScore toLowerCaseASCII (some (namedGenres ["Horror"]))
      (some (["Dark"] ++ ["hasOwnProperty"])) =
      .error (.typeError "moodGenres.filter is not a function") := by
  decide

/-- C19, at the failing input: with the empty genre list and the moods `[Epic,
isPrototypeOf]` the scorer raises a `TypeError` instead of returning 0, whatever
the lower-casing. -/
theorem no_genres_raises (lower : String → String) :
    calculateMoodScore lower (some []) (some ["Epic", "isPrototypeOf"]) =
      .error (.typeError "moodGenres.filter is not a function") := by
  rfl

/-- C20 (the mood table): `MOOD_TAGS` has exactly the six keys Feel-Good,
Mind-Bending, Dark, Action-Packed, Emotional, Epic, in that order, and every
keyword of every entry is a non-empty ASCII string without an upper-case letter,
so lower-casing leaves it as it is. -/
theorem mood_tags_wellformed :
    MOOD_TAGS.map Prod.fst =
      ["Feel-Good", "Mind-Bending", "Dark", "Action-Packed", "Emotional", "Epic"] ∧
    ∀ entry ∈ MOOD_TAGS, ∀ kw ∈ entry.2,
      kw ≠ "" ∧ kw.data.all (fun c => decide (c.toNat < 128) && !c.isUpper) = true ∧
        toLowerCaseASCII kw = kw := by
  decide

/-! ## Mood scoring: letter case -/

theorem toLower_upper (c : Char) (h1 : 65 ≤ c.toNat) (h2 : c.toNat ≤ 90) :
    c.toLower = Char.ofNat (c.toNat + 32) := by
  unfold Char.toLower
  simp only
  rw [if_pos ⟨h1, h2⟩]

theorem toLower_not_upper (c : Char) (h : c.toNat < 65 ∨ 90 < c.toNat) : c.toLower = c := by
  unfold Char.toLower
  simp only
  rw [if_neg (by omega)]

theorem toLower_of_sameLetter (c d : Char) (h : sameLetter c d = true) :
    c.toLower = d.toLower := by
  unfold sameLetter at h
  simp only [Bool.or_eq_true, Bool.and_eq_true, beq_iff_eq, decide_eq_true_eq] at h
  rcases h with (h | h) | h
  · rw [h]
  · obtain ⟨⟨h1, h2⟩, h3⟩ := h
    rw [toLower_upper c h1 h2, toLower_not_upper d (by omega), ← h3, Char.ofNat_toNat]
  · obtain ⟨⟨h1, h2⟩, h3⟩ := h
    rw [toLower_upper d h1 h2, toLower_not_upper c (by omega), ← h3, Char.ofNat_toNat]

theorem map_toLower_of_caseVariantChars (a b : List Char) (h : caseVariantChars a b = true) :
    a.map Char.toLower = b.map Char.toLower := by
  induction a generalizing b with
  | nil =>
    cases b with
    | nil => rfl
    | cons d ds => simp [caseVariantChars] at h
  | cons c cs ih =>
    cases b with
    | nil => simp [caseVariantChars] at h
    | cons d ds =>
      simp only [caseVariantChars, Bool.and_eq_true] at h
      rw [List.map_cons, List.map_cons, toLower_of_sameLetter c d h.1, ih ds h.2]

theorem lowered_names_of_caseVariantGenres (g g' : List Genre)
    (h : caseVariantGenres g g' = true) :
    g.map (fun x => x.name.map toLowerCaseASCII) =
      g'.map (fun x => x.name.map toLowerCaseASCII) := by
  induction g generalizing g' with
  | nil =>
    cases g' with
    | nil => rfl
    | cons y ys => simp [caseVariantGenres] at h
  | cons x xs ih =>
    cases g' with
    | nil => simp [caseVariantGenres] at h
    | cons y ys =>
      simp only [caseVariantGenres, Bool.and_eq_true] at h
      rw [List.map_cons, List.map_cons, ih ys h.2]
      congr 1
      obtain ⟨xn⟩ := x
      obtain ⟨yn⟩ := y
      cases xn with
      | none =>
        cases yn with
        | none => rfl
        | some b => simp [caseVariantName] at h
      | some a =>
        cases yn with
        | none => simp [caseVariantName] at h
        | some b =>
          have hab : caseVariantChars a.data b.data = true := h.1
          simp only [Option.map, toLowerCaseASCII]
          rw [map_toLower_of_caseVariantChars _ _ hab]

theorem calculateMoodScore_congr_names (lower : String → String) (g g' : List Genre)
    (m : Option (List String))
    (h : g.map (fun x => x.name.map lower) = g'.map (fun x => x.name.map lower)) :
    calculateMoodScore lower (some g) m = calculateMoodScore lower (some g') m := by
  cases m with
  | none => rfl
  | some ms => rw [calculateMoodScore_some, calculateMoodScore_some, h]

/-- C15 (case insensitivity): for every lower-casing function, two genre lists
whose names agree after lower-casing give the same outcome for every mood
selection; in particular, with the lower-casing of the Basic Latin letters, two
genre lists that differ only in the letter case of their names do. -/
theorem score_case_insensitive :
    (∀ (lower : String → String) (g g' : List Genre) (m : Option (List String)),
      g.map (fun x => x.name.map lower) = g'.map (fun x => x.name.map lower) →
      calculateMoodScore lower (some g) m = calculateMoodScore lower (some g') m) ∧
    (∀ (g g' : List Genre) (m : Option (List String)), caseVariantGenres g g' = true →
      calculateMoodScore toLowerCaseASCII (some g) m =
        calculateMoodScore toLowerCaseASCII (some g') m) :=
  ⟨calculateMoodScore_congr_names, fun g g' m h =>
    calculateMoodScore_congr_names toLowerCaseASCII g g' m
      (lowered_names_of_caseVariantGenres g g' h)⟩

/-- C15, witness: `HORROR` and `horror` score the same against `Dark`, namely
20. -/
theorem score_case_insensitive_witness :
    calculateMoodScore toLowerCaseASCII (some [⟨some "HORROR"⟩]) (some ["Dark"]) = .ok 20 ∧
    calculateMoodScore toLowerCaseASCII (some [⟨some "horror"⟩]) (some ["Dark"]) = .ok 20 :=
  ⟨(score_case_insensitive.2 [⟨some "HORROR"⟩] [⟨some "horror"⟩] (some ["Dark"])
      (by decide)).trans (by decide), by decide⟩

/-! ## Mood scoring: repeated genres -/

theorem anyM_append_singleton {α : Type} (p : α → Except JSError Bool) (l : List α) (a : α) :
    (l ++ [a]).anyM p = (l.anyM p).bind (fun b => if b then .ok true else p a) := by
  induction l with
  | nil =>
    simp only [List.nil_append, List.anyM, bind, Except.bind, pure, Except.pure]
    cases p a with
    | error e => rfl
    | ok b => cases b <;> rfl
  | cons y ys ih =>
    simp only [List.cons_append, List.anyM, bind, Except.bind, pure, Except.pure]
    cases p y with
    | error e => rfl
    | ok b =>
      cases b with
      | true => rfl
      | false => exact ih

theorem anyM_false_of_mem {α : Type} (p : α → Except JSError Bool) (l : List α) (a : α)
    (ha : a ∈ l) (h : l.anyM p = .ok false) : p a = .ok false := by
  induction l with
  | nil => cases ha
  | cons y ys ih =>
    simp only [List.anyM, bind, Except.bind, pure, Except.pure] at h
    cases hy : p y with
    | error e => rw [hy] at h; cases h
    | ok b =>
      rw [hy] at h
      cases b with
      | true => cases h
      | false =>
        rw [List.mem_cons] at ha
        rcases ha with rfl | ha
        · exact hy
        · exact ih ha h

theorem anyM_append_mem {α : Type} (p : α → Except JSError Bool) (l : List α) (a : α)
    (ha : a ∈ l) : (l ++ [a]).anyM p = l.anyM p := by
  rw [anyM_append_singleton]
  cases h : l.anyM p with
  | error e => rfl
  | ok b =>
    cases b with
    | true => rfl
    | false => exact anyM_false_of_mem p l a ha h

theorem scoreMood_append_mem (genreNames : List (Option String)) (a : Option String)
    (ha : a ∈ genreNames) : scoreMood (genreNames ++ [a]) = scoreMood genreNames := by
  have e : (fun genre => (genreNames ++ [a]).anyM (genreIncludes genre)) =
      (fun genre => genreNames.anyM (genreIncludes genre)) := by
    funext genre
    exact anyM_append_mem _ _ _ ha
  funext score mood
  unfold scoreMood
  rw [e]

theorem filterAuxM_length {α : Type} (p : α → Except JSError Bool) (l acc r : List α)
    (h : List.filterAuxM p l acc = .ok r) : r.length ≤ l.length + acc.length := by
  induction l generalizing acc with
  | nil =>
    simp only [List.filterAuxM, pure, Except.pure] at h
    cases h
    simp
  | cons x xs ih =>
    simp only [List.filterAuxM, bind, Except.bind] at h
    cases hx : p x with
    | error e => rw [hx] at h; cases h
    | ok b =>
      rw [hx] at h
      have := ih _ h
      cases b <;> simp only [cond, List.length_cons] at this ⊢ <;> omega

theorem filterM_length {α : Type} (p : α → Except JSError Bool) (l r : List α)
    (h : l.filterM p = .ok r) : r.length ≤ l.length := by
  unfold List.filterM at h
  simp only [bind, Except.bind, pure, Except.pure] at h
  cases hf : List.filterAuxM p l [] with
  | error e => rw [hf] at h; cases h
  | ok r0 =>
    rw [hf] at h
    cases h
    have := filterAuxM_length p l [] r0 hf
    simpa using this

theorem moodKeywords_of_keywords (mood : String) (ks : List String)
    (h : moodTagsGet mood = .keywords ks) : moodKeywords mood = ks := by
  unfold moodTagsGet at h
  unfold moodKeywords
  cases hl : MOOD_TAGS.lookup mood with
  | some ks2 =>
    rw [hl] at h
    cases h
    rfl
  | none =>
    rw [hl] at h
    simp only at h
    split at h <;> cases h

/-- One mood adds at most 20 points per keyword of its table entry, however many
genre names contain the keyword. -/
theorem scoreMood_le (genreNames : List (Option String)) (score : Nat) (mood : String)
    (s : Nat) (h : scoreMood genreNames score mood = .ok s) :
    s ≤ score + 20 * (moodKeywords mood).length := by
  unfold scoreMood at h
  have hk : ∀ ks : List String,
      (do
        let hits ← ks.filterM (fun genre => genreNames.anyM (genreIncludes genre))
        (pure (score + hits.length * 20) : Except JSError Nat)) = .ok s →
      s ≤ score + 20 * ks.length := by
    intro ks hks
    simp only [bind, Except.bind, pure, Except.pure] at hks
    cases hf : ks.filterM (fun genre => genreNames.anyM (genreIncludes genre)) with
    | error e => rw [hf] at hks; cases hks
    | ok hits =>
      rw [hf] at hks
      cases hks
      have := filterM_length _ _ _ hf
      omega
  cases hm : moodTagsGet mood with
  | keywords ks =>
    rw [hm] at h
    rw [moodKeywords_of_keywords mood ks hm]
    exact hk ks h
  | inherited =>
    rw [hm] at h
    cases h
  | undefined =>
    rw [hm] at h
    have := hk [] h
    simp only [List.length_nil] at this
    omega

/-- C18 (keyword presence, not multiplicity): for every genre list, nameless
entries included, every genre `x` already in it and every mood selection, adding
`x` once more leaves the outcome as it was; and one mood adds at most 20 points
per keyword of its table entry. -/
theorem score_repeated_genre :
    (∀ (lower : String → String) (g : List Genre) (x : Genre) (m : Option (List String)),
      x ∈ g → calculateMoodScore lower (some (g ++ [x])) m = calculateMoodScore lower (some g) m) ∧
    (∀ (genreNames : List (Option String)) (score : Nat) (mood : String) (s : Nat),
      scoreMood genreNames score mood = .ok s → s ≤ score + 20 * (moodKeywords mood).length) := by
  refine ⟨?_, scoreMood_le⟩
  intro lower g x m hx
  cases m with
  | none => rfl
  | some ms =>
    rw [calculateMoodScore_some, calculateMoodScore_some, List.map_append, List.map_singleton,
      scoreMood_append_mem _ _ (List.mem_map_of_mem _ hx)]

/-- C18, witness: `[Adventure, Action, Adventure]` scores what `[Adventure,
Action]` scores against `[Action-Packed, Epic]`, namely 60. -/
theorem score_repeated_genre_witness :
    calculateMoodScore toLowerCaseASCII
      (some ([⟨some "Adventure"⟩, ⟨some "Action"⟩] ++ [⟨some "Adventure"⟩]))
      (some ["Action-Packed", "Epic"]) = .ok 60 :=
  (score_repeated_genre.1 toLowerCaseASCII [⟨some "Adventure"⟩, ⟨some "Action"⟩]
    ⟨some "Adventure"⟩ (some ["Action-Packed", "Epic"]) (by decide)).trans (by decide)

/-! ## Mood scoring: the order of the moods -/

theorem scoreMood_shift (genreNames : List (Option String)) (score : Nat) (mood : String) :
    scoreMood genreNames score mood =
      (scoreMood genreNames 0 mood).map (fun c => score + c) := by
  unfold scoreMood
  cases moodTagsGet mood with
  | keywords ks =>
    simp only [bind, Except.bind, pure, Except.pure]
    cases ks.filterM (fun genre => genreNames.anyM (genreIncludes genre)) with
    | error e => rfl
    | ok hits => simp [Except.map]
  | inherited => rfl
  | undefined => rfl

/-- The fold over the moods returns `v` exactly when counting each mood on its own
returns, and `v` is the start score plus the sum of what the moods add. -/
theorem foldlM_scoreMood_eq_ok (genreNames : List (Option String)) (moods : List String)
    (score v : Nat) :
    moods.foldlM (scoreMood genreNames) score = .ok v ↔
      (∀ mood ∈ moods, ∃ c, scoreMood genreNames 0 mood = .ok c) ∧
        v = score + (moods.map (contribution genreNames)).sum := by
  induction moods generalizing score with
  | nil =>
    simp only [List.foldlM_nil, pure, Except.pure, List.map_nil, List.sum_nil, Nat.add_zero]
    constructor
    · intro h
      cases h
      exact ⟨fun _ hm => (by cases hm), rfl⟩
    · rintro ⟨_, rfl⟩
      rfl
  | cons m ms ih =>
    rw [List.foldlM_cons, scoreMood_shift]
    cases hm : scoreMood genreNames 0 m with
    | error e =>
      constructor
      · intro h
        cases h
      · rintro ⟨hall, _⟩
        obtain ⟨c, hc⟩ := hall m (List.mem_cons_self _ _)
        rw [hm] at hc
        cases hc
    | ok c =>
      have hcontrib : contribution genreNames m = c := by
        unfold contribution
        rw [hm]
      simp only [Except.map, bind, Except.bind]
      rw [ih (score + c), List.map_cons, List.sum_cons, hcontrib]
      constructor
      · rintro ⟨hall, hv⟩
        refine ⟨?_, by omega⟩
        intro mood hmood
        rw [List.mem_cons] at hmood
        rcases hmood with rfl | hmood
        · exact ⟨c, hm⟩
        · exact hall mood hmood
      · rintro ⟨hall, hv⟩
        exact ⟨fun mood hmood => hall mood (List.mem_cons_of_mem _ hmood), by omega⟩

theorem foldlM_scoreMood_perm (genreNames : List (Option String)) (m m2 : List String)
    (h : m.Perm m2) (score v : Nat) :
    m.foldlM (scoreMood genreNames) score = .ok v ↔
      m2.foldlM (scoreMood genreNames) score = .ok v := by
  rw [foldlM_scoreMood_eq_ok, foldlM_scoreMood_eq_ok, (h.map (contribution genreNames)).sum_eq]
  constructor
  · rintro ⟨hall, hv⟩
    exact ⟨fun mood hmood => hall mood (h.mem_iff.2 hmood), hv⟩
  · rintro ⟨hall, hv⟩
    exact ⟨fun mood hmood => hall mood (h.mem_iff.1 hmood), hv⟩

theorem toOption_eq_of_ok_iff (r r2 : Except JSError Nat)
    (h : ∀ v, r = .ok v ↔ r2 = .ok v) : r.toOption = r2.toOption := by
  cases r with
  | error e =>
    cases r2 with
    | error e2 => rfl
    | ok b => exact absurd ((h b).2 rfl) (by simp)
  | ok a =>
    have := (h a).1 rfl
    rw [this]

theorem calculateMoodScore_perm_toOption (lower : String → String)
    (movieGenres : Option (List Genre)) (m m2 : List String) (h : m.Perm m2) :
    (calculateMoodScore lower movieGenres (some m)).toOption =
      (calculateMoodScore lower movieGenres (some m2)).toOption := by
  cases movieGenres with
  | none =>
    cases m with
    | nil =>
      have : m2 = [] := h.nil_eq.symm
      rw [this]
    | cons a l =>
      cases m2 with
      | nil => exact absurd h.eq_nil (by simp)
      | cons b l2 => rfl
  | some gs =>
    rw [calculateMoodScore_some, calculateMoodScore_some]
    have hiff := foldlM_scoreMood_perm (gs.map (fun g => g.name.map lower)) m m2 h 0
    cases h1 : List.foldlM (scoreMood (gs.map (fun g => g.name.map lower))) 0 m with
    | error e =>
      cases h2 : List.foldlM (scoreMood (gs.map (fun g => g.name.map lower))) 0 m2 with
      | error e2 => rfl
      | ok b => exact absurd ((hiff b).2 h2) (by rw [h1]; simp)
    | ok a =>
      rw [(hiff a).1 h1]

theorem calculateMoodScore_perm_named (lower : String → String) (names : List String)
    (m m2 : List String) (h : m.Perm m2) :
    calculateMoodScore lower (some (namedGenres names)) (some m) =
      calculateMoodScore lower (some (namedGenres names)) (some m2) := by
  by_cases hi : ∃ mood ∈ m, moodTagsGet mood = .inherited
  · have hi2 : ∃ mood ∈ m2, moodTagsGet mood = .inherited := by
      obtain ⟨mood, hm, hmood⟩ := hi
      exact ⟨mood, h.mem_iff.1 hm, hmood⟩
    rw [calculateMoodScore_inherited lower names m hi,
      calculateMoodScore_inherited lower names m2 hi2]
  · have hn : ∀ mood ∈ m, moodTagsGet mood ≠ .inherited := fun mood hm e => hi ⟨mood, hm, e⟩
    have hn2 : ∀ mood ∈ m2, moodTagsGet mood ≠ .inherited :=
      fun mood hm => hn mood (h.mem_iff.2 hm)
    rw [calculateMoodScore_formula lower names m hn,
      calculateMoodScore_formula lower names m2 hn2]
    unfold moodScoreFormula
    rw [(h.map (matchCount lower names)).sum_eq]

/-- C16 (order independence): for every list of named genres and every two mood
lists that are permutations of each other the scorer has the same outcome, the
same score or the same `TypeError`; for every genre sequence at all, nameless
entries and a missing sequence included, it returns the same score for both or
raises for both. -/
theorem score_order_independent :
    (∀ (lower : String → String) (names : List String) (m m2 : List String), m.Perm m2 →
      calculateMoodScore lower (some (namedGenres names)) (some m) =
        calculateMoodScore lower (some (namedGenres names)) (some m2)) ∧
    (∀ (lower : String → String) (movieGenres : Option (List Genre)) (m m2 : List String),
      m.Perm m2 →
      (calculateMoodScore lower movieGenres (some m)).toOption =
        (calculateMoodScore lower movieGenres (some m2)).toOption) :=
  ⟨calculateMoodScore_perm_named, calculateMoodScore_perm_toOption⟩

/-- C16, witness: `[Epic, Action-Packed]` scores what `[Action-Packed, Epic]`
scores on `[Action, Adventure]`, namely 60. -/
theorem score_order_independent_witness :
    calculateMoodScore toLowerCaseASCII (some (namedGenres ["Action", "Adventure"]))
      (some ["Epic", "Action-Packed"]) = .ok 60 :=
  (score_order_independent.1 toLowerCaseASCII ["Action", "Adventure"]
    ["Epic", "Action-Packed"] ["Action-Packed", "Epic"]
    (List.Perm.swap "Action-Packed" "Epic" [])).trans (by decide)

/-! ## The username generator -/

/-- The floored double product of a draw and a number from 65 to 128 is an index
below that number: the rounding of the product never reaches the number. -/
theorem floorTimes_lt (d : Draw) (n : Nat) (h1 : 64 < n) (h2 : n ≤ 128) :
    floorTimes d n < n := by
  unfold floorTimes
  have hpos : 0 < 2 ^ d.e := Nat.two_pow_pos d.e
  rw [Nat.div_lt_iff_lt_mul hpos]
  have hr := roundSignificand_le (d.m * n)
  obtain ⟨_, hl⟩ := bitLength_spec (d.m * n) (d.m * n) (Nat.le_refl _)
  have hs : 2 ^ (bitLength (d.m * n) (d.m * n) - 53) ≤ 128 := by
    by_cases h0 : d.m * n = 0
    · rw [h0, bitLength_zero]
      decide
    · have hl2 := hl h0
      have hp : d.m * n < 2 ^ 60 :=
        calc d.m * n ≤ d.m * 128 := Nat.mul_le_mul_left _ h2
          _ < 2 ^ 53 * 128 := Nat.mul_lt_mul_of_pos_right d.significand (by decide)
          _ = 2 ^ 60 := by decide
      have hlen : bitLength (d.m * n) (d.m * n) - 1 < 60 :=
        (Nat.pow_lt_pow_iff_right (by decide)).1 (Nat.lt_of_le_of_lt hl2 hp)
      have hle : bitLength (d.m * n) (d.m * n) - 53 ≤ 7 := by omega
      calc 2 ^ (bitLength (d.m * n) (d.m * n) - 53) ≤ 2 ^ 7 :=
            Nat.pow_le_pow_right (by decide) hle
        _ = 128 := by decide
  have hm : (d.m + 1) * n ≤ 2 ^ d.e * n := Nat.mul_le_mul_right n d.lt
  have e1 : (d.m + 1) * n = d.m * n + n := by ring
  have e2 : 2 ^ d.e * n = n * 2 ^ d.e := Nat.mul_comm _ _
  rw [e1, e2] at hm
  omega

theorem templateAt_mem (xs : List String) (i : Nat) (h : i < xs.length) :
    templateAt xs i ∈ xs := by
  unfold templateAt
  rw [List.getD_eq_getElem xs "undefined" h]
  exact List.getElem_mem h

/-- A username has the documented format: a prefix of the table, a suffix of the
table and the decimal form of a number from 10 to 99. -/
theorem makeUsername_format (d1 d2 d3 : Draw) :
    ∃ p ∈ moviePrefixes, ∃ s ∈ movieSuffixes, ∃ n : Nat, 10 ≤ n ∧ n ≤ 99 ∧
      makeUsername d1 d2 d3 = p ++ s ++ decimalString (n : Int) := by
  have hlt := floorTimes_lt d3 90 (by decide) (by decide)
  refine ⟨_, templateAt_mem moviePrefixes _ (floorTimes_lt d1 _ (by decide) (by decide)),
    _, templateAt_mem movieSuffixes _ (floorTimes_lt d2 _ (by decide) (by decide)),
    floorTimes d3 90 + 10, by omega, by omega, ?_⟩
  unfold makeUsername
  simp only
  rw [numberToString_of_lt _ (by
    have e : ((floorTimes d3 90 + 10 : Nat) : Int).natAbs = floorTimes d3 90 + 10 :=
      Int.natAbs_ofNat _
    rw [e]
    have : (100 : Nat) < 2 ^ 53 := by decide
    omega)]

theorem setAdd_nodup (s : List String) (x : String) (h : s.Nodup) : (setAdd s x).Nodup := by
  unfold setAdd
  split
  · exact h
  · rename_i hx
    rw [List.nodup_append]
    refine ⟨h, List.nodup_singleton x, ?_⟩
    intro a ha hb
    rw [List.mem_singleton] at hb
    apply hx
    rw [← hb]
    simpa using ha

theorem setAdd_length (s : List String) (x : String) : (setAdd s x).length ≤ s.length + 1 := by
  unfold setAdd
  split
  · omega
  · simp

theorem mem_setAdd (s : List String) (x u : String) (h : u ∈ setAdd s x) : u ∈ s ∨ u = x := by
  unfold setAdd at h
  split at h
  · exact Or.inl h
  · rw [List.mem_append, List.mem_singleton] at h
    exact h

/-- The loop keeps a set of at most four well-formed names and stops with exactly
four. -/
theorem usernameLoop_spec (P : String → Prop) (hP : ∀ d1 d2 d3, P (makeUsername d1 d2 d3))
    (n : Nat) : ∀ (draws : List Draw) (usernames result : List String), draws.length ≤ n →
    usernames.Nodup → usernames.length ≤ 4 → (∀ u ∈ usernames, P u) →
    usernameLoop draws usernames = some result →
    result.length = 4 ∧ result.Nodup ∧ ∀ u ∈ result, P u := by
  induction n with
  | zero =>
    intro draws usernames result hlen hnd hle hall h
    have : draws = [] := List.length_eq_zero.1 (Nat.le_zero.1 hlen)
    subst this
    unfold usernameLoop at h
    split at h
    · cases h
    · cases h
      exact ⟨by omega, hnd, hall⟩
  | succ n ih =>
    intro draws usernames result hlen hnd hle hall h
    match draws, hlen, h with
    | d1 :: d2 :: d3 :: rest, hlen, h =>
      unfold usernameLoop at h
      split at h
      · rename_i hlt
        refine ih rest _ result (by simp at hlen; omega) (setAdd_nodup _ _ hnd) ?_ ?_ h
        · have := setAdd_length usernames (makeUsername d1 d2 d3)
          omega
        · intro u hu
          rcases mem_setAdd _ _ _ hu with hu | hu
          · exact hall u hu
          · rw [hu]; exact hP d1 d2 d3
      · cases h
        exact ⟨by omega, hnd, hall⟩
    | [], _, h =>
      unfold usernameLoop at h
      split at h
      · cases h
      · cases h
        exact ⟨by omega, hnd, hall⟩
    | [d1], _, h =>
      unfold usernameLoop at h
      split at h
      · cases h
      · cases h
        exact ⟨by omega, hnd, hall⟩
    | [d1, d2], _, h =>
      unfold usernameLoop at h
      split at h
      · cases h
      · cases h
        exact ⟨by omega, hnd, hall⟩

/-- C21 (four distinct usernames): on every sequence of draws on which
`generateMovieUsernames` returns, it returns exactly four usernames, pairwise
distinct. -/
theorem usernames_four_distinct (draws : List Draw) (result : List String)
    (h : generateMovieUsernames draws = some result) : result.length = 4 ∧ result.Nodup := by
  have := usernameLoop_spec (fun _ => True) (fun _ _ _ => trivial) draws.length draws [] result
    (Nat.le_refl _) List.nodup_nil (by decide) (fun _ _ => trivial) h
  exact ⟨this.1, this.2.1⟩

set_option maxRecDepth 100000 in
/-- C21, witness: on fifteen draws (0, 1/2, 0 again, the double nearest 1/3,
507/512) whose third triple repeats the first, the generator returns after the
fifth pass with four distinct names. -/
theorem usernames_four_distinct_witness :
    generateMovieUsernames
      [draw 0 0, draw 0 0, draw 0 0, draw 1 1, draw 1 1, draw 1 1, draw 0 0, draw 0 0, draw 0 0,
        draw 6004799503160661 54, draw 6004799503160661 54, draw 6004799503160661 54,
        draw 507 9, draw 507 9, draw 507 9] =
      some ["KubrickFrame10", "SinginAngle55", "HansCritic40", "SceneHigh99"] ∧
    (["KubrickFrame10", "SinginAngle55", "HansCritic40", "SceneHigh99"].length = 4 ∧
      ["KubrickFrame10", "SinginAngle55", "HansCritic40", "SceneHigh99"].Nodup) :=
  ⟨by decide, usernames_four_distinct
    [draw 0 0, draw 0 0, draw 0 0, draw 1 1, draw 1 1, draw 1 1, draw 0 0, draw 0 0, draw 0 0,
      draw 6004799503160661 54, draw 6004799503160661 54, draw 6004799503160661 54,
      draw 507 9, draw 507 9, draw 507 9]
    ["KubrickFrame10", "SinginAngle55", "HansCritic40", "SceneHigh99"] (by decide)⟩

/-- C22 (username format): for every three draws, each a double at least 0 and
below 1, the username built from them with the rounded double products is an
element of `moviePrefixes`, then an element of `movieSuffixes`, then the decimal
form of a number from 10 to 99; so is every username the generator returns. -/
theorem usernames_format :
    (∀ d1 d2 d3 : Draw, ∃ p ∈ moviePrefixes, ∃ s ∈ movieSuffixes, ∃ n : Nat,
      10 ≤ n ∧ n ≤ 99 ∧ makeUsername d1 d2 d3 = p ++ s ++ decimalString (n : Int)) ∧
    (∀ (draws : List Draw) (result : List String), generateMovieUsernames draws = some result →
      ∀ u ∈ result, ∃ p ∈ moviePrefixes, ∃ s ∈ movieSuffixes, ∃ n : Nat,
        10 ≤ n ∧ n ≤ 99 ∧ u = p ++ s ++ decimalString (n : Int)) := by
  refine ⟨makeUsername_format, ?_⟩
  intro draws result h
  exact (usernameLoop_spec
    (fun u => ∃ p ∈ moviePrefixes, ∃ s ∈ movieSuffixes, ∃ n : Nat,
      10 ≤ n ∧ n ≤ 99 ∧ u = p ++ s ++ decimalString (n : Int))
    makeUsername_format draws.length draws [] result (Nat.le_refl _) List.nodup_nil (by decide)
    (fun _ hu => by cases hu) h).2.2

set_option maxRecDepth 100000 in
/-- C22, witness: the last name of a concrete run, `SceneHigh99`, is the prefix
`Scene`, the suffix `High` and the number 99; the third name of the run comes from
the double nearest 1/3, whose product with 90 rounds up to 30. -/
theorem usernames_format_witness :
    ∃ p ∈ moviePrefixes, ∃ s ∈ movieSuffixes, ∃ n : Nat,
      10 ≤ n ∧ n ≤ 99 ∧ "SceneHigh99" = p ++ s ++ decimalString (n : Int) :=
  usernames_format.2
    [draw 0 0, draw 0 0, draw 0 0, draw 1 1, draw 1 1, draw 1 1,
      draw 6004799503160661 54, draw 6004799503160661 54, draw 6004799503160661 54,
      draw 507 9, draw 507 9, draw 507 9]
    ["KubrickFrame10", "SinginAngle55", "HansCritic40", "SceneHigh99"] (by decide)
    "SceneHigh99" (by decide)

/-! ## The pattern of `explainUsername` -/

theorem takeWhile_append_stop {α : Type} (p : α → Bool) (l r : List α) (y : α)
    (hl : ∀ x ∈ l, p x = true) (hy : p y = false) : (l ++ y :: r).takeWhile p = l := by
  induction l with
  | nil => simp [List.takeWhile, hy]
  | cons x xs ih =>
    rw [List.cons_append, List.takeWhile_cons, hl x (List.mem_cons_self _ _)]
    simp only [if_true]
    rw [ih (fun z hz => hl z (List.mem_cons_of_mem _ hz))]

theorem digit_not_letter (c : Char) (h : isAsciiDigit c = true) : isAsciiLetter c = false := by
  unfold isAsciiDigit at h
  unfold isAsciiLetter
  simp only [Bool.and_eq_true, decide_eq_true_eq] at h
  simp only [Bool.or_eq_false_iff, Bool.and_eq_false_iff, decide_eq_false_iff_not]
  omega

theorem letter_not_digit (c : Char) (h : isAsciiLetter c = true) : isAsciiDigit c = false := by
  cases hd : isAsciiDigit c with
  | false => rfl
  | true => rw [digit_not_letter c hd] at h; cases h

theorem matchGroups_digits (ds : List Char) (hne : ds ≠ [])
    (hd : ∀ x ∈ ds, isAsciiDigit x = true) : matchGroups [isAsciiDigit] ds = some [ds] := by
  have htake : ds.takeWhile isAsciiDigit = ds := by
    rw [List.takeWhile_eq_self_iff]
    exact hd
  obtain ⟨n, hn⟩ : ∃ n, ds.length = n + 1 := by
    cases ds with
    | nil => exact absurd rfl hne
    | cons a t => exact ⟨t.length, rfl⟩
  unfold matchGroups
  rw [htake, hn, tryLengths, ← hn, List.drop_length, List.take_length]
  rfl

theorem matchGroups_letter_digits (c : Char) (ds : List Char) (hc : isAsciiLetter c = true)
    (hne : ds ≠ []) (hd : ∀ x ∈ ds, isAsciiDigit x = true) :
    matchGroups [isAsciiLetter, isAsciiDigit] (c :: ds) = some [[c], ds] := by
  obtain ⟨d, t, rfl⟩ := List.exists_cons_of_ne_nil hne
  have hdl : isAsciiLetter d = false := digit_not_letter d (hd d (List.mem_cons_self _ _))
  have htake : (c :: d :: t).takeWhile isAsciiLetter = [c] := by
    simp [List.takeWhile, hc, hdl]
  rw [matchGroups, htake]
  show tryLengths (matchGroups [isAsciiDigit]) (c :: d :: t) 1 = _
  rw [tryLengths]
  show (match matchGroups [isAsciiDigit] (d :: t) with
    | some groups => some ([c] :: groups)
    | none => tryLengths (matchGroups [isAsciiDigit]) (c :: d :: t) 0) = _
  rw [matchGroups_digits (d :: t) hne hd]

theorem matchGroups_no_letter (ds : List Char) (hne : ds ≠ [])
    (hd : ∀ x ∈ ds, isAsciiDigit x = true) :
    matchGroups [isAsciiLetter, isAsciiDigit] ds = none := by
  obtain ⟨d, t, rfl⟩ := List.exists_cons_of_ne_nil hne
  have hdl : isAsciiLetter d = false := digit_not_letter d (hd d (List.mem_cons_self _ _))
  have htake : (d :: t).takeWhile isAsciiLetter = [] := by simp [List.takeWhile, hdl]
  rw [matchGroups, htake]
  rfl

/-- On a run of letters followed by a run of digits the greedy first group takes
all the letters but the last one, and the second group is that one letter. -/
theorem matchGroups_letters_digits (init : List Char) (c : Char) (ds : List Char)
    (hinit : init ≠ []) (hl : ∀ x ∈ init, isAsciiLetter x = true) (hc : isAsciiLetter c = true)
    (hne : ds ≠ []) (hd : ∀ x ∈ ds, isAsciiDigit x = true) :
    matchGroups [isAsciiLetter, isAsciiLetter, isAsciiDigit] (init ++ c :: ds) =
      some [init, [c], ds] := by
  obtain ⟨d, t, rfl⟩ := List.exists_cons_of_ne_nil hne
  have hdl : isAsciiLetter d = false := digit_not_letter d (hd d (List.mem_cons_self _ _))
  have htake : (init ++ c :: d :: t).takeWhile isAsciiLetter = init ++ [c] := by
    have := takeWhile_append_stop isAsciiLetter (init ++ [c]) t d (by
      intro x hx
      rw [List.mem_append, List.mem_singleton] at hx
      rcases hx with hx | rfl
      · exact hl x hx
      · exact hc) hdl
    simpa using this
  obtain ⟨m, hm⟩ : ∃ m, init.length = m + 1 := by
    cases init with
    | nil => exact absurd rfl hinit
    | cons a t => exact ⟨t.length, rfl⟩
  have hdrop2 : (init ++ c :: d :: t).drop (m + 1 + 1) = d :: t := by
    have : (init ++ c :: d :: t) = (init ++ [c]) ++ (d :: t) := by simp
    rw [this, List.drop_left' (by simp [hm])]
  have hdrop1 : (init ++ c :: d :: t).drop (m + 1) = c :: d :: t :=
    List.drop_left' hm
  have htake1 : (init ++ c :: d :: t).take (m + 1) = init := List.take_left' hm
  rw [matchGroups, htake, List.length_append, hm]
  show tryLengths (matchGroups [isAsciiLetter, isAsciiDigit]) (init ++ c :: d :: t)
    (m + 1 + 1) = _
  rw [tryLengths, hdrop2, matchGroups_no_letter (d :: t) hne hd]
  simp only
  rw [tryLengths, hdrop1, matchGroups_letter_digits c (d :: t) hc hne hd, htake1]

theorem contains_single_char (l : List String) (c : Char) (h : ∀ s ∈ l, s.length ≠ 1) :
    l.contains (⟨[c]⟩ : String) = false := by
  cases hc : l.contains (⟨[c]⟩ : String) with
  | false => rfl
  | true =>
    have hm : (⟨[c]⟩ : String) ∈ l := by simpa using hc
    exact absurd rfl (h _ hm)

/-- On letters followed by digits `explainUsername` never reaches its first two
answers: the suffix it extracts is a single letter. -/
theorem explainUsername_letters_digits (init : List Char) (c : Char) (ds : List Char)
    (hinit : init ≠ []) (hl : ∀ x ∈ init, isAsciiLetter x = true) (hc : isAsciiLetter c = true)
    (hne : ds ≠ []) (hd : ∀ x ∈ ds, isAsciiDigit x = true) :
    explainUsername ⟨init ++ c :: ds⟩ =
      if moviePrefixes.contains ⟨init⟩ then "Cinema-inspired + Film industry term"
      else "Movie-themed username" := by
  unfold explainUsername
  rw [matchGroups_letters_digits init c ds hinit hl hc hne hd]
  simp only
  rw [contains_single_char ["Frame", "Scene", "Take", "Cut", "Shot"] c (by decide),
    contains_single_char ["Critic", "Fan", "Buff", "Lover"] c (by decide)]
  rfl

theorem digitChar_isAsciiDigit (d : Nat) (h : d < 10) : isAsciiDigit (digitChar d) = true := by
  unfold isAsciiDigit
  rw [digitChar_toNat d h]
  simp only [Bool.and_eq_true, decide_eq_true_eq]
  omega

theorem numberToString_nat_digits (n : Nat) (h : n < 2 ^ 53) :
    (numberToString (n : Int)).data ≠ [] ∧
      ∀ x ∈ (numberToString (n : Int)).data, isAsciiDigit x = true := by
  obtain ⟨hne, hdig⟩ := decimalDigits_digits n
  have hdata : (numberToString (n : Int)).data = decimalDigits (n + 1) n [] := by
    rw [numberToString_of_lt _ (by simpa using h)]
    unfold decimalString
    rw [if_neg (by omega)]
    simp only [Int.natAbs_ofNat]
  rw [hdata]
  refine ⟨hne, ?_⟩
  intro x hx
  have := hdig x hx
  unfold isAsciiDigit
  simp only [Bool.and_eq_true, decide_eq_true_eq]
  exact this

theorem table_words_are_letters :
    (∀ p ∈ moviePrefixes, p.data ≠ [] ∧ p.data.all isAsciiLetter = true) ∧
    (∀ s ∈ movieSuffixes, s.data ≠ [] ∧ s.data.all isAsciiLetter = true) := by
  decide

/-- For every username of the documented format, whatever the prefix, the suffix
and the number, `explainUsername` answers neither `Film reference + Production
term` nor `Movie reference + Cinema enthusiast`. -/
theorem explainUsername_generated (p s : String) (n : Nat) (hp : p ∈ moviePrefixes)
    (hs : s ∈ movieSuffixes) (hn : n < 2 ^ 53) :
    explainUsername (p ++ s ++ numberToString (n : Int)) = "Cinema-inspired + Film industry term" ∨
    explainUsername (p ++ s ++ numberToString (n : Int)) = "Movie-themed username" := by
  obtain ⟨hpne, hpl⟩ := table_words_are_letters.1 p hp
  obtain ⟨hsne, hsl⟩ := table_words_are_letters.2 s hs
  obtain ⟨hdne, hdd⟩ := numberToString_nat_digits n hn
  have hsplit : s.data = s.data.dropLast ++ [s.data.getLast hsne] :=
    (List.dropLast_append_getLast hsne).symm
  have hstr : p ++ s ++ numberToString (n : Int) =
      ⟨(p.data ++ s.data.dropLast) ++ s.data.getLast hsne :: (numberToString (n : Int)).data⟩ := by
    apply String.ext
    simp only [String.data_append]
    conv => lhs; rw [hsplit]
    simp
  rw [List.all_eq_true] at hpl hsl
  rw [hstr, explainUsername_letters_digits _ _ _ (by simp [hpne]) (by
      intro x hx
      rw [List.mem_append] at hx
      rcases hx with hx | hx
      · exact hpl x hx
      · exact hsl x (List.mem_of_mem_dropLast hx))
    (hsl _ (List.getLast_mem hsne)) hdne hdd]
  split
  · exact Or.inl rfl
  · exact Or.inr rfl

/-- C23, at the failing input: for the prefix `Kubrick`, the suffix `Frame` and
the number 42 the pattern captures `KubrickFram` and `e`, so `explainUsername`
returns `Movie-themed username`, not `Film reference + Production term`. -/
theorem explain_misses_components :
    "Kubrick" ∈ moviePrefixes ∧
    matchGroups [isAsciiLetter, isAsciiLetter, isAsciiDigit] "KubrickFrame42".data =
      some ["KubrickFram".data, "e".data, "42".data] ∧
    explainUsername ("Kubrick" ++ "Frame" ++ numberToString 42) = "Movie-themed username" := by
  decide

/-! ## The URL effect -/

theorem setSearchParams_encode (filters : Filters) :
    setSearchParams (encodeFiltersToURL filters) = encodeFiltersToURL filters := by
  unfold setSearchParams encodeFiltersToURL
  rw [ofString_toString]

theorem updateURL_of_eq (filters : Filters) (query : String)
    (h : encodeFiltersToURL filters = (useSearchParams query).toString) :
    updateURL filters query = ⟨false, query⟩ := by
  unfold updateURL
  simp only
  rw [if_neg (fun hn => hn h)]

theorem updateURL_of_ne (filters : Filters) (query : String)
    (h : encodeFiltersToURL filters ≠ (useSearchParams query).toString) :
    updateURL filters query = ⟨true, encodeFiltersToURL filters⟩ := by
  unfold updateURL
  simp only
  rw [if_pos h, setSearchParams_encode]

/-- C24, the counterexample: with the default filters and the address-bar query
`year_from=1990&year_to=2024&` the two strings differ, but the parsed query
serializes to the encoded filters, so the effect replaces nothing and the query
afterwards is not the encoded filters. -/
theorem url_mirroring_fails :
    encodeFiltersToURL ⟨some [], some [], some [], .num 1990, .num 2024⟩ =
      "year_from=1990&year_to=2024" ∧
    (useSearchParams "year_from=1990&year_to=2024&").toString = "year_from=1990&year_to=2024" ∧
    updateURL ⟨some [], some [], some [], .num 1990, .num 2024⟩
      "year_from=1990&year_to=2024&" = ⟨false, "year_from=1990&year_to=2024&"⟩ ∧
    (updateURL ⟨some [], some [], some [], .num 1990, .num 2024⟩
      "year_from=1990&year_to=2024&").query ≠
      encodeFiltersToURL ⟨some [], some [], some [], .num 1990, .num 2024⟩ := by
  decide

/-- C24, as amended (URL mirroring): for every filter state and every query text of
the address bar, the effect replaces the query exactly when the encoded filters
differ from the serialization of the parsed query, hence only when they differ
from the query text, and it leaves the text untouched when they are equal to it;
a replaced query is the encoded filters, an unreplaced one is the text as it was;
in both cases the parsed query afterwards serializes to the encoded filters, and
the query text afterwards is the encoded filters whenever the text before was the
serialization of its own parse. -/
theorem url_mirroring (filters : Filters) (query : String) :
    ((updateURL filters query).replaced = true ↔
      encodeFiltersToURL filters ≠ (useSearchParams query).toString) ∧
    ((updateURL filters query).replaced = true → encodeFiltersToURL filters ≠ query) ∧
    (encodeFiltersToURL filters = query → updateURL filters query = ⟨false, query⟩) ∧
    ((updateURL filters query).replaced = true →
      (updateURL filters query).query = encodeFiltersToURL filters) ∧
    ((updateURL filters query).replaced = false → (updateURL filters query).query = query) ∧
    (useSearchParams (updateURL filters query).query).toString = encodeFiltersToURL filters ∧
    ((useSearchParams query).toString = query →
      (updateURL filters query).query = encodeFiltersToURL filters) := by
  have hself : encodeFiltersToURL filters = query →
      encodeFiltersToURL filters = (useSearchParams query).toString := by
    intro e
    rw [← e]
    unfold useSearchParams encodeFiltersToURL
    rw [ofString_toString]
  by_cases h : encodeFiltersToURL filters = (useSearchParams query).toString
  · rw [updateURL_of_eq filters query h]
    refine ⟨⟨fun hr => (by cases hr), fun hn => absurd h hn⟩, fun hr => (by cases hr),
      fun _ => rfl, fun hr => (by cases hr), fun _ => rfl, h.symm, fun hq => ?_⟩
    show query = encodeFiltersToURL filters
    rw [h, hq]
  · rw [updateURL_of_ne filters query h]
    refine ⟨⟨fun _ => h, fun _ => rfl⟩, fun _ e => h (hself e), fun e => absurd (hself e) h,
      fun _ => rfl, fun hr => (by cases hr), ?_, fun _ => rfl⟩
    show (useSearchParams (encodeFiltersToURL filters)).toString = encodeFiltersToURL filters
    unfold useSearchParams encodeFiltersToURL
    rw [ofString_toString]

/-- C24, witness: with the default filters and an empty address-bar query the
effect replaces the query, which then reads `year_from=1990&year_to=2024`; run
again on that query it replaces nothing. -/
theorem url_mirroring_witness :
    (updateURL ⟨some [], some [], some [], .num 1990, .num 2024⟩ "").query =
      "year_from=1990&year_to=2024" ∧
    updateURL ⟨some [], some [], some [], .num 1990, .num 2024⟩
      "year_from=1990&year_to=2024" = ⟨false, "year_from=1990&year_to=2024"⟩ :=
  ⟨((url_mirroring ⟨some [], some [], some [], .num 1990, .num 2024⟩ "").2.2.2.1
      (by decide)).trans (by decide),
    (url_mirroring ⟨some [], some [], some [], .num 1990, .num 2024⟩
      "year_from=1990&year_to=2024").2.2.1 (by decide)⟩

/-! ## The codec: decoded selections -/

theorem decodeFiltersFromURL_years (q : URLSearchParams) :
    ∃ a b : Int, a ≠ 0 ∧ b ≠ 0 ∧ decodeFiltersFromURL q =
      ⟨some (decodeList q "genres"), some (decodeList q "moods"), some (decodeList q "rating"),
        .num a, .num b⟩ := by
  have hy : ∀ (v : JSVal) (d : Int), d ≠ 0 →
      ∃ a : Int, a ≠ 0 ∧ jsOr (parseInt v) (.num d) = .num a := by
    intro v d hd
    rcases parseInt_cases v with h | ⟨n, h⟩
    · exact ⟨d, hd, (jsOr_parseInt v (.num d)).2.2 h⟩
    · by_cases hn : n = 0
      · exact ⟨d, hd, (jsOr_parseInt v (.num d)).2.1 (by rw [h, hn])⟩
      · exact ⟨n, hn, (jsOr_parseInt v (.num d)).1 n h hn⟩
  obtain ⟨a, ha0, ha⟩ := hy (q.get "year_from") 1990 (by decide)
  obtain ⟨b, hb0, hb⟩ := hy (q.get "year_to") 2024 (by decide)
  refine ⟨a, b, ha0, hb0, ?_⟩
  unfold decodeFiltersFromURL
  rw [ha, hb]

theorem decodeList_memberOk (q : URLSearchParams) (key : String) :
    (∀ x ∈ decodeList q key, memberOk x) ∧ (∀ x ∈ decodeList q key, x.isStr = true) := by
  constructor
  · intro x hx
    obtain ⟨s, rfl, hne, hc⟩ := (decodeList_spec q key).2.2 x hx
    exact ⟨rfl, hne, hc⟩
  · intro x hx
    obtain ⟨s, rfl, _, _⟩ := (decodeList_spec q key).2.2 x hx
    rfl

/-- C25, the counterexample: the query `year_from=1000000000000000000000` decodes
to the year `10 ^ 21`, which is encoded as `1e+21`, and decoding that gives the
year 1: the decoded selection is not a fixed point. -/
theorem decode_fixed_point_fails :
    (decodeFiltersFromURL [("year_from", "1000000000000000000000")]).year_from =
      .num (10 ^ 21) ∧
    encodeFiltersToURL (decodeFiltersFromURL [("year_from", "1000000000000000000000")]) =
      "year_from=1e%2B21&year_to=2024" ∧
    (decodeFiltersFromURL (URLSearchParams.ofString (encodeFiltersToURL
      (decodeFiltersFromURL [("year_from", "1000000000000000000000")])))).year_from = .num 1 ∧
    decodeFiltersFromURL (URLSearchParams.ofString (encodeFiltersToURL
      (decodeFiltersFromURL [("year_from", "1000000000000000000000")]))) ≠
      decodeFiltersFromURL [("year_from", "1000000000000000000000")] := by
  decide

/-- C25, as amended (fixed point): for every query whose two decoded years are
safe integers (below `2 ^ 53` in absolute value), decoding the parsed encoding of
the decoded selection gives the decoded selection again, as it is. -/
theorem decode_fixed_point (q : URLSearchParams) (a b : Int)
    (hfrom : (decodeFiltersFromURL q).year_from = .num a)
    (hto : (decodeFiltersFromURL q).year_to = .num b)
    (ha : a.natAbs < 2 ^ 53) (hb : b.natAbs < 2 ^ 53) :
    decodeFiltersFromURL (URLSearchParams.ofString
      (encodeFiltersToURL (decodeFiltersFromURL q))) = decodeFiltersFromURL q := by
  obtain ⟨a2, b2, ha0, hb0, e⟩ := decodeFiltersFromURL_years q
  rw [e] at hfrom hto
  have ea : a2 = a := by cases hfrom; rfl
  have eb : b2 = b := by cases hto; rfl
  subst ea eb
  have hg := decodeList_memberOk q "genres"
  have hm := decodeList_memberOk q "moods"
  have hr := decodeList_memberOk q "rating"
  rw [e]
  rw [roundtrip_general
      ⟨some (decodeList q "genres"), some (decodeList q "moods"), some (decodeList q "rating"),
        .num a2, .num b2⟩ hg.1 hm.1 hr.1 (Or.inr ⟨a2, rfl, ha⟩) (Or.inr ⟨b2, rfl, hb⟩),
    stringified_of_strings
      ⟨some (decodeList q "genres"), some (decodeList q "moods"), some (decodeList q "rating"),
        .num a2, .num b2⟩ hg.2 hm.2 hr.2]
  unfold canonical
  have ta : jsOr (JSVal.num a2) (.num 1990) = .num a2 := by simp [jsOr, JSVal.truthy, ha0]
  have tb : jsOr (JSVal.num b2) (.num 2024) = .num b2 := by simp [jsOr, JSVal.truthy, hb0]
  simp only [ta, tb]
  rfl

/-- C25, witness: the query `genres=,28,,12&year_from=0x7D0&moods=Epic` decodes to
genres `28`, `12`, mood `Epic` and the years 2000 and 2024, and that selection
comes back from its own encoding. -/
theorem decode_fixed_point_witness :
    decodeFiltersFromURL (URLSearchParams.ofString (encodeFiltersToURL
      (decodeFiltersFromURL
        [("genres", ",28,,12"), ("year_from", "0x7D0"), ("moods", "Epic")]))) =
      ⟨some [.str "28", .str "12"], some [.str "Epic"], some [], .num 2000, .num 2024⟩ :=
  (decode_fixed_point [("genres", ",28,,12"), ("year_from", "0x7D0"), ("moods", "Epic")]
    2000 2024 (by decide) (by decide) (by decide) (by decide)).trans (by decide)

/-- C26 (years are always encoded): for every query the decoded years are never
0, so the parsed encoding of the decoded selection has both a `year_from` and a
`year_to` key; the default selection encodes to `year_from=1990&year_to=2024`. -/
theorem decoded_years_encoded :
    (∀ q : URLSearchParams,
      (decodeFiltersFromURL q).year_from ≠ .num 0 ∧
      (decodeFiltersFromURL q).year_to ≠ .num 0 ∧
      "year_from" ∈ (URLSearchParams.ofString
        (encodeFiltersToURL (decodeFiltersFromURL q))).map Prod.fst ∧
      "year_to" ∈ (URLSearchParams.ofString
        (encodeFiltersToURL (decodeFiltersFromURL q))).map Prod.fst) ∧
    encodeFiltersToURL ⟨some [], some [], some [], .num 1990, .num 2024⟩ =
      "year_from=1990&year_to=2024" := by
  refine ⟨?_, by decide⟩
  intro q
  obtain ⟨a, b, ha, hb, e⟩ := decodeFiltersFromURL_years q
  rw [e]
  have ta : (JSVal.num a).truthy = true := by simp [JSVal.truthy, ha]
  have tb : (JSVal.num b).truthy = true := by simp [JSVal.truthy, hb]
  refine ⟨fun h => ha (by cases h; rfl), fun h => hb (by cases h; rfl), ?_, ?_⟩
  · unfold encodeFiltersToURL
    rw [ofString_toString, encodeParams_eq]
    simp only [ta, tb, if_true, List.map_append, List.mem_append, List.map_cons, List.map_nil,
      List.mem_singleton]
    exact Or.inl (Or.inr trivial)
  · unfold encodeFiltersToURL
    rw [ofString_toString, encodeParams_eq]
    simp only [ta, tb, if_true, List.map_append, List.mem_append, List.map_cons, List.map_nil,
      List.mem_singleton]
    exact Or.inr trivial

/-! ## Mood scoring: one mood, and the same mood twice -/

theorem lookup_mem_values {α β : Type} [BEq α] (a : α) (b : β) (l : List (α × β))
    (h : l.lookup a = some b) : b ∈ l.map Prod.snd := by
  induction l with
  | nil => cases h
  | cons e es ih =>
    obtain ⟨k, v⟩ := e
    rw [List.lookup] at h
    cases hk : a == k with
    | true =>
      rw [hk] at h
      cases h
      simp
    | false =>
      rw [hk] at h
      rw [List.map_cons, List.mem_cons]
      exact Or.inr (ih h)

theorem moodKeywords_length_le (mood : String) : (moodKeywords mood).length ≤ 4 := by
  unfold moodKeywords
  cases hl : MOOD_TAGS.lookup mood with
  | none => simp
  | some ks =>
    have hm := lookup_mem_values mood ks MOOD_TAGS hl
    have hall : ∀ ks ∈ MOOD_TAGS.map Prod.snd, ks.length ≤ 4 := by decide
    exact hall ks hm

theorem calculateMoodScore_single (lower : String → String) (gs : List Genre) (x : String) :
    calculateMoodScore lower (some gs) (some [x]) =
      (scoreMood (gs.map (fun g => g.name.map lower)) 0 x).map (fun s => min s 100) := by
  rw [calculateMoodScore_some]
  simp only [List.foldlM_cons, List.foldlM_nil, bind, Except.bind, pure, Except.pure]
  cases scoreMood (gs.map (fun g => g.name.map lower)) 0 x <;> rfl

theorem calculateMoodScore_double (lower : String → String) (gs : List Genre) (x : String) :
    calculateMoodScore lower (some gs) (some [x, x]) =
      ((scoreMood (gs.map (fun g => g.name.map lower)) 0 x).map (fun c => c + c)).map
        (fun s => min s 100) := by
  rw [calculateMoodScore_some]
  simp only [List.foldlM_cons, List.foldlM_nil, bind, Except.bind, pure, Except.pure]
  cases h : scoreMood (gs.map (fun g => g.name.map lower)) 0 x with
  | error e => rfl
  | ok c =>
    simp only [Except.map]
    rw [scoreMood_shift, h]
    rfl

theorem calculateMoodScore_single_le (lower : String → String)
    (movieGenres : Option (List Genre)) (x : String) (s : Nat)
    (h : calculateMoodScore lower movieGenres (some [x]) = .ok s) :
    s ≤ 20 * (moodKeywords x).length := by
  cases movieGenres with
  | none => cases h
  | some gs =>
    rw [calculateMoodScore_single] at h
    cases hc : scoreMood (gs.map (fun g => g.name.map lower)) 0 x with
    | error e => rw [hc] at h; cases h
    | ok c =>
      rw [hc] at h
      simp only [Except.map] at h
      cases h
      have := scoreMood_le _ 0 x c hc
      omega

/-- C27 (one mood stays below 100): for every genre sequence and every mood, a
score returned for that mood alone is at most 20 times the number of keywords of
the mood, which is at most 80; and for named genres and a mood that is no
property name of `Object.prototype` a score is returned. -/
theorem single_mood_bound :
    (∀ (lower : String → String) (movieGenres : Option (List Genre)) (x : String) (s : Nat),
      calculateMoodScore lower movieGenres (some [x]) = .ok s →
      s ≤ 20 * (moodKeywords x).length ∧ 20 * (moodKeywords x).length ≤ 80) ∧
    (∀ (lower : String → String) (names : List String) (x : String),
      x ∉ objectPrototypeKeys →
      ∃ s : Nat, calculateMoodScore lower (some (namedGenres names)) (some [x]) = .ok s ∧
        s ≤ 20 * (moodKeywords x).length ∧ s < 100) := by
  constructor
  · intro lower movieGenres x s h
    have := moodKeywords_length_le x
    exact ⟨calculateMoodScore_single_le lower movieGenres x s h, by omega⟩
  · intro lower names x hx
    have hn : ∀ mood ∈ [x], moodTagsGet mood ≠ .inherited := by
      intro mood hm e
      rw [List.mem_singleton] at hm
      rw [hm] at e
      exact hx ((moodTagsGet_inherited_iff x).1 e)
    have hf := calculateMoodScore_formula lower names [x] hn
    have hb := calculateMoodScore_single_le lower _ x _ hf
    have := moodKeywords_length_le x
    exact ⟨_, hf, hb, by omega⟩

/-- C27, witness: `Feel-Good`, the mood with the most keywords, scores 80 on
genres that match all four of them. -/
theorem single_mood_bound_witness :
    calculateMoodScore toLowerCaseASCII
      (some (namedGenres ["Comedy", "Family", "Romance", "Music"])) (some ["Feel-Good"]) =
      .ok 80 ∧
    (80 ≤ 20 * (moodKeywords "Feel-Good").length ∧ 20 * (moodKeywords "Feel-Good").length ≤ 80) :=
  ⟨by decide, single_mood_bound.1 toLowerCaseASCII
    (some (namedGenres ["Comedy", "Family", "Romance", "Music"])) "Feel-Good" 80 (by decide)⟩

/-- C28 (repeated moods count again): for every genre sequence and every mood, the
outcome for the mood given twice is the outcome for the mood given once with the
score doubled and capped at 100 (and the same exception when the single run
raises); the decoder keeps a repeated mood, and `Horror` scores 40 against
`[Dark, Dark]`. -/
theorem repeated_mood_counts_twice :
    (∀ (lower : String → String) (movieGenres : Option (List Genre)) (x : String),
      calculateMoodScore lower movieGenres (some [x, x]) =
        (calculateMoodScore lower movieGenres (some [x])).map (fun s => min 100 (2 * s))) ∧
    (decodeFiltersFromURL [("moods", "Dark,Dark")]).moods = some [.str "Dark", .str "Dark"] ∧
    calculateMoodScore toLowerCaseASCII (some (namedGenres ["Horror"]))
      (some ["Dark", "Dark"]) = .ok 40 := by
  refine ⟨?_, by decide, by decide⟩
  intro lower movieGenres x
  cases movieGenres with
  | none => rfl
  | some gs =>
    rw [calculateMoodScore_double, calculateMoodScore_single]
    cases hc : scoreMood (gs.map (fun g => g.name.map lower)) 0 x with
    | error e => rfl
    | ok c =>
      have h1 := scoreMood_le _ 0 x c hc
      have h2 := moodKeywords_length_le x
      simp only [Except.map]
      congr 1
      omega

/-! ## Sign-up -/

/-- C29 (sign-up on a taken name): for every state whose stored users hold an
entry for the username, and every password and clock reading, `signup` answers
`{success: false, error: 'Username already exists'}` and leaves the stored users,
the stored session and the current user as they were. -/
theorem signup_taken_name (st : AuthState) (entries : List (String × StoredUser))
    (username password createdAt loginTime : String) (hst : st.users = .object entries)
    (hu : (entries.lookup username).isSome = true) :
    signup st username password createdAt loginTime =
      (⟨false, some "Username already exists"⟩, st) := by
  unfold signup
  rw [hst]
  simp only
  have : usersHas entries username = true := by
    unfold usersHas
    rw [hu]
    rfl
  rw [if_pos this]

/-- C29, witness: with `neo` already stored, a second sign-up as `neo` is refused
and nothing changes. -/
theorem signup_taken_name_witness :
    signup ⟨.object [("neo", ⟨"pw1", "2024-01-01T00:00:00.000Z", [603], []⟩)], none, none⟩
        "neo" "pw2" "2024-02-02T00:00:00.000Z" "2024-02-02T00:00:00.001Z" =
      (⟨false, some "Username already exists"⟩,
        ⟨.object [("neo", ⟨"pw1", "2024-01-01T00:00:00.000Z", [603], []⟩)], none, none⟩) :=
  signup_taken_name _ [("neo", ⟨"pw1", "2024-01-01T00:00:00.000Z", [603], []⟩)]
    "neo" "pw2" "2024-02-02T00:00:00.000Z" "2024-02-02T00:00:00.001Z" rfl (by decide)

end FinalTake
